import Mathlib

/-! Verification development for the `mylog` logging engine.

Shallow embedding of `stage1_/logs/buffer.hpp`, `looper.hpp`, `logger.hpp`
(`Logger::common_level`, `SyncLogger::log`, `AsyncLogger::realLog`, the builders
and `LoggerManager`), `sink.hpp` (`RollBySizeSink`), `sin_extend.hpp`
(`RollByTimeSink`), `format.hpp` (`Formatter`) and `util.hpp`
(`File::createDirectory`), of the fixed-style formatter of `stage1`
(`bitlog::Formatter`) and of the sorting functions of `stage0/cmake_stu`,
followed by the theorems that settle the contract claims about them.

Conventions
* `size_t` values are natural numbers; every `size_t` addition, subtraction and
  multiplication performed by the source is reduced modulo `2 ^ 64`
  (`szAdd`, `szSub`, `szMul`).
* `std::vector<char>` is a length together with an index-to-byte map; bytes at
  or beyond the length are never read by the source.
* a failed `assert` aborts the process: operations containing one return
  `Option`, with `none` for the abort; where exceptions matter too, a call ends
  with an `Outcome`.
* `time_t` values are integers; local time is UTC plus a fixed offset, and the
  calendar date of a broken-down time is kept as the number of its day.
-/

namespace mylog

/-- One `char` of the arena. -/
abbrev Byte := Fin 256

/-- Number of values of `size_t` on the 64-bit target. -/
abbrev SIZE_MOD : Nat := 18446744073709551616

/-- Addition of two `size_t` values. -/
def szAdd (a b : Nat) : Nat := (a + b) % SIZE_MOD

/-- Subtraction of two `size_t` values (wraps around below zero). -/
def szSub (a b : Nat) : Nat := (a + SIZE_MOD - b % SIZE_MOD) % SIZE_MOD

/-- Multiplication of two `size_t` values. -/
def szMul (a b : Nat) : Nat := (a * b) % SIZE_MOD

/-- Constant `DEFAULT_BUFFER_SIZE` of buffer.hpp. -/
abbrev DEFAULT_BUFFER_SIZE : Nat := 10 * 1024 * 1024
/-- Constant `THRESHOLD_BUFFER_SIZE` of buffer.hpp. -/
abbrev THRESHOLD_BUFFER_SIZE : Nat := 80 * 1024 * 1024
/-- Constant `INCREMENT_BUFFER_SIZE` of buffer.hpp. -/
abbrev INCREMENT_BUFFER_SIZE : Nat := 10 * 1024 * 1024

/-- A `std::vector<char>`: its `size()` and its elements. -/
structure CharVec where
  size : Nat
  data : Nat → Byte

namespace CharVec

/-- The vector built by `std::vector<char>(n)`: `n` value-initialised chars. -/
def zeros (n : Nat) : CharVec := { size := n, data := fun _ => 0 }

/-- The call `v.resize(n)`: elements below the old size are kept, new elements are zero. -/
def resize (v : CharVec) (n : Nat) : CharVec :=
  { size := n, data := fun i => if i < v.size then v.data i else 0 }

/-- The call `std::memcpy(v.data() + off, src, len)` with `len = src.length`. -/
def memcpy (v : CharVec) (off : Nat) (src : List Byte) : CharVec :=
  { v with data := fun i =>
      if off ≤ i ∧ i < off + src.length then src.getD (i - off) 0 else v.data i }

/-- The `n` bytes of the vector starting at index `off`. -/
def span (v : CharVec) (off n : Nat) : List Byte :=
  (List.range n).map (fun i => v.data (off + i))

end CharVec

/-- The class `Buffer` of buffer.hpp. -/
structure Buffer where
  _MAX_BUFFER_SIZE : Nat
  _buffer : CharVec
  _reader_idx : Nat
  _writer_idx : Nat

namespace Buffer

/-- The constructor `Buffer(size_t max_size = 200 * 1024 * 1024)`. -/
def new (max_size : Nat := 200 * 1024 * 1024) : Buffer :=
  { _MAX_BUFFER_SIZE := max_size
    _buffer := CharVec.zeros (min DEFAULT_BUFFER_SIZE max_size)
    _reader_idx := 0
    _writer_idx := 0 }

/-- The method `resize(max_size)`: only the ceiling changes, with a lower bound of 1. -/
def resize (b : Buffer) (max_size : Nat) : Buffer :=
  { b with _MAX_BUFFER_SIZE := max 1 max_size }

/-- The method `writerableSize()`. -/
def writerableSize (b : Buffer) : Nat := szSub b._buffer.size b._writer_idx

/-- The method `readableSize()`. -/
def readableSize (b : Buffer) : Nat := szSub b._writer_idx b._reader_idx

/-- The bytes of the span `[readPtr(), readPtr() + readableSize())`. -/
def readable (b : Buffer) : List Byte := b._buffer.span b._reader_idx b.readableSize

/-- The method `empty()`. -/
def empty (b : Buffer) : Bool := b._reader_idx == b._writer_idx

/-- The method `reset()`. -/
def reset (b : Buffer) : Buffer := { b with _reader_idx := 0, _writer_idx := 0 }

/-- The method `moveWriter(len)`; `none` when its assertion fails. -/
def moveWriter (b : Buffer) (len : Nat) : Option Buffer :=
  if len ≤ b.writerableSize then
    some { b with _writer_idx := szAdd b._writer_idx len }
  else none

/-- The method `moveReader(len)`; `none` when one of its assertions fails. -/
def moveReader (b : Buffer) (len : Nat) : Option Buffer :=
  if len ≤ b.readableSize then
    let b1 := { b with _reader_idx := szAdd b._reader_idx len }
    let b2 := if b1._reader_idx = b1._writer_idx then b1.reset else b1
    if b2._reader_idx ≤ b2._writer_idx ∧ b2._writer_idx ≤ b2._buffer.size then some b2
    else none
  else none

/-- The method `swap(other)`: returns the new `*this` and the new `other`. -/
def swap (b other : Buffer) : Buffer × Buffer := (other, b)

/-- The value of `new_size` computed by one iteration of the loop of
`ensureEnoughSize` (lines 122-137) from the current arena size `cur`; `lim`, `thr`,
`inc` are `_MAX_BUFFER_SIZE`, `threshold_eff`, `increment_eff` and `w` is
`_writer_idx`. -/
def newSize (lim thr inc w need cur : Nat) : Nat :=
  let new_size := if cur < thr then min (szMul cur 2) thr else szAdd cur inc
  let new_size := max new_size (szAdd w need)
  min new_size lim

/-- The `while` loop of `ensureEnoughSize`, run for at most `fuel` iterations. -/
def growLoop (lim thr inc w need : Nat) : Nat → CharVec → CharVec
  | 0, v => v
  | fuel + 1, v =>
    if szSub v.size w < need ∧ v.size < lim then
      let cur := v.size
      let new_size := newSize lim thr inc w need cur
      if new_size ≤ cur then v
      else growLoop lim thr inc w need fuel (v.resize new_size)
    else v

/-- The method `ensureEnoughSize(need)`.  Every iteration that does not leave the
loop strictly enlarges the arena and keeps it at most `_MAX_BUFFER_SIZE`, so
`_MAX_BUFFER_SIZE` iterations are enough (`growLoop_fuel_enough`). -/
def ensureEnoughSize (b : Buffer) (need : Nat) : Buffer :=
  if need > b._MAX_BUFFER_SIZE then b
  else
    let threshold_eff := max 1 (min THRESHOLD_BUFFER_SIZE b._MAX_BUFFER_SIZE)
    let increment_eff := max 1 (min INCREMENT_BUFFER_SIZE b._MAX_BUFFER_SIZE)
    let grown := growLoop b._MAX_BUFFER_SIZE threshold_eff increment_eff b._writer_idx need
      b._MAX_BUFFER_SIZE b._buffer
    { b with _buffer := grown }

/-- The `while` loop of `ensureEnoughSize` followed pass by pass: the sizes given to
`_buffer.resize`, in order, and the arena the loop leaves; `none` when `fuel` passes
are made without the loop being left. -/
def growRun (lim thr inc w need : Nat) : Nat → CharVec → Option (List Nat × CharVec)
  | 0, _ => none
  | fuel + 1, v =>
    if szSub v.size w < need ∧ v.size < lim then
      let cur := v.size
      let new_size := newSize lim thr inc w need cur
      if new_size ≤ cur then some ([], v)
      else
        (growRun lim thr inc w need fuel (v.resize new_size)).map
          (fun r => (new_size :: r.1, r.2))
    else some ([], v)

/-- The method `ensureEnoughSize(need)` with the sizes it gives to `_buffer.resize`;
the loop is allowed one pass more than the distance of the arena size to
`_MAX_BUFFER_SIZE`. -/
def ensureEnoughSizeRun (b : Buffer) (need : Nat) : Option (List Nat × Buffer) :=
  if need > b._MAX_BUFFER_SIZE then some ([], b)
  else
    let threshold_eff := max 1 (min THRESHOLD_BUFFER_SIZE b._MAX_BUFFER_SIZE)
    let increment_eff := max 1 (min INCREMENT_BUFFER_SIZE b._MAX_BUFFER_SIZE)
    (growRun b._MAX_BUFFER_SIZE threshold_eff increment_eff b._writer_idx need
      (b._MAX_BUFFER_SIZE - b._buffer.size + 1) b._buffer).map
      (fun r => (r.1, { b with _buffer := r.2 }))

/-- The method `push(data, len)` with `len = data.length`: the returned flag and the
buffer after the call; `none` when the assertion of `moveWriter` fails. -/
def push (b : Buffer) (data : List Byte) : Option (Bool × Buffer) :=
  let b1 := b.ensureEnoughSize data.length
  if b1.writerableSize < data.length then some (false, b1)
  else
    let b2 := { b1 with _buffer := b1._buffer.memcpy b1._writer_idx data }
    (b2.moveWriter data.length).map (fun b3 => (true, b3))

/-- Class invariant of `Buffer`: the cursors are ordered, the write cursor is inside
the arena and the arena size is a `size_t`. -/
def WF (b : Buffer) : Prop :=
  b._reader_idx ≤ b._writer_idx ∧ b._writer_idx ≤ b._buffer.size ∧ b._buffer.size < SIZE_MOD

instance (b : Buffer) : Decidable b.WF := by
  unfold WF
  infer_instance

/-- States of a `Buffer` reachable through its public interface: construction,
`push`, `moveReader` and `moveWriter` (within their assertions), `reset`, `swap`
with another reachable buffer, and `resize(m)` for the arguments `m` admitted by
`okResize`. -/
inductive ReachableVia (okResize : Buffer → Nat → Prop) : Buffer → Prop
  | new (max_size : Nat) : ReachableVia okResize (Buffer.new max_size)
  | push {b : Buffer} {d : List Byte} {r : Bool × Buffer} :
      ReachableVia okResize b → b.push d = some r → ReachableVia okResize r.2
  | moveReader {b b1 : Buffer} {n : Nat} :
      ReachableVia okResize b → b.moveReader n = some b1 → ReachableVia okResize b1
  | moveWriter {b b1 : Buffer} {n : Nat} :
      ReachableVia okResize b → b.moveWriter n = some b1 → ReachableVia okResize b1
  | reset {b : Buffer} : ReachableVia okResize b → ReachableVia okResize b.reset
  | resize {b : Buffer} {m : Nat} :
      ReachableVia okResize b → okResize b m → ReachableVia okResize (b.resize m)
  | swap_this {a b : Buffer} :
      ReachableVia okResize a → ReachableVia okResize b → ReachableVia okResize (a.swap b).1
  | swap_other {a b : Buffer} :
      ReachableVia okResize a → ReachableVia okResize b → ReachableVia okResize (a.swap b).2

/-- Reachability with every `resize` argument allowed. -/
def Reachable : Buffer → Prop := ReachableVia (fun _ _ => True)

/-- Reachability where `resize(m)` is only used when the new ceiling `max(1, m)`
is not below the current arena size. -/
def ReachableKeepingCeiling : Buffer → Prop :=
  ReachableVia (fun b m => b._buffer.size ≤ max 1 m)

/-- A client pushing the byte strings `ds` one after the other; `some` of the final
buffer when every `push` returned true, `none` otherwise. -/
def pushAll : Buffer → List (List Byte) → Option Buffer
  | b, [] => some b
  | b, d :: ds =>
    match b.push d with
    | some (true, b1) => pushAll b1 ds
    | _ => none

/-- A client consuming `n` bytes one at a time with the loop body of test_buffer.cpp:
read the byte at `readPtr()`, then `moveReader(1)`, repeated `n` times.  Returns the
bytes read and the final buffer; `none` when an assertion of `moveReader` fails. -/
def drainBytes : Nat → Buffer → Option (List Byte × Buffer)
  | 0, b => some ([], b)
  | n + 1, b =>
    match b.moveReader 1 with
    | none => none
    | some b1 =>
      match drainBytes n b1 with
      | none => none
      | some (out, b2) => some (b._buffer.data b._reader_idx :: out, b2)

end Buffer

/-- What the caller of `AsyncLooper::push` observes: the call has returned (the
method is `void`, so nothing else is reported), or the caller is blocked in
`_cond_pro.wait` and will retry when woken. -/
inductive PushOutcome
  | returned
  | waiting
  deriving DecidableEq, Repr

/-- The class `AsyncLooper` of looper.hpp in its step model.  Besides the members
`_running`, `_pro_buf`, `_con_buf` it records whether the worker thread has left
`threadEntry` (`exited`), the spans handed to `_callBack` so far (`delivered`) and the
byte strings for which `_pro_buf.push` returned true (`stored`), both in order. -/
structure AsyncLooper where
  _running : Bool
  _pro_buf : Buffer
  _con_buf : Buffer
  exited : Bool
  delivered : List (List Byte)
  stored : List (List Byte)

namespace AsyncLooper

/-- The constructor: running, two default-constructed buffers, worker started. -/
def new : AsyncLooper :=
  { _running := true, _pro_buf := Buffer.new, _con_buf := Buffer.new, exited := false,
    delivered := [], stored := [] }

/-- The method `stop()`: the running flag becomes false (a second call finds it false
and returns); the waiters are woken. -/
def stop (s : AsyncLooper) : AsyncLooper := { s with _running := false }

/-- One pass of a caller through the critical section of `push(data, len)`: with
`_running` false the loop body is skipped and the call returns; otherwise
`_pro_buf.push` is tried, and the call returns when it succeeded and waits on
`_cond_pro` when it failed.  `none` when an assertion of `Buffer` fails. -/
def push (s : AsyncLooper) (data : List Byte) : Option (PushOutcome × AsyncLooper) :=
  if s._running then
    match s._pro_buf.push data with
    | none => none
    | some (true, b) =>
      some (PushOutcome.returned, { s with _pro_buf := b, stored := s.stored ++ [data] })
    | some (false, b) => some (PushOutcome.waiting, { s with _pro_buf := b })
  else some (PushOutcome.returned, s)

/-- The method `setMaxBufferSize(max_size)`. -/
def setMaxBufferSize (s : AsyncLooper) (max_size : Nat) : AsyncLooper :=
  { s with _pro_buf := s._pro_buf.resize max_size, _con_buf := s._con_buf.resize max_size }

/-- One iteration of the `while (1)` loop of `threadEntry`: the worker stays blocked
while the producer buffer is empty and the looper runs; it leaves the loop when the
looper is stopped and the producer buffer is empty; otherwise it swaps the buffers,
hands the consumer buffer to the callback (assumed set, and reading the readable span
as `AsyncLogger::realLog` does) and resets the consumer buffer. -/
def threadEntry (s : AsyncLooper) : AsyncLooper :=
  if s.exited then s
  else if !(!s._pro_buf.empty || !s._running) then s
  else if !s._running && s._pro_buf.empty then { s with exited := true }
  else
    let swapped := s._con_buf.swap s._pro_buf
    let con := swapped.1
    let pro := swapped.2
    { s with _pro_buf := pro, _con_buf := con.reset,
             delivered := s.delivered ++ [con.readable] }

/-- The steps of the model: a producer passing once through the critical section of
`push`, one worker iteration, `stop`, `setMaxBufferSize`. -/
inductive Step
  | push (data : List Byte)
  | worker
  | stop
  | setMax (max_size : Nat)

/-- One step of the model; `none` when an assertion of `Buffer` fails. -/
def step (s : AsyncLooper) : Step → Option AsyncLooper
  | Step.push data => (s.push data).map Prod.snd
  | Step.worker => some s.threadEntry
  | Step.stop => some s.stop
  | Step.setMax m => some (s.setMaxBufferSize m)

/-- A schedule of steps run from a state. -/
def run : AsyncLooper → List Step → Option AsyncLooper
  | s, [] => some s
  | s, t :: ts =>
    match s.step t with
    | none => none
    | some s1 => run s1 ts

/-- Invariant of the step model: both buffers satisfy the class invariant, the
consumer buffer is reset between worker iterations, what has been stored is what has
been delivered followed by what is readable in the producer buffer, and the worker has
only left its loop with the looper stopped and the producer buffer empty. -/
structure Inv (s : AsyncLooper) : Prop where
  pro_wf : s._pro_buf.WF
  con_wf : s._con_buf.WF
  con_r : s._con_buf._reader_idx = 0
  con_w : s._con_buf._writer_idx = 0
  bytes : s.delivered.flatten ++ s._pro_buf.readable = s.stored.flatten
  done : s.exited = true → s._running = false ∧ s._pro_buf._reader_idx = s._pro_buf._writer_idx

/-- Program points of the worker thread inside `threadEntry`. -/
inductive WorkerPc
  /-- At the top of the loop body, before `std::unique_lock<std::mutex> lock(_mutex)`. -/
  | top
  /-- Inside the scope of `lock`, about to evaluate the predicate of `_cond_con.wait`. -/
  | locked
  /-- Blocked inside `_cond_con.wait`, which has released the mutex. -/
  | waiting
  /-- After `_con_buf.swap(_pro_buf)` and `_cond_pro.notify_all()`, still in the scope. -/
  | swapped
  /-- The scope of `lock` left, before `_callBack(_con_buf)`. -/
  | unlocked
  /-- After the callback, before `_con_buf.reset()`. -/
  | delivered
  /-- The loop left through `break`. -/
  | done
  deriving DecidableEq, Repr

/-- The two actions of the worker the lock discipline is about. -/
inductive WorkerAction
  | swap
  | callback
  deriving DecidableEq, Repr

/-- The looper with the worker thread followed statement by statement: the looper
itself, the program point of the worker, whether the worker owns `_mutex`, and the
log of the worker's swaps and callback runs, each with the ownership of `_mutex` at
that moment.  Producers and `setMaxBufferSize` own the mutex only inside their own
step, so between steps the mutex is owned by the worker or by nobody. -/
structure Fine where
  looper : AsyncLooper
  pc : WorkerPc
  workerHoldsMutex : Bool
  events : List (WorkerAction × Bool)

/-- The state after construction: the worker is at the top of its loop. -/
def Fine.init : Fine :=
  { looper := AsyncLooper.new, pc := WorkerPc.top, workerHoldsMutex := false, events := [] }

/-- One statement of the worker thread in `threadEntry`. -/
def Fine.workerStep (t : Fine) : Fine :=
  match t.pc with
  | WorkerPc.top => { t with pc := WorkerPc.locked, workerHoldsMutex := true }
  | WorkerPc.locked =>
    if !(!t.looper._pro_buf.empty || !t.looper._running) then
      { t with pc := WorkerPc.waiting, workerHoldsMutex := false }
    else if !t.looper._running && t.looper._pro_buf.empty then
      { t with looper := { t.looper with exited := true }, pc := WorkerPc.done,
               workerHoldsMutex := false }
    else
      let swapped := t.looper._con_buf.swap t.looper._pro_buf
      { t with looper := { t.looper with _con_buf := swapped.1, _pro_buf := swapped.2 },
               pc := WorkerPc.swapped,
               events := t.events ++ [(WorkerAction.swap, t.workerHoldsMutex)] }
  | WorkerPc.waiting => { t with pc := WorkerPc.locked, workerHoldsMutex := true }
  | WorkerPc.swapped => { t with pc := WorkerPc.unlocked, workerHoldsMutex := false }
  | WorkerPc.unlocked =>
    { t with looper := { t.looper with
                delivered := t.looper.delivered ++ [t.looper._con_buf.readable] },
             pc := WorkerPc.delivered,
             events := t.events ++ [(WorkerAction.callback, t.workerHoldsMutex)] }
  | WorkerPc.delivered =>
    { t with looper := { t.looper with _con_buf := t.looper._con_buf.reset },
             pc := WorkerPc.top }
  | WorkerPc.done => t

/-- One step of the statement-level model.  A producer in `push` and a caller of
`setMaxBufferSize` need the mutex and only run when the worker does not own it;
`stop` flips the atomic flag.  `none` when an assertion of `Buffer` fails. -/
def Fine.step (t : Fine) : Step → Option Fine
  | Step.worker => some t.workerStep
  | Step.push data =>
    if t.workerHoldsMutex then some t
    else (t.looper.push data).map (fun r => { t with looper := r.2 })
  | Step.stop => some { t with looper := t.looper.stop }
  | Step.setMax m =>
    if t.workerHoldsMutex then some t
    else some { t with looper := t.looper.setMaxBufferSize m }

/-- A schedule of steps of the statement-level model. -/
def Fine.run : Fine → List Step → Option Fine
  | t, [] => some t
  | t, x :: xs =>
    match t.step x with
    | none => none
    | some t1 => Fine.run t1 xs

/-- Lock discipline of the worker: it owns the mutex exactly at the program points
inside the scope of `lock`, every logged swap was made owning the mutex and every
logged callback run was made not owning it. -/
def Fine.Disciplined (t : Fine) : Prop :=
  (t.workerHoldsMutex = true ↔ (t.pc = WorkerPc.locked ∨ t.pc = WorkerPc.swapped)) ∧
  (∀ e ∈ t.events, (e.1 = WorkerAction.swap → e.2 = true) ∧
    (e.1 = WorkerAction.callback → e.2 = false))

/-- What holds of the buffers at each program point of the worker: both satisfy the
class invariant; outside the span from the swap to the reset the consumer buffer has
both cursors at 0; right after the swap, the mutex still owned, the producer buffer
has both cursors at 0; from the swap to the callback the consumer buffer holds bytes
to read; every span handed to the callback so far held at least one byte; and the
worker owns the mutex exactly inside the scope of `lock`. -/
structure Fine.SwapInv (t : Fine) : Prop where
  pro_wf : t.looper._pro_buf.WF
  con_wf : t.looper._con_buf.WF
  idle : t.pc = WorkerPc.top ∨ t.pc = WorkerPc.locked ∨ t.pc = WorkerPc.waiting ∨
      t.pc = WorkerPc.done →
    t.looper._con_buf._reader_idx = 0 ∧ t.looper._con_buf._writer_idx = 0
  fresh : t.pc = WorkerPc.swapped →
    t.looper._pro_buf._reader_idx = 0 ∧ t.looper._pro_buf._writer_idx = 0
  loaded : t.pc = WorkerPc.swapped ∨ t.pc = WorkerPc.unlocked →
    t.looper._con_buf._reader_idx < t.looper._con_buf._writer_idx
  spans : ∀ d ∈ t.looper.delivered, d ≠ []
  mutex : t.workerHoldsMutex = true ↔ (t.pc = WorkerPc.locked ∨ t.pc = WorkerPc.swapped)

end AsyncLooper

namespace AsyncLogger

/-- The call `memchr(p, c, n)` on the `n` bytes `l`: offset of the first `c`. -/
def memchr : List Byte → Byte → Option Nat
  | [], _ => none
  | x :: xs, c => if x = c then some 0 else (memchr xs c).map (fun k => k + 1)

/-- The inner loop `for (auto &sink : _sinks) sink->log(line, len)`: the calls made,
as pairs of the sink position in `_sinks` and the segment passed. -/
def fanOut (nsinks : Nat) (seg : List Byte) : List (Nat × List Byte) :=
  (List.range nsinks).map (fun i => (i, seg))

/-- The `while (line < end)` loop of `realLog` on the bytes `[line, end)`, run for at
most `fuel` iterations; returns the sink calls in order. -/
def realLogLoop (nsinks : Nat) : Nat → List Byte → List (Nat × List Byte)
  | 0, _ => []
  | fuel + 1, rest =>
    if 0 < rest.length then
      match memchr rest 10 with
      | some k =>
        let len := k + 1
        fanOut nsinks (rest.take len) ++ realLogLoop nsinks fuel (rest.drop len)
      | none => fanOut nsinks rest
    else []

/-- The method `realLog(buf)` of a logger with `nsinks` sinks: the sequence of
`sink->log` calls it makes.  Every iteration consumes at least one byte, so
`readableSize()` iterations are enough. -/
def realLog (nsinks : Nat) (buf : Buffer) : List (Nat × List Byte) :=
  if nsinks = 0 then []
  else realLogLoop nsinks buf.readable.length buf.readable

/-- The segments passed to the sink at position `i`, in call order. -/
def segmentsOf (i : Nat) (calls : List (Nat × List Byte)) : List (List Byte) :=
  (calls.filter (fun c => c.1 == i)).map Prod.snd

/-- A segment that ends with a newline and holds no other newline. -/
def IsLine (seg : List Byte) : Prop := ∃ body, seg = body ++ [10] ∧ (10 : Byte) ∉ body

/-- A list of segments in which every segment but the last is a line and the last one
is a line or a non-empty segment without newline. -/
def LinesThenTail : List (List Byte) → Prop
  | [] => True
  | [last] => IsLine last ∨ (last ≠ [] ∧ (10 : Byte) ∉ last)
  | seg :: segs => IsLine seg ∧ LinesThenTail segs

end AsyncLogger

/-- Name of a file made by `RollBySizeSink::createNewFile`: the path is
`basename_<local time of sec>_<seq>.log`. -/
structure RollName where
  sec : Nat
  seq : Nat
  deriving DecidableEq, Repr

/-- A file opened by a sink: its name and the bytes the sink has written to it since
that `open`. -/
structure RollFile where
  name : RollName
  content : List Byte
  deriving DecidableEq, Repr

/-- The class `RollBySizeSink` of sink.hpp.  `is_open` is `_ofs.is_open()`; `files`
are the files the sink has opened, in the order of the `open` calls, the last one
being the file `_ofs` writes to; `reads` counts the calls of `util::Date::now()` made
so far.  File operations succeed and every file opened is a new, empty file, so that
`files` are the files the sink has created, with their contents; what a directory
holds when a path opened exists already is given by `RollBySizeSink.disk`. -/
structure RollBySizeSink where
  _max_size : Nat
  _cur_size : Nat
  _seq : Nat
  _last_sec : Nat
  is_open : Bool
  files : List RollFile
  reads : Nat
  deriving DecidableEq, Repr

namespace RollBySizeSink

/-- The constructor `RollBySizeSink(basename, max_size)`. -/
def new (max_size : Nat) : RollBySizeSink :=
  { _max_size := max_size, _cur_size := 0, _seq := 0, _last_sec := 0, is_open := false,
    files := [], reads := 0 }

/-- The method `createNewFile()`; `clock k` is the value returned by the `k`-th call of
`util::Date::now()`. -/
def createNewFile (clock : Nat → Nat) (s : RollBySizeSink) : RollName × RollBySizeSink :=
  let t := clock s.reads
  let s1 := { s with reads := s.reads + 1 }
  let s2 := if t ≠ s1._last_sec then { s1 with _seq := 0, _last_sec := t } else s1
  (⟨t, s2._seq⟩, { s2 with _seq := szAdd s2._seq 1 })

/-- The calls `createNewFile()` and `_ofs.open(pathname, binary | app)`: the file of
the new name becomes the current one, the sink having written nothing to it yet; it is
a new empty file unless its path exists already. -/
def openNew (clock : Nat → Nat) (s : RollBySizeSink) : RollBySizeSink :=
  let r := createNewFile clock s
  { r.2 with files := r.2.files ++ [⟨r.1, []⟩], is_open := true }

/-- The method `rotate()`: close, open a new file, take `_cur_size` from `tellp()`,
which is 0 for the new file (for a file that exists and holds bytes, opened in append
mode, `tellp()` may give its size instead). -/
def rotate (clock : Nat → Nat) (s : RollBySizeSink) : RollBySizeSink :=
  { openNew clock s with _cur_size := 0 }

/-- The call `_ofs.write(data, len)`: the bytes are appended to the current file. -/
def write (s : RollBySizeSink) (data : List Byte) : RollBySizeSink :=
  match s.files.getLast? with
  | none => s
  | some f => { s with files := s.files.dropLast ++ [{ f with content := f.content ++ data }] }

/-- The method `log(data, len)` with `len = data.length`. -/
def log (clock : Nat → Nat) (s : RollBySizeSink) (data : List Byte) : RollBySizeSink :=
  let s1 := if !s.is_open then { openNew clock s with _cur_size := 0 } else s
  let s2 := if szAdd s1._cur_size data.length > s1._max_size ∧ s1._cur_size > 0 then
      rotate clock s1 else s1
  let s3 := s2.write data
  let s4 := { s3 with _cur_size := szAdd s3._cur_size data.length }
  if s4._cur_size ≥ s4._max_size then rotate clock s4 else s4

/-- A sequence of `log` calls on a sink. -/
def logAll (clock : Nat → Nat) (s : RollBySizeSink) (writes : List (List Byte)) :
    RollBySizeSink :=
  writes.foldl (log clock) s

/-- The files of a sink hold the writes `ws`: the writes split into consecutive
groups, one group per file in creation order, and each file holds the concatenation
of its group; an open sink has a current file. -/
def Holds (s : RollBySizeSink) (ws : List (List Byte)) : Prop :=
  (∃ groups : List (List (List Byte)), groups.flatten = ws ∧
    s.files.map RollFile.content = groups.map List.flatten) ∧
  (s.is_open = true → s.files ≠ [])

/-- What the size policy of a sink depends on and acts on: the contents of its files in
creation order, the size counter and whether a file is open. -/
structure SinkView where
  contents : List (List Byte)
  cur : Nat
  opened : Bool
  deriving DecidableEq, Repr

/-- The view of a sink. -/
def view (s : RollBySizeSink) : SinkView :=
  { contents := s.files.map RollFile.content, cur := s._cur_size, opened := s.is_open }

/-- Appending bytes to the last of a list of file contents. -/
def appendLast (cs : List (List Byte)) (data : List Byte) : List (List Byte) :=
  match cs.getLast? with
  | none => cs
  | some c => cs.dropLast ++ [c ++ data]

/-- The lazy first open of `log` (lines 101-109), on views. -/
def viewOpen (v : SinkView) : SinkView :=
  if !v.opened then { contents := v.contents ++ [[]], cur := 0, opened := true } else v

/-- The rotation `log` makes before the write (lines 111-114), on views. -/
def viewPre (C : Nat) (v : SinkView) (len : Nat) : SinkView :=
  if szAdd v.cur len > C ∧ v.cur > 0 then
    { contents := v.contents ++ [[]], cur := 0, opened := true }
  else v

/-- The write and the rotation `log` makes after it (lines 115-122), on views. -/
def viewWrite (C : Nat) (v : SinkView) (data : List Byte) : SinkView :=
  if szAdd v.cur data.length ≥ C then
    { contents := appendLast v.contents data ++ [[]], cur := 0, opened := true }
  else
    { contents := appendLast v.contents data, cur := szAdd v.cur data.length,
      opened := v.opened }

/-- The method `log` on views, for a sink with limit `C`; `log_view` shows that it is
the view of `log`. -/
def viewLog (C : Nat) (v : SinkView) (data : List Byte) : SinkView :=
  viewWrite C (viewPre C (viewOpen v) data.length) data

/-- A group of writes whose file respects the limit `C`: the file holds at most `C`
bytes, or its bytes are those of one write of the group that is by itself larger
than `C`. -/
def GroupOk (C : Nat) (g : List (List Byte)) : Prop :=
  g.flatten.length ≤ C ∨ ∃ d ∈ g, C < d.length ∧ g.flatten = d

/-- Invariant of the size policy on views: the counter is below the limit, the files
hold consecutive groups of the writes `ws`, every group respects the limit, and the
counter of an open sink is the size of its current file. -/
def Bounded (C : Nat) (v : SinkView) (ws : List (List Byte)) : Prop :=
  v.cur < C ∧
  ∃ groups : List (List (List Byte)), groups.flatten = ws ∧
    v.contents = groups.map List.flatten ∧ (∀ g ∈ groups, GroupOk C g) ∧
    (v.opened = true → ∃ pre g, groups = pre ++ [g] ∧ g.flatten.length = v.cur)

end RollBySizeSink

/-- How a call that may fail ends: it returns (with the state it leaves), an exception
propagates out of it, or an assertion aborts the process. -/
inductive Outcome (α : Type) where
  | returned (a : α)
  | threw
  | aborted

/-- How a call of `sink->log(data, len)` ends, the state of the sink left aside. -/
inductive SinkResult
  | returned
  | threw
  | aborted
  deriving DecidableEq, Repr

/-- The result of an outcome, without the state. -/
def Outcome.result {α : Type} : Outcome α → SinkResult
  | Outcome.returned _ => SinkResult.returned
  | Outcome.threw => SinkResult.threw
  | Outcome.aborted => SinkResult.aborted

/-- Sequencing of calls that may fail: the second runs only when the first returned. -/
def Outcome.andThen {α β : Type} (o : Outcome α) (k : α → Outcome β) : Outcome β :=
  match o with
  | Outcome.returned a => k a
  | Outcome.threw => Outcome.threw
  | Outcome.aborted => Outcome.aborted

/-- What the file system answers to a sink during one `log` call: whether the
directory of the new file exists (`util::File::exists`), whether the `::mkdir` calls of
`File::createDirectory` succeed, whether `_ofs.open` succeeds and whether `_ofs.write`
leaves the stream good. -/
structure FsEnv where
  dirExists : Bool
  mkdirOk : Bool
  openOk : Bool
  writeOk : Bool
  deriving DecidableEq, Repr

/-- The function `util::File::createDirectory` of util.hpp, as seen by its caller: it
returns, or throws `std::runtime_error` when a `::mkdir` fails. -/
def createDirectory (env : FsEnv) : Outcome Unit :=
  if env.mkdirOk then Outcome.returned () else Outcome.threw

namespace RollBySizeSink

/-- The block `createNewFile(); if (!exists(path)) createDirectory(path);
_ofs.open(...); assert(_ofs.is_open());` shared by the first open of `log` and by
`rotate`, with a file system that may fail. -/
def openNewFs (env : FsEnv) (clock : Nat → Nat) (s : RollBySizeSink) :
    Outcome RollBySizeSink :=
  (if !env.dirExists then createDirectory env else Outcome.returned ()).andThen fun _ =>
    if env.openOk then Outcome.returned (openNew clock s) else Outcome.aborted

/-- The method `rotate()` with a file system that may fail. -/
def rotateFs (env : FsEnv) (clock : Nat → Nat) (s : RollBySizeSink) :
    Outcome RollBySizeSink :=
  (openNewFs env clock s).andThen fun t => Outcome.returned { t with _cur_size := 0 }

/-- The method `log(data, len)` with a file system that may fail: a failed directory
creation throws, a failed open trips the assertion, a failed write is reported on
`std::cerr` and `log` goes on. -/
def logFs (env : FsEnv) (clock : Nat → Nat) (s : RollBySizeSink) (data : List Byte) :
    Outcome RollBySizeSink :=
  (if !s.is_open then
      (openNewFs env clock s).andThen fun t => Outcome.returned { t with _cur_size := 0 }
    else Outcome.returned s).andThen fun s1 =>
  (if szAdd s1._cur_size data.length > s1._max_size ∧ s1._cur_size > 0 then
      rotateFs env clock s1
    else Outcome.returned s1).andThen fun s2 =>
  let s3 := if env.writeOk then s2.write data else s2
  let s4 := { s3 with _cur_size := szAdd s3._cur_size data.length }
  if s4._cur_size ≥ s4._max_size then rotateFs env clock s4 else Outcome.returned s4

end RollBySizeSink

/-- Modelled from the spec: `level.hpp`, which declares `LogLevel::value`, is not among
the sources; a severity level is represented by the value of its enumerator, which is
what `level < _limit_level` compares. -/
abbrev LogLevel := Nat

/-- The struct `LogMsg` of message.hpp. -/
structure LogMsg where
  _ctime : Nat
  _line : Nat
  _level : LogLevel
  _tid : Nat
  _file : String
  _logger : String
  _payload : String
  deriving DecidableEq, Repr

/-- The members of `Logger` that `common_level` and `log` use: the name, the threshold
and the number of sinks in `_sinks`; the formatter and the sinks are given to the
methods as functions. -/
structure Logger where
  _logger_name : String
  _limit_level : LogLevel
  nsinks : Nat
  deriving DecidableEq, Repr

namespace SyncLogger

/-- The loop `for (auto &sink : _sinks) sink->log(data, len)` over the sink positions
`idxs`; `sinkLog i data` tells how the call on the sink at position `i` ends.  Returns
the calls made, in order, and how the loop ended: an exception or an abort in a sink
ends it, nothing in the loop catching either. -/
def fanLoop (sinkLog : Nat → List Byte → SinkResult) (data : List Byte) :
    List Nat → List (Nat × List Byte) × SinkResult
  | [] => ([], SinkResult.returned)
  | i :: rest =>
    match sinkLog i data with
    | SinkResult.returned =>
      ((i, data) :: (fanLoop sinkLog data rest).1, (fanLoop sinkLog data rest).2)
    | SinkResult.threw => ([(i, data)], SinkResult.threw)
    | SinkResult.aborted => ([(i, data)], SinkResult.aborted)

/-- The method `SyncLogger::log(data, len)`. -/
def log (sinkLog : Nat → List Byte → SinkResult) (lg : Logger) (data : List Byte) :
    List (Nat × List Byte) × SinkResult :=
  if lg.nsinks = 0 then ([], SinkResult.returned)
  else fanLoop sinkLog data (List.range lg.nsinks)

end SyncLogger

namespace Logger

/-- The record `common_level` builds: `LogMsg(_logger_name, file, line, res, level)`
with the time `now` and the thread id `tid` taken by the constructor. -/
def mkMsg (lg : Logger) (now tid : Nat) (level : LogLevel) (file : String) (line : Nat)
    (res : String) : LogMsg :=
  { _ctime := now, _line := line, _level := level, _tid := tid, _file := file,
    _logger := lg._logger_name, _payload := res }

/-- The method `common_level` of a `SyncLogger`: `format` is `_formatter->format`,
`vas` is the text produced by `vasprintf` (`none` when it returns -1, which trips the
assertion).  Returns the sink calls made and how the call ended. -/
def common_level (lg : Logger) (format : LogMsg → List Byte)
    (sinkLog : Nat → List Byte → SinkResult) (now tid : Nat) (level : LogLevel)
    (file : String) (line : Nat) (vas : Option String) :
    List (Nat × List Byte) × SinkResult :=
  if level < lg._limit_level then ([], SinkResult.returned)
  else
    match vas with
    | none => ([], SinkResult.aborted)
    | some res => SyncLogger.log sinkLog lg (format (lg.mkMsg now tid level file line res))

end Logger

/-! ### Callers of `AsyncLooper::stop` -/

namespace AsyncLooper

/-- Where a call of `stop()` stands: before the `compare_exchange_strong`, before the
block that notifies both condition variables, before `if (_thread.joinable())
_thread.join()`, or returned. -/
inductive StopPc
  | start
  | notify
  | join
  | done
  deriving DecidableEq, Repr

/-- A looper with the calls of `stop()` made on it, each call known by a number and
advancing on its own, so that calls of several threads interleave.  `joinable` is
`_thread.joinable()`, `flips` counts the changes of `_running` from true to false,
`notified` and `joined` list the calls that went through the notifying block and
that executed `_thread.join()`. -/
structure StopCalls where
  looper : AsyncLooper
  joinable : Bool
  pc : Nat → StopPc
  flips : Nat
  notified : List Nat
  joined : List Nat

namespace StopCalls

/-- A looper on which no call of `stop()` has begun; the constructor has started the
worker thread, so the thread is joinable. -/
def init (l : AsyncLooper) : StopCalls :=
  { looper := l, joinable := true, pc := fun _ => StopPc.start, flips := 0,
    notified := [], joined := [] }

/-- One atomic step of call `i` of `stop()`: the `compare_exchange_strong(expected,
false)` with `expected = true` (on failure the call returns), the notifying block, or
the join with its `joinable()` test; `_thread.join()` returns once the worker has left
`threadEntry`.  A call that has returned takes no step. -/
def step (s : StopCalls) (i : Nat) : StopCalls :=
  match s.pc i with
  | StopPc.start =>
    if s.looper._running then
      { s with looper := s.looper.stop, flips := s.flips + 1,
               pc := Function.update s.pc i StopPc.notify }
    else { s with pc := Function.update s.pc i StopPc.done }
  | StopPc.notify =>
    { s with notified := s.notified ++ [i], pc := Function.update s.pc i StopPc.join }
  | StopPc.join =>
    if s.joinable then
      { s with joinable := false, joined := s.joined ++ [i],
               pc := Function.update s.pc i StopPc.done }
    else { s with pc := Function.update s.pc i StopPc.done }
  | StopPc.done => s

/-- A schedule: the calls that take a step, in order. -/
def run (s : StopCalls) (sched : List Nat) : StopCalls :=
  sched.foldl step s

/-- What holds of a looper `l` that was running, after any steps of calls of `stop()`:
either no call has passed the exchange, or exactly one call `w` has, and it alone is
inside `stop()` or has joined the worker. -/
def StopInv (l : AsyncLooper) (s : StopCalls) : Prop :=
  (s.looper = l ∧ s.looper._running = true ∧ s.flips = 0 ∧ s.joined = [] ∧
      s.notified = [] ∧ s.joinable = true ∧ ∀ i, s.pc i = StopPc.start) ∨
  (s.looper = l.stop ∧ s.flips = 1 ∧
    ∃ w, (∀ i, i ≠ w → s.pc i = StopPc.start ∨ s.pc i = StopPc.done) ∧
      ((s.pc w = StopPc.notify ∧ s.joinable = true ∧ s.joined = [] ∧ s.notified = []) ∨
       (s.pc w = StopPc.join ∧ s.joinable = true ∧ s.joined = [] ∧ s.notified = [w]) ∨
       (s.pc w = StopPc.done ∧ s.joinable = false ∧ s.joined = [w] ∧ s.notified = [w])))

end StopCalls

end AsyncLooper

/-! ### Local time and `RollByTimeSink` -/

/-- The broken-down local time that `localtime_r` fills in.  The calendar date
(`tm_year`, `tm_mon`, `tm_mday`) is kept as `tm_day`, the number of the local day
counted from the day of the epoch, of which the date is a one-to-one function. -/
structure Tm where
  tm_day : Int
  tm_hour : Int
  tm_min : Int
  tm_sec : Int
  deriving DecidableEq, Repr

/-- The call `localtime_r(&t, &lt)`, local time being UTC plus `off` seconds. -/
def localtime_r (off t : Int) : Tm :=
  { tm_day := (t + off) / 86400, tm_hour := (t + off) % 86400 / 3600,
    tm_min := (t + off) % 3600 / 60, tm_sec := (t + off) % 60 }

/-- The call `mktime(&lt)`, local time being UTC plus `off` seconds; fields out of
their range are carried over, as `mktime` does. -/
def mktime (off : Int) (lt : Tm) : Int :=
  lt.tm_day * 86400 + lt.tm_hour * 3600 + lt.tm_min * 60 + lt.tm_sec - off

/-- The call `localtime_r(&t, &lt)` in a time zone that leaves daylight saving time at
the instant `switch`: local time is UTC plus `off + 3600` seconds before `switch` and
UTC plus `off` seconds from `switch` on, so the local hour before `switch` comes
twice. -/
def localtime_r_dst (off switch t : Int) : Tm :=
  if t < switch then localtime_r (off + 3600) t else localtime_r off t

namespace RollBySizeSink

/-- The fields `createNewFile` prints after the base name for the file named `n`: the
local time of the second read from the clock, then the sequence number. -/
def pathFields (off : Int) (n : RollName) : Tm × Nat := (localtime_r off n.sec, n.seq)

/-- The fields `createNewFile` prints after the base name for the file named `n`,
`localtime` being what `localtime_r` computes in the time zone of the process. -/
def pathFieldsOf (localtime : Int → Tm) (n : RollName) : Tm × Nat := (localtime n.sec, n.seq)

/-- The names of the files a sink has created, in creation order. -/
def names (s : RollBySizeSink) : List RollName := s.files.map RollFile.name

/-- How many of the names `earlier` were made in the second `sec`. -/
def madeIn (earlier : List RollName) (sec : Nat) : Nat :=
  (earlier.filter (fun m => m.sec = sec)).length

/-- On a list of names, newest first: the sequence number of every name is the number
of older names made in the same second, as a `size_t`. -/
def SeqOk : List RollName → Prop
  | [] => True
  | n :: older => n.seq = madeIn older n.sec % SIZE_MOD ∧ SeqOk older

/-- What `createNewFile` keeps under the clock `clock`: the names follow `SeqOk`, `_seq`
is the number of files made in the second `_last_sec`, no file is of a later second
than `_last_sec`, and the next reading of the clock is not before `_last_sec`. -/
structure SeqInv (clock : Nat → Nat) (s : RollBySizeSink) : Prop where
  ok : SeqOk s.names.reverse
  seq : s._seq = madeIn s.names s._last_sec % SIZE_MOD
  past : ∀ n ∈ s.names, n.sec ≤ s._last_sec
  ahead : s._last_sec ≤ clock s.reads

/-- A newly constructed sink after `k` calls of `createNewFile()`, each followed by the
`open` of the file. -/
def opened (clock : Nat → Nat) : Nat → RollBySizeSink
  | 0 => new 0
  | k + 1 => openNew clock (opened clock k)

/-- The name that call number `k`, counted from 0, of `createNewFile()` makes on a sink
that was newly constructed. -/
def nameAt (clock : Nat → Nat) (k : Nat) : RollName := (createNewFile clock (opened clock k)).1

/-- What the calls of `createNewFile` keep: every reading of the clock made one file,
`_seq` and `_last_sec` are what that many calls leave, and the names are those the
calls made in turn. -/
structure NameInv (clock : Nat → Nat) (s : RollBySizeSink) : Prop where
  reads : s.reads = s.files.length
  seq : s._seq = (opened clock s.reads)._seq
  last : s._last_sec = (opened clock s.reads)._last_sec
  names : s.names = (List.range s.reads).map (nameAt clock)

/-- The directory after `_ofs.open(path, binary | app)`, the writes that put `bytes`
into the stream, and `close()`: a file that exists at `path` keeps what it holds and
gets `bytes` appended, otherwise a file holding `bytes` is created.  A path is given
by the fields printed after the base name. -/
def appendAt (dir : List ((Tm × Nat) × List Byte)) (path : Tm × Nat) (bytes : List Byte) :
    List ((Tm × Nat) × List Byte) :=
  if dir.any (fun e => e.1 = path) then
    dir.map (fun e => if e.1 = path then (e.1, e.2 ++ bytes) else e)
  else dir ++ [(path, bytes)]

/-- The directory a sink leaves behind, `before` being the files there were when it was
constructed: every entry of `files` is one `open` in append mode of the path of its
name, with the bytes written until the `close`.  The first `open` of a sink may be of
a file that exists, `log` setting `_cur_size` to 0 there; `rotate` takes `_cur_size`
from `tellp()`, which the sink has as 0, so for the files that `rotate` opens this is
the directory when they are new or empty. -/
def disk (localtime : Int → Tm) (before : List ((Tm × Nat) × List Byte))
    (s : RollBySizeSink) : List ((Tm × Nat) × List Byte) :=
  s.files.foldl (fun dir f => appendAt dir (pathFieldsOf localtime f.name) f.content) before

end RollBySizeSink

/-- The enumeration `TimeUnit` of sin_extend.hpp. -/
inductive TimeUnit
  | Secondly
  | Minutely
  | Hourly
  | Daily
  deriving DecidableEq, Repr

/-- Name of a file made by `RollByTimeSink::createNewFile`: the path is
`basename_Y.M.D_H:M:S_seq.log` with the fields of the local time `lt`. -/
structure TimeName where
  lt : Tm
  seq : Nat
  deriving DecidableEq, Repr

/-- A file created by a `RollByTimeSink`: its name and the bytes written to it. -/
structure TimeFile where
  name : TimeName
  content : List Byte
  deriving DecidableEq, Repr

/-- The class `RollByTimeSink` of sin_extend.hpp.  `disk` holds the paths of this form
that existed when the sink was constructed; `files` are the files the sink has
created, in creation order, the last one being the file `_ofs` writes to.  Directory
creation, opening and writing succeed. -/
structure RollByTimeSink where
  _unit : TimeUnit
  _bucket_start : Int
  _next_cut : Int
  _seq : Nat
  disk : List TimeName
  files : List TimeFile
  deriving DecidableEq, Repr

namespace RollByTimeSink

/-- The static method `floorToUnit(t, unit)`. -/
def floorToUnit (off t : Int) (unit : TimeUnit) : Int :=
  let lt := localtime_r off t
  mktime off
    (match unit with
     | TimeUnit.Secondly => lt
     | TimeUnit.Minutely => { lt with tm_sec := 0 }
     | TimeUnit.Hourly => { lt with tm_min := 0, tm_sec := 0 }
     | TimeUnit.Daily => { lt with tm_hour := 0, tm_min := 0, tm_sec := 0 })

/-- The static method `nextCutFrom(bucket_start, unit)`. -/
def nextCutFrom (bucket_start : Int) (unit : TimeUnit) : Int :=
  match unit with
  | TimeUnit.Secondly => bucket_start + 1
  | TimeUnit.Minutely => bucket_start + 60
  | TimeUnit.Hourly => bucket_start + 60 * 60
  | TimeUnit.Daily => bucket_start + 24 * 60 * 60

/-- The paths for which `util::File::exists` answers true. -/
def existing (s : RollByTimeSink) : List TimeName := s.disk ++ s.files.map TimeFile.name

/-- The `while (true)` loop of `createNewFile`, bounded by a number of passes: the
sequence number is raised past every path that exists; `none` when the passes run
out. -/
def probe (lt : Tm) (taken : List TimeName) : Nat → Nat → Option Nat
  | 0, _ => none
  | fuel + 1, seq =>
    if (⟨lt, seq⟩ : TimeName) ∈ taken then probe lt taken fuel (szAdd seq 1) else some seq

/-- The method `createNewFile(bucket_start)`: the name found and the sink with `_seq`
one past it.  One pass more than there are existing paths is allowed. -/
def createNewFile (off : Int) (s : RollByTimeSink) (bucket_start : Int) :
    Option (TimeName × RollByTimeSink) :=
  let lt := localtime_r off bucket_start
  match probe lt s.existing (s.existing.length + 1) s._seq with
  | none => none
  | some q => some (⟨lt, q⟩, { s with _seq := szAdd q 1 })

/-- The calls `createNewFile(_bucket_start)` and `_ofs.open(pathname, binary | app)`:
the path did not exist, so a new empty file becomes the current one. -/
def openNew (off : Int) (s : RollByTimeSink) : Option RollByTimeSink :=
  match createNewFile off s s._bucket_start with
  | none => none
  | some (n, s1) => some { s1 with files := s1.files ++ [⟨n, []⟩] }

/-- The constructor `RollByTimeSink(basename, unit)`, `now` being the value returned
by `util::Date::now()`. -/
def new (off : Int) (unit : TimeUnit) (disk : List TimeName) (now : Int) :
    Option RollByTimeSink :=
  let bucket := floorToUnit off now unit
  openNew off
    { _unit := unit, _bucket_start := bucket, _next_cut := nextCutFrom bucket unit,
      _seq := 0, disk := disk, files := [] }

/-- The method `rotate(now)`. -/
def rotate (off : Int) (s : RollByTimeSink) (now : Int) : Option RollByTimeSink :=
  let bucket := floorToUnit off now s._unit
  openNew off
    { s with _bucket_start := bucket, _next_cut := nextCutFrom bucket s._unit, _seq := 0 }

/-- The call `_ofs.write(data, len)`: the bytes are appended to the current file. -/
def write (s : RollByTimeSink) (data : List Byte) : RollByTimeSink :=
  match s.files.getLast? with
  | none => s
  | some f => { s with files := s.files.dropLast ++ [{ f with content := f.content ++ data }] }

/-- The method `log(data, len)`, `now` being the value returned by
`util::Date::now()`. -/
def log (off : Int) (s : RollByTimeSink) (now : Int) (data : List Byte) :
    Option RollByTimeSink :=
  match (if now ≥ s._next_cut then rotate off s now else some s) with
  | none => none
  | some s1 => some (s1.write data)

end RollByTimeSink

/-! ### `LoggerManager` and the builders -/

/-- The enumeration `LoggerType`. -/
inductive LoggerType
  | LOGGER_SYNC
  | LOGGER_ASYNC
  deriving DecidableEq, Repr

/-- The pattern of a default-constructed `Formatter`. -/
def DEFAULT_PATTERN : String := "[%d{%H:%M:%S}][%t][%c][%f:%l][%p]%T%m%n"

/-- A logger object made by `std::make_shared<SyncLogger>` or
`std::make_shared<AsyncLogger>`: its kind, the members of `Logger`, the pattern of its
formatter and, for an asynchronous logger, the ceiling given to `setMaxBufferSize`. -/
structure LoggerObj where
  type : LoggerType
  logger : Logger
  pattern : String
  max_buf : Option Nat
  deriving DecidableEq, Repr

/-- A `Logger::ptr`: the position of the object among the loggers constructed so far,
or `none` for an empty pointer. -/
abbrev LoggerPtr := Option Nat

/-- The members of `LoggerManager`; `_loggers` lists the entries of the map in the
order they were emplaced. -/
structure LoggerManager where
  _root_logger : LoggerPtr
  _loggers : List (String × LoggerPtr)
  deriving DecidableEq, Repr

namespace LoggerManager

/-- The call `_loggers.find(name)`: the pointer stored under `name`, if there is an
entry. -/
def find (lm : LoggerManager) (name : String) : Option LoggerPtr :=
  lm._loggers.lookup name

/-- The call `_loggers.emplace(name, logger)`: nothing is inserted when the key is
present. -/
def emplace (lm : LoggerManager) (name : String) (logger : LoggerPtr) : LoggerManager :=
  if (lm.find name).isSome then lm else { lm with _loggers := lm._loggers ++ [(name, logger)] }

/-- The method `hasLogger(name)`. -/
def hasLogger (lm : LoggerManager) (name : String) : Bool :=
  match lm.find name with
  | none => false
  | some _ => true

/-- The method `addLogger(name, logger)`. -/
def addLogger (lm : LoggerManager) (name : String) (logger : LoggerPtr) : LoggerManager :=
  if (lm.find name).isSome then lm else lm.emplace name logger

/-- The method `getLogger(name)`: an empty pointer when there is no entry. -/
def getLogger (lm : LoggerManager) (name : String) : LoggerPtr :=
  match lm.find name with
  | none => none
  | some p => p

/-- The method `rootLogger()`. -/
def rootLogger (lm : LoggerManager) : LoggerPtr := lm._root_logger

end LoggerManager

/-- The loggers constructed so far in the process, a `Logger::ptr` being a position
in `heap`, and the singleton `LoggerManager`. -/
structure Process where
  heap : List LoggerObj
  lm : LoggerManager
  deriving DecidableEq, Repr

/-- The process after the first `LoggerManager::getInstance()`: the constructor has
made the synchronous logger "root" with one `StdoutSink` and emplaced it.  `debug` is
the value of `LogLevel::value::DEBUG`. -/
def Process.init (debug : LogLevel) : Process :=
  { heap := [{ type := LoggerType.LOGGER_SYNC,
               logger := { _logger_name := "root", _limit_level := debug, nsinks := 1 },
               pattern := DEFAULT_PATTERN, max_buf := none }],
    lm := (LoggerManager.mk (some 0) []).emplace "root" (some 0) }

/-- The members of `LoggerBuilder`; `_formatter` is the pattern of the formatter, or
`none` for an empty pointer, and `nsinks` the number of sinks in `_sinks`. -/
structure LoggerBuilder where
  _logger_type : LoggerType
  _logger_name : String
  _limit_value : LogLevel
  _formatter : Option String
  nsinks : Nat
  _async_max_buf : Nat
  deriving DecidableEq, Repr

namespace LoggerBuilder

/-- The constructor `LoggerBuilder()`; `debug` is the value of
`LogLevel::value::DEBUG`. -/
def new (debug : LogLevel) : LoggerBuilder :=
  { _logger_type := LoggerType.LOGGER_SYNC, _logger_name := "", _limit_value := debug,
    _formatter := none, nsinks := 0, _async_max_buf := 200 * 1024 * 1024 }

/-- The defaults both `build` methods fill in: a default `Formatter` when there is
none, a `StdoutSink` when there is no sink. -/
def withDefaults (b : LoggerBuilder) : LoggerBuilder :=
  let b1 := if b._formatter.isNone then { b with _formatter := some DEFAULT_PATTERN } else b
  if b1.nsinks = 0 then { b1 with nsinks := b1.nsinks + 1 } else b1

/-- The logger object both `build` methods construct from a builder with its defaults
filled in: an `AsyncLogger` followed by `setMaxBufferSize(_async_max_buf)`, or a
`SyncLogger`. -/
def construct (b : LoggerBuilder) : LoggerObj :=
  { type := b._logger_type,
    logger := { _logger_name := b._logger_name, _limit_level := b._limit_value,
                nsinks := b.nsinks },
    pattern := b._formatter.getD DEFAULT_PATTERN,
    max_buf := if b._logger_type = LoggerType.LOGGER_ASYNC then some b._async_max_buf
               else none }

end LoggerBuilder

/-- What a `build` method leaves when it returns: the pointer returned, the builder
and the process. -/
structure Built where
  ptr : LoggerPtr
  builder : LoggerBuilder
  process : Process
  deriving DecidableEq, Repr

namespace LocalLoggerBuilder

/-- The method `LocalLoggerBuilder::build()`: the assertion on the name, the
defaults, the construction of the logger. -/
def build (b : LoggerBuilder) (p : Process) : Outcome Built :=
  if b._logger_name = "" then Outcome.aborted
  else
    let b1 := b.withDefaults
    Outcome.returned
      { ptr := some p.heap.length, builder := b1,
        process := { p with heap := p.heap ++ [b1.construct] } }

end LocalLoggerBuilder

namespace GlobalLoggerBuilder

/-- The method `GlobalLoggerBuilder::build()`: `abort()` on an empty name, the logger
of the manager when the name is registered, otherwise the defaults, the construction
of the logger and `addLogger`. -/
def build (b : LoggerBuilder) (p : Process) : Outcome Built :=
  if b._logger_name = "" then Outcome.aborted
  else if p.lm.hasLogger b._logger_name then
    Outcome.returned { ptr := p.lm.getLogger b._logger_name, builder := b, process := p }
  else if ¬ (p.lm.hasLogger b._logger_name = false) then Outcome.aborted
  else
    let b1 := b.withDefaults
    let lp : LoggerPtr := some p.heap.length
    Outcome.returned
      { ptr := lp, builder := b1,
        process := { heap := p.heap ++ [b1.construct],
                     lm := p.lm.addLogger b1._logger_name lp } }

end GlobalLoggerBuilder

/-- The calls that change the process: `LoggerManager::addLogger` and the two `build`
methods. -/
inductive RegistryOp
  | addLogger (name : String) (logger : LoggerPtr)
  | globalBuild (b : LoggerBuilder)
  | localBuild (b : LoggerBuilder)

namespace Process

/-- The process after a call, `none` when the call aborts the process. -/
def apply (p : Process) : RegistryOp → Option Process
  | RegistryOp.addLogger name logger => some { p with lm := p.lm.addLogger name logger }
  | RegistryOp.globalBuild b =>
    match GlobalLoggerBuilder.build b p with
    | Outcome.returned r => some r.process
    | _ => none
  | RegistryOp.localBuild b =>
    match LocalLoggerBuilder.build b p with
    | Outcome.returned r => some r.process
    | _ => none

/-- A sequence of calls, `none` when one of them aborts the process. -/
def run : Process → List RegistryOp → Option Process
  | p, [] => some p
  | p, op :: ops =>
    match p.apply op with
    | none => none
    | some p1 => run p1 ops

end Process

/-! ### `Formatter` of format.hpp -/

/-- The classes derived from `FormatItem`, with their members.  A `std::string` is
the list of its characters. -/
inductive FormatItem
  | MsgFormatItem
  | LevelFormatItem
  | TimeFormatItem (_time_fmt : List Char)
  | FileFormatItem
  | LineFormatItem
  | ThreadFormatItem
  | LoggerFormatItem
  | NLineFormatItem
  | OtherFormatItem (_str : List Char)
  | TabFormatItem
  deriving DecidableEq, Repr

/-- What the format items take from outside format.hpp: `strftime fmt t` is the text
`strftime(tmp, 31, fmt, &t)` leaves in `tmp` for the local time of `t`; `levelText` is
`LogLevel::toString`, of `level.hpp`, which is not among the sources; `tidText` is
the text `operator<<` prints for a `std::thread::id`. -/
structure FormatEnv where
  strftime : List Char → Nat → List Char
  levelText : LogLevel → List Char
  tidText : Nat → List Char

/-- The method `format(out, msg)` of each item: the text it appends to `out`. -/
def FormatItem.format (env : FormatEnv) (msg : LogMsg) : FormatItem → List Char
  | FormatItem.MsgFormatItem => msg._payload.toList
  | FormatItem.LevelFormatItem => env.levelText msg._level
  | FormatItem.TimeFormatItem fmt => env.strftime fmt msg._ctime
  | FormatItem.FileFormatItem => msg._file.toList
  | FormatItem.LineFormatItem => Nat.toDigits 10 msg._line
  | FormatItem.ThreadFormatItem => env.tidText msg._tid
  | FormatItem.LoggerFormatItem => msg._logger.toList
  | FormatItem.NLineFormatItem => ['\r', '\n']
  | FormatItem.OtherFormatItem str => str
  | FormatItem.TabFormatItem => ['\t']

/-- The class `Formatter`. -/
structure Formatter where
  _pattern : List Char
  _items : List FormatItem
  deriving DecidableEq, Repr

namespace Formatter

/-- The method `createItem(key, val)`; `none` is an empty pointer. -/
def createItem (key val : List Char) : Option FormatItem :=
  if key = ['d'] then some (FormatItem.TimeFormatItem val)
  else if key = ['t'] then some FormatItem.ThreadFormatItem
  else if key = ['c'] then some FormatItem.LoggerFormatItem
  else if key = ['f'] then some FormatItem.FileFormatItem
  else if key = ['l'] then some FormatItem.LineFormatItem
  else if key = ['p'] then some FormatItem.LevelFormatItem
  else if key = ['T'] then some FormatItem.TabFormatItem
  else if key = ['m'] then some FormatItem.MsgFormatItem
  else if key = ['n'] then some FormatItem.NLineFormatItem
  else some (FormatItem.OtherFormatItem val)

/-- The lambda `flush_literal` of `parsePattern`, for the list `fmt_ord`; the caller
empties `literal`. -/
def flush_literal (literal : List Char) (fmt_ord : List (List Char × List Char)) :
    List (List Char × List Char) :=
  if literal ≠ [] then fmt_ord ++ [(['O', 'T', 'H', 'E', 'R'], literal)] else fmt_ord

/-- Offset of the first `c` in `l`, if there is one. -/
def firstIndex : List Char → Char → Option Nat
  | [], _ => none
  | x :: xs, c => if x = c then some 0 else (firstIndex xs c).map (fun k => k + 1)

/-- The call `s.find_first_of(c, pos)`; `none` is `std::string::npos`. -/
def find_first_of (s : List Char) (c : Char) (pos : Nat) : Option Nat :=
  (firstIndex (s.drop pos) c).map (fun k => k + pos)

/-- How the first loop of `parsePattern` ends: with `return false`, by leaving the
loop (then with the final `flush_literal()` made), or not within the passes allowed. -/
inductive Scan
  | rejected
  | finished (fmt_ord : List (List Char × List Char))
  | unfinished
  deriving DecidableEq, Repr

/-- The loop `while (pos < pattern_len)` of `parsePattern`, run for at most `fuel`
passes, followed by the `flush_literal()` after it.  Positions stay below the length
of the pattern plus 3, so no `size_t` operation wraps. -/
def scanLoop (pattern : List Char) :
    Nat → Nat → List Char → List (List Char × List Char) → Scan
  | 0, pos, literal, fmt_ord =>
    if pos < pattern.length then Scan.unfinished
    else Scan.finished (flush_literal literal fmt_ord)
  | fuel + 1, pos, literal, fmt_ord =>
    if pos < pattern.length then
      let ch := pattern.getD pos ' '
      if ch ≠ '%' then scanLoop pattern fuel (pos + 1) (literal ++ [ch]) fmt_ord
      else
        let pos := pos + 1
        if pos = pattern.length then Scan.rejected
        else if pattern.getD pos ' ' = '%' then
          scanLoop pattern fuel (pos + 1) (literal ++ ['%']) fmt_ord
        else
          let key := [pattern.getD pos ' ']
          let fmt_ord := flush_literal literal fmt_ord
          if pos + 1 < pattern.length ∧ pattern.getD (pos + 1) ' ' = '{' then
            let first_inf_pos := pos + 2
            match find_first_of pattern '}' first_inf_pos with
            | none => Scan.rejected
            | some last_inf_pos =>
              scanLoop pattern fuel (last_inf_pos + 1) []
                (fmt_ord ++ [(key, (pattern.drop first_inf_pos).take
                  (last_inf_pos - first_inf_pos))])
          else scanLoop pattern fuel (pos + 1) [] (fmt_ord ++ [(key, [])])
    else Scan.finished (flush_literal literal fmt_ord)

/-- The second loop of `parsePattern`: the items are created in order; an empty
pointer from `createItem` ends it with `return false`. -/
def itemLoop : List (List Char × List Char) → List FormatItem → Bool × List FormatItem
  | [], items => (true, items)
  | kv :: rest, items =>
    match createItem kv.1 kv.2 with
    | none => (false, items)
    | some item => itemLoop rest (items ++ [item])

/-- The method `parsePattern()` on `_pattern`: the value returned and `_items`.  Every
pass of the first loop advances `pos`, so as many passes as the pattern has
characters are allowed; `none` when they run out. -/
def parsePattern (pattern : List Char) : Option (Bool × List FormatItem) :=
  match scanLoop pattern pattern.length 0 [] [] with
  | Scan.rejected => some (false, [])
  | Scan.finished fmt_ord => some (itemLoop fmt_ord [])
  | Scan.unfinished => none

/-- The constructor `Formatter(pattern)`; `none` when `assert(parsePattern())`
fails. -/
def new (pattern : List Char := DEFAULT_PATTERN.toList) : Option Formatter :=
  match parsePattern pattern with
  | some (true, items) => some { _pattern := pattern, _items := items }
  | _ => none

/-- The method `format(msg)`. -/
def format (env : FormatEnv) (f : Formatter) (msg : LogMsg) : List Char :=
  f._items.flatMap (fun item => item.format env msg)

/-- Where a left-to-right reading of a pattern stands: in literal text, right after a
'%', right after the character of a directive, or inside the braces of a directive. -/
inductive ScanState
  | text
  | percent
  | key
  | brace
  deriving DecidableEq, Repr

/-- In the words of the claim on `parsePattern`: reading the pattern from left to
right, whether a '%' is met that is the last character of the pattern, or a directive
character followed by '{' with no '}' after it.  A "%%" is an escaped '%', and the
text between the braces of a directive is skipped. -/
def meetsError : ScanState → List Char → Bool
  | ScanState.text, [] => false
  | ScanState.text, c :: rest =>
    if c = '%' then meetsError ScanState.percent rest else meetsError ScanState.text rest
  | ScanState.percent, [] => true
  | ScanState.percent, c :: rest =>
    if c = '%' then meetsError ScanState.text rest else meetsError ScanState.key rest
  | ScanState.key, [] => false
  | ScanState.key, c :: rest =>
    if c = '{' then meetsError ScanState.brace rest
    else if c = '%' then meetsError ScanState.percent rest
    else meetsError ScanState.text rest
  | ScanState.brace, [] => true
  | ScanState.brace, c :: rest =>
    if c = '}' then meetsError ScanState.text rest else meetsError ScanState.brace rest

/-- The pieces of a pattern made of literal characters, "%%", "%m" and "%n". -/
inductive Piece
  | text (c : Char)
  | percent
  | payload
  | newline
  deriving DecidableEq, Repr

/-- The characters of a piece in the pattern. -/
def Piece.pattern : Piece → List Char
  | Piece.text c => [c]
  | Piece.percent => ['%', '%']
  | Piece.payload => ['%', 'm']
  | Piece.newline => ['%', 'n']

/-- What the claim says a piece is rendered as: a literal character as itself, "%%" as
one '%', "%m" as the payload, "%n" as the line terminator "\r\n". -/
def Piece.render (msg : LogMsg) : Piece → List Char
  | Piece.text c => [c]
  | Piece.percent => ['%']
  | Piece.payload => msg._payload.toList
  | Piece.newline => ['\r', '\n']

/-- Whether a list of pieces reads back as itself: no literal character is '%', and
no literal '{' comes right after "%m" or "%n", where it would open an argument. -/
def piecesOk : List Piece → Bool
  | [] => true
  | Piece.text c :: rest => decide (c ≠ '%') && piecesOk rest
  | Piece.percent :: rest => piecesOk rest
  | Piece.payload :: rest => decide (rest.head? ≠ some (Piece.text '{')) && piecesOk rest
  | Piece.newline :: rest => decide (rest.head? ≠ some (Piece.text '{')) && piecesOk rest

/-- The text rendered for `msg` by the items the second loop of `parsePattern` makes
from `fmt_ord`. -/
def rendered (env : FormatEnv) (msg : LogMsg) (fmt_ord : List (List Char × List Char)) :
    List Char :=
  (itemLoop fmt_ord []).2.flatMap (fun item => item.format env msg)

end Formatter

end mylog

/-! ## Definitions: the fixed-style formatter of `bitlog` -/

namespace bitlog

/-- A `char`. -/
abbrev Byte := Fin 256

/-- The enumeration `Level : int` of level.hpp, a value being kept as its `int`:
`DEBUG = 0`, `INFO`, `WARN`, `ERROR`, `FATAL`, `OFF`. -/
abbrev Level := Int

/-- The function `to_string(Level)`: "DEBUG", "INFO", "WARN", "ERROR", "FATAL", "OFF",
and "UNKNOW" for any other value. -/
def to_string (lv : Level) : List Byte :=
  if lv = 0 then [68, 69, 66, 85, 71]
  else if lv = 1 then [73, 78, 70, 79]
  else if lv = 2 then [87, 65, 82, 78]
  else if lv = 3 then [69, 82, 82, 79, 82]
  else if lv = 4 then [70, 65, 84, 65, 76]
  else if lv = 5 then [79, 70, 70]
  else [85, 78, 75, 78, 79, 87]

/-- The struct `LogMsg` of message.hpp; `time` is the count of the time point, in
nanoseconds since the epoch. -/
structure LogMsg where
  name : List Byte
  level : Level
  time : Int
  payload : List Byte
  deriving DecidableEq, Repr

/-- The decimal digits `operator<<` prints for an integer, with a minus sign for a
negative one. -/
def decimal (n : Int) : List Byte :=
  (if n < 0 then [45] else []) ++
    (Nat.toDigits 10 n.natAbs).map (fun c => Fin.ofNat c.toNat)

/-- The effect of `std::setw(w)` with `std::setfill('0')` on a text: fill characters
are put before it up to the width. -/
def setw (w : Nat) (text : List Byte) : List Byte :=
  List.replicate (w - text.length) 48 ++ text

/-- The text of a number below 1000 in exactly three digits: the hundreds, the tens
and the units digit. -/
def threeDigits (n : Nat) : List Byte :=
  [Fin.ofNat (48 + n / 100), Fin.ofNat (48 + n / 10 % 10), Fin.ofNat (48 + n % 10)]

/-- The function `format_time_point(tp)`.  `putTime t` is the text
`std::put_time(&tm, "%Y-%m-%d %H:%M:%S")` prints for the local time `localtime_r`
gives for the `time_t` value `t`. -/
def format_time_point (putTime : Int → List Byte) (tp : Int) : List Byte :=
  let t := Int.tdiv tp 1000000000
  let us := Int.tmod (Int.tdiv tp 1000) 1000000
  putTime t ++ [46] ++ setw 3 (decimal (Int.tdiv us 1000))

/-- The method `Formatter::format(m)`. -/
def format (putTime : Int → List Byte) (m : LogMsg) : List Byte :=
  ([91] ++ format_time_point putTime m.time ++ [93] ++ [91] ++ to_string m.level ++ [93]) ++
    (m.payload ++ [10])

/-- The line that the header comment of formatter.hpp and case 3 of
formatter_tests.cpp describe: "[" time "][" level "] " payload "\n", with a space
after the bracket that closes the level. -/
def lineWithSpace (putTime : Int → List Byte) (m : LogMsg) : List Byte :=
  [91] ++ format_time_point putTime m.time ++ [93, 91] ++ to_string m.level ++ [93, 32] ++
    m.payload ++ [10]

end bitlog

/-! ## Definitions: the sorting functions of `stage0/cmake_stu` -/

namespace cmake_stu

/-- The `while` loop of `insertion_sort` and the assignment after it, `j` being the
index the loop is at: while `j > 0 && a[j - 1] > key`, `a[j] = a[j - 1]` and `--j`;
then `a[j] = key`.  A `std::vector<int>` is the list of its elements, which are only
compared and copied, so an `int` is kept as an integer. -/
def insertKey (key : Int) : Nat → List Int → List Int
  | 0, a => a.set 0 key
  | j + 1, a =>
    if a.getD j 0 > key then insertKey key j (a.set (j + 1) (a.getD j 0))
    else a.set (j + 1) key

/-- The function `insertion_sort(a)`: the body runs for `i = 1, ..., a.size() - 1`,
the size of the vector being the same throughout. -/
def insertion_sort (a : List Int) : List Int :=
  (List.range' 1 (a.length - 1)).foldl (fun a i => insertKey (a.getD i 0) i a) a

/-- The inner loop of `selection_sort`: `min_idx` after `j` has run over
`i + 1, ..., n - 1`. -/
def minIndex (n : Nat) (a : List Int) (i : Nat) : Nat :=
  (List.range' (i + 1) (n - (i + 1))).foldl
    (fun min_idx j => if a.getD j 0 < a.getD min_idx 0 then j else min_idx) i

/-- The body of the outer loop of `selection_sort` for the index `i`: the search of
`min_idx` and the exchange of `a[i]` and `a[min_idx]` when they differ. -/
def selectStep (n : Nat) (a : List Int) (i : Nat) : List Int :=
  let min_idx := minIndex n a i
  if min_idx ≠ i then
    let tmp := a.getD i 0
    (a.set i (a.getD min_idx 0)).set min_idx tmp
  else a

/-- The function `selection_sort(a)`: the body runs for `i = 0, ..., n - 1` with
`n = a.size()`. -/
def selection_sort (a : List Int) : List Int :=
  (List.range a.length).foldl (selectStep a.length) a

end cmake_stu

/-! ## Arithmetic of `size_t` and the `Buffer` class -/

namespace mylog

theorem szSub_of_le {a b : Nat} (h : b ≤ a) (ha : a < SIZE_MOD) : szSub a b = a - b := by
  simp only [szSub, SIZE_MOD] at *
  omega

theorem szAdd_of_lt {a b : Nat} (h : a + b < SIZE_MOD) : szAdd a b = a + b := by
  simp only [szAdd, SIZE_MOD] at *
  omega

theorem szSub_lt (a b : Nat) : szSub a b < SIZE_MOD := by
  simp only [szSub, SIZE_MOD]
  omega

theorem szAdd_lt (a b : Nat) : szAdd a b < SIZE_MOD := by
  simp only [szAdd, SIZE_MOD]
  omega

theorem szMul_lt (a b : Nat) : szMul a b < SIZE_MOD := by
  simp only [szMul, SIZE_MOD]
  omega

namespace Buffer

theorem newSize_le_lim (lim thr inc w need cur : Nat) : newSize lim thr inc w need cur ≤ lim := by
  simp only [newSize]
  exact Nat.min_le_right _ _

theorem newSize_lt (lim thr inc w need cur : Nat) :
    newSize lim thr inc w need cur < SIZE_MOD := by
  have hm := szMul_lt cur 2
  have ha := szAdd_lt cur inc
  have hb := szAdd_lt w need
  simp only [newSize]
  split_ifs <;> omega

/-- What `growLoop` guarantees about the arena, for every amount of fuel. -/
theorem growLoop_spec (lim thr inc w need : Nat) (fuel : Nat) (v : CharVec) :
    v.size ≤ (growLoop lim thr inc w need fuel v).size ∧
    (growLoop lim thr inc w need fuel v).size ≤ max v.size lim ∧
    (v.size < SIZE_MOD → (growLoop lim thr inc w need fuel v).size < SIZE_MOD) ∧
    (∀ i, i < v.size → (growLoop lim thr inc w need fuel v).data i = v.data i) ∧
    (lim ≤ v.size → growLoop lim thr inc w need fuel v = v) := by
  induction fuel generalizing v with
  | zero => simp [growLoop]
  | succ n ih =>
    simp only [growLoop]
    have h1 := newSize_le_lim lim thr inc w need v.size
    have h2 := newSize_lt lim thr inc w need v.size
    generalize newSize lim thr inc w need v.size = ns at h1 h2
    by_cases hc : szSub v.size w < need ∧ v.size < lim
    · rw [if_pos hc]
      by_cases hb : ns ≤ v.size
      · rw [if_pos hb]; simp
      · rw [if_neg hb]
        obtain ⟨a1, a2, a3, a4, _⟩ := ih (v.resize ns)
        simp only [CharVec.resize] at a1 a2 a3 a4 ⊢
        refine ⟨by omega, by omega, fun _ => a3 h2, ?_, by omega⟩
        intro i hi
        rw [a4 i (by omega)]
        simp [hi]
    · rw [if_neg hc]; simp

/-- The fuel given by `ensureEnoughSize` is enough: once `fuel` covers the distance from
the arena size to the ceiling, the loop has left through its own exit and more fuel
does not change the result. -/
theorem growLoop_fuel_enough (lim thr inc w need : Nat) (fuel : Nat) (v : CharVec)
    (h : lim - v.size ≤ fuel) (extra : Nat) :
    growLoop lim thr inc w need (fuel + extra) v = growLoop lim thr inc w need fuel v := by
  induction fuel generalizing v with
  | zero =>
    have hv : lim ≤ v.size := by omega
    rw [(growLoop_spec lim thr inc w need (0 + extra) v).2.2.2.2 hv]
    rfl
  | succ n ih =>
    have e : n + 1 + extra = (n + extra) + 1 := by omega
    rw [e]
    simp only [growLoop]
    have h1 := newSize_le_lim lim thr inc w need v.size
    generalize newSize lim thr inc w need v.size = ns at h1
    by_cases hc : szSub v.size w < need ∧ v.size < lim
    · rw [if_pos hc, if_pos hc]
      by_cases hb : ns ≤ v.size
      · rw [if_pos hb, if_pos hb]
      · rw [if_neg hb, if_neg hb]
        exact ih (v.resize ns) (by simp only [CharVec.resize]; omega)
    · rw [if_neg hc, if_neg hc]

theorem ensureEnoughSize_spec (b : Buffer) (need : Nat) :
    (b.ensureEnoughSize need)._reader_idx = b._reader_idx ∧
    (b.ensureEnoughSize need)._writer_idx = b._writer_idx ∧
    (b.ensureEnoughSize need)._MAX_BUFFER_SIZE = b._MAX_BUFFER_SIZE ∧
    b._buffer.size ≤ (b.ensureEnoughSize need)._buffer.size ∧
    (b.ensureEnoughSize need)._buffer.size ≤ max b._buffer.size b._MAX_BUFFER_SIZE ∧
    (b._buffer.size < SIZE_MOD → (b.ensureEnoughSize need)._buffer.size < SIZE_MOD) ∧
    (∀ i, i < b._buffer.size → (b.ensureEnoughSize need)._buffer.data i = b._buffer.data i) ∧
    (b._MAX_BUFFER_SIZE < need ∨ b._MAX_BUFFER_SIZE ≤ b._buffer.size →
      b.ensureEnoughSize need = b) := by
  unfold ensureEnoughSize
  by_cases h : need > b._MAX_BUFFER_SIZE
  · rw [if_pos h]; simp
  · rw [if_neg h]
    obtain ⟨a1, a2, a3, a4, a5⟩ := growLoop_spec b._MAX_BUFFER_SIZE
      (max 1 (min THRESHOLD_BUFFER_SIZE b._MAX_BUFFER_SIZE))
      (max 1 (min INCREMENT_BUFFER_SIZE b._MAX_BUFFER_SIZE)) b._writer_idx need
      b._MAX_BUFFER_SIZE b._buffer
    refine ⟨rfl, rfl, rfl, a1, a2, a3, a4, ?_⟩
    intro hor
    rcases hor with h1 | h1
    · omega
    · simp only [a5 h1]

/-- The two outcomes of `push`, with the assertion of `moveWriter` discharged. -/
theorem push_eq (b : Buffer) (d : List Byte) :
    b.push d =
      if (b.ensureEnoughSize d.length).writerableSize < d.length then
        some (false, b.ensureEnoughSize d.length)
      else
        some (true,
          { b.ensureEnoughSize d.length with
            _buffer := (b.ensureEnoughSize d.length)._buffer.memcpy
              (b.ensureEnoughSize d.length)._writer_idx d
            _writer_idx := szAdd (b.ensureEnoughSize d.length)._writer_idx d.length }) := by
  unfold push
  by_cases h : (b.ensureEnoughSize d.length).writerableSize < d.length
  · simp only [if_pos h]
  · simp only [if_neg h]
    have h2 : d.length ≤ szSub (b.ensureEnoughSize d.length)._buffer.size
        (b.ensureEnoughSize d.length)._writer_idx := by
      simpa [writerableSize] using h
    simp [moveWriter, writerableSize, CharVec.memcpy, h2]

theorem span_memcpy_self (v : CharVec) (off : Nat) (src : List Byte) :
    (v.memcpy off src).span off src.length = src := by
  apply List.ext_getElem
  · simp [CharVec.span]
  · intro i h1 h2
    simp [CharVec.span, CharVec.memcpy, h2, List.getD_eq_getElem?_getD]

theorem span_congr (v v1 : CharVec) (off n : Nat)
    (h : ∀ i, off ≤ i → i < off + n → v1.data i = v.data i) :
    v1.span off n = v.span off n := by
  simp only [CharVec.span]
  apply List.map_congr_left
  intro i hi
  exact h _ (by omega) (by have := List.mem_range.mp hi; omega)

theorem span_add (v : CharVec) (off n m : Nat) :
    v.span off (n + m) = v.span off n ++ v.span (off + n) m := by
  simp only [CharVec.span, List.range_add, List.map_append, List.map_map]
  congr 1
  apply List.map_congr_left
  intro i _
  simp [Nat.add_assoc]

/-- Effect of a successful `push` on a buffer satisfying the class invariant. -/
theorem push_true_spec {b b1 : Buffer} {d : List Byte} (hwf : b.WF)
    (h : b.push d = some (true, b1)) :
    b1._writer_idx = b._writer_idx + d.length ∧
    b1._reader_idx = b._reader_idx ∧
    b1._MAX_BUFFER_SIZE = b._MAX_BUFFER_SIZE ∧
    b1._buffer.span b._writer_idx d.length = d ∧
    (∀ i, i < b._writer_idx → b1._buffer.data i = b._buffer.data i) ∧
    b._buffer.size ≤ b1._buffer.size ∧
    b1.WF := by
  obtain ⟨e1, e2, e3, e4, _, e6, e7, _⟩ := ensureEnoughSize_spec b d.length
  obtain ⟨w1, w2, w3⟩ := hwf
  rw [push_eq] at h
  by_cases hc : (b.ensureEnoughSize d.length).writerableSize < d.length
  · rw [if_pos hc] at h; simp at h
  · rw [if_neg hc] at h
    simp only [Option.some.injEq, Prod.mk.injEq, true_and] at h
    subst h
    have hs : szSub (b.ensureEnoughSize d.length)._buffer.size b._writer_idx =
        (b.ensureEnoughSize d.length)._buffer.size - b._writer_idx :=
      szSub_of_le (by omega) (e6 w3)
    simp only [writerableSize, e2, hs] at hc
    have hlt := e6 w3
    have ha : szAdd b._writer_idx d.length = b._writer_idx + d.length :=
      szAdd_of_lt (by omega)
    refine ⟨?_, ?_, ?_, ?_, ?_, ?_, ?_⟩
    · show szAdd (b.ensureEnoughSize d.length)._writer_idx d.length = _
      rw [e2, ha]
    · exact e1
    · exact e3
    · show ((b.ensureEnoughSize d.length)._buffer.memcpy
        (b.ensureEnoughSize d.length)._writer_idx d).span b._writer_idx d.length = d
      rw [e2]
      exact span_memcpy_self _ _ _
    · intro i hi
      show ((b.ensureEnoughSize d.length)._buffer.memcpy
        (b.ensureEnoughSize d.length)._writer_idx d).data i = _
      simp only [CharVec.memcpy, e2]
      rw [if_neg (by omega)]
      exact e7 i (by omega)
    · exact e4
    · show _ ≤ szAdd (b.ensureEnoughSize d.length)._writer_idx d.length ∧
        szAdd (b.ensureEnoughSize d.length)._writer_idx d.length ≤
          ((b.ensureEnoughSize d.length)._buffer.memcpy
            (b.ensureEnoughSize d.length)._writer_idx d).size ∧
        ((b.ensureEnoughSize d.length)._buffer.memcpy
            (b.ensureEnoughSize d.length)._writer_idx d).size < SIZE_MOD
      rw [e2, ha, e1]
      simp only [CharVec.memcpy]
      omega

/-- Effect of a failed `push`: the buffer is the one left by `ensureEnoughSize`. -/
theorem push_false_spec {b b1 : Buffer} {d : List Byte} (h : b.push d = some (false, b1)) :
    b1 = b.ensureEnoughSize d.length ∧
      (b.ensureEnoughSize d.length).writerableSize < d.length := by
  rw [push_eq] at h
  by_cases hc : (b.ensureEnoughSize d.length).writerableSize < d.length
  · rw [if_pos hc] at h
    simp only [Option.some.injEq, Prod.mk.injEq, true_and] at h
    exact ⟨h.symm, hc⟩
  · rw [if_neg hc] at h; simp at h

theorem push_ne_none (b : Buffer) (d : List Byte) : b.push d ≠ none := by
  rw [push_eq]
  split_ifs <;> simp

theorem readableSize_of_WF {b : Buffer} (h : b.WF) :
    b.readableSize = b._writer_idx - b._reader_idx := by
  obtain ⟨w1, w2, w3⟩ := h
  exact szSub_of_le w1 (by omega)

theorem writerableSize_of_WF {b : Buffer} (h : b.WF) :
    b.writerableSize = b._buffer.size - b._writer_idx := by
  obtain ⟨w1, w2, w3⟩ := h
  exact szSub_of_le w2 w3

/-- Closed form of `moveReader` within its precondition. -/
theorem moveReader_eq {b : Buffer} {n : Nat} (hwf : b.WF)
    (hn : n ≤ b._writer_idx - b._reader_idx) :
    b.moveReader n = some (if b._reader_idx + n = b._writer_idx then b.reset
      else { b with _reader_idx := b._reader_idx + n }) := by
  have hr := readableSize_of_WF hwf
  obtain ⟨w1, w2, w3⟩ := hwf
  have ha : szAdd b._reader_idx n = b._reader_idx + n := szAdd_of_lt (by omega)
  unfold moveReader
  rw [if_pos (by omega)]
  simp only [ha]
  by_cases hc : b._reader_idx + n = b._writer_idx
  · simp [hc, reset]
  · simp only [hc, if_false]
    rw [if_pos ⟨by omega, w2⟩]

theorem moveReader_none {b : Buffer} {n : Nat} (hwf : b.WF)
    (hn : b._writer_idx - b._reader_idx < n) : b.moveReader n = none := by
  have hr := readableSize_of_WF hwf
  unfold moveReader
  rw [if_neg (by omega)]

/-- Closed form of `moveWriter` within its precondition. -/
theorem moveWriter_eq {b : Buffer} {n : Nat} (hwf : b.WF)
    (hn : n ≤ b._buffer.size - b._writer_idx) :
    b.moveWriter n = some { b with _writer_idx := b._writer_idx + n } := by
  have hr := writerableSize_of_WF hwf
  obtain ⟨w1, w2, w3⟩ := hwf
  have ha : szAdd b._writer_idx n = b._writer_idx + n := szAdd_of_lt (by omega)
  unfold moveWriter
  rw [if_pos (by omega), ha]

theorem moveWriter_none {b : Buffer} {n : Nat} (hwf : b.WF)
    (hn : b._buffer.size - b._writer_idx < n) : b.moveWriter n = none := by
  have hr := writerableSize_of_WF hwf
  unfold moveWriter
  rw [if_neg (by omega)]

theorem WF_new (max_size : Nat) : (Buffer.new max_size).WF := by
  refine ⟨Nat.le_refl _, Nat.zero_le _, ?_⟩
  show min DEFAULT_BUFFER_SIZE max_size < SIZE_MOD
  simp only [DEFAULT_BUFFER_SIZE, SIZE_MOD]
  omega

theorem WF_ensureEnoughSize {b : Buffer} (h : b.WF) (need : Nat) :
    (b.ensureEnoughSize need).WF := by
  obtain ⟨e1, e2, _, e4, _, e6, _, _⟩ := ensureEnoughSize_spec b need
  obtain ⟨w1, w2, w3⟩ := h
  refine ⟨?_, ?_, e6 w3⟩
  · rw [e1, e2]; exact w1
  · rw [e2]; omega

theorem WF_push {b : Buffer} {d : List Byte} {r : Bool × Buffer} (h : b.WF)
    (hp : b.push d = some r) : r.2.WF := by
  obtain ⟨ok, b1⟩ := r
  cases ok with
  | true => exact (push_true_spec h hp).2.2.2.2.2.2
  | false =>
    rw [(push_false_spec hp).1]
    exact WF_ensureEnoughSize h _

theorem WF_moveReader {b b1 : Buffer} {n : Nat} (h : b.WF)
    (hm : b.moveReader n = some b1) : b1.WF := by
  by_cases hn : n ≤ b._writer_idx - b._reader_idx
  · rw [moveReader_eq h hn] at hm
    obtain ⟨w1, w2, w3⟩ := h
    simp only [Option.some.injEq] at hm
    subst hm
    split_ifs with hc
    · exact ⟨Nat.le_refl _, Nat.zero_le _, w3⟩
    · exact ⟨by show b._reader_idx + n ≤ b._writer_idx; omega, w2, w3⟩
  · rw [moveReader_none h (by omega)] at hm
    simp at hm

theorem WF_moveWriter {b b1 : Buffer} {n : Nat} (h : b.WF)
    (hm : b.moveWriter n = some b1) : b1.WF := by
  by_cases hn : n ≤ b._buffer.size - b._writer_idx
  · rw [moveWriter_eq h hn] at hm
    obtain ⟨w1, w2, w3⟩ := h
    simp only [Option.some.injEq] at hm
    subst hm
    exact ⟨by show b._reader_idx ≤ b._writer_idx + n; omega,
      by show b._writer_idx + n ≤ b._buffer.size; omega, w3⟩
  · rw [moveWriter_none h (by omega)] at hm
    simp at hm

/-- The class invariant holds in every reachable state, whatever `resize` is given. -/
theorem WF_of_reachableVia {ok : Buffer → Nat → Prop} {b : Buffer}
    (h : ReachableVia ok b) : b.WF := by
  induction h with
  | new m => exact WF_new m
  | push _ hp ih => exact WF_push ih hp
  | moveReader _ hm ih => exact WF_moveReader ih hm
  | moveWriter _ hm ih => exact WF_moveWriter ih hm
  | reset _ ih => exact ⟨Nat.le_refl _, Nat.zero_le _, ih.2.2⟩
  | resize _ _ ih => exact ih
  | swap_this _ _ _ ihb => exact ihb
  | swap_other _ _ iha _ => exact iha

/-- The arena never exceeds the ceiling as long as `resize` does not lower the
ceiling below the arena size. -/
theorem size_le_max_of_reachableKeepingCeiling {b : Buffer}
    (h : ReachableKeepingCeiling b) : b._buffer.size ≤ b._MAX_BUFFER_SIZE := by
  induction h with
  | new m =>
    show min DEFAULT_BUFFER_SIZE m ≤ m
    exact Nat.min_le_right _ _
  | @push b d r hb hp ih =>
    have hwf := WF_of_reachableVia hb
    obtain ⟨_, _, e3, _, e5, _, _, _⟩ := ensureEnoughSize_spec b d.length
    obtain ⟨ok, b1⟩ := r
    rw [push_eq] at hp
    split_ifs at hp with hc
    · simp only [Option.some.injEq, Prod.mk.injEq] at hp
      rw [← hp.2]
      show (b.ensureEnoughSize d.length)._buffer.size ≤
        (b.ensureEnoughSize d.length)._MAX_BUFFER_SIZE
      omega
    · simp only [Option.some.injEq, Prod.mk.injEq] at hp
      rw [← hp.2]
      show (b.ensureEnoughSize d.length)._buffer.size ≤
        (b.ensureEnoughSize d.length)._MAX_BUFFER_SIZE
      omega
  | @moveReader b b1 n hb hm ih =>
    have hwf := WF_of_reachableVia hb
    by_cases hn : n ≤ b._writer_idx - b._reader_idx
    · rw [moveReader_eq hwf hn] at hm
      simp only [Option.some.injEq] at hm
      subst hm
      split_ifs <;> exact ih
    · rw [moveReader_none hwf (by omega)] at hm
      simp at hm
  | @moveWriter b b1 n hb hm ih =>
    have hwf := WF_of_reachableVia hb
    by_cases hn : n ≤ b._buffer.size - b._writer_idx
    · rw [moveWriter_eq hwf hn] at hm
      simp only [Option.some.injEq] at hm
      subst hm
      exact ih
    · rw [moveWriter_none hwf (by omega)] at hm
      simp at hm
  | reset _ ih => exact ih
  | resize _ hok _ => exact hok
  | swap_this _ _ _ ihb => exact ihb
  | swap_other _ _ iha _ => exact iha

theorem readable_of_WF {b : Buffer} (h : b.WF) :
    b.readable = b._buffer.span b._reader_idx (b._writer_idx - b._reader_idx) := by
  unfold readable
  rw [readableSize_of_WF h]

/-- A successful `push` appends its bytes to the readable span. -/
theorem readable_push {b b1 : Buffer} {d : List Byte} (hwf : b.WF)
    (h : b.push d = some (true, b1)) : b1.readable = b.readable ++ d := by
  obtain ⟨p1, p2, _, p4, p5, _, p7⟩ := push_true_spec hwf h
  rw [readable_of_WF p7, readable_of_WF hwf, p1, p2]
  obtain ⟨w1, w2, w3⟩ := hwf
  have e : b._writer_idx + d.length - b._reader_idx =
      (b._writer_idx - b._reader_idx) + d.length := by omega
  rw [e, span_add]
  have e2 : b._reader_idx + (b._writer_idx - b._reader_idx) = b._writer_idx := by omega
  rw [e2, p4]
  congr 1
  exact span_congr _ _ _ _ (fun i _ hi => p5 i (by omega))

/-- After a run of successful pushes the readable span is the old one followed by the
pushed strings in order. -/
theorem pushAll_spec {ds : List (List Byte)} {b b1 : Buffer} (hwf : b.WF)
    (h : pushAll b ds = some b1) : b1.WF ∧ b1.readable = b.readable ++ ds.flatten := by
  induction ds generalizing b with
  | nil =>
    simp only [pushAll, Option.some.injEq] at h
    subst h
    simp [hwf]
  | cons d ds ih =>
    unfold pushAll at h
    split at h
    · rename_i b2 hp
      obtain ⟨i1, i2⟩ := ih (push_true_spec hwf hp).2.2.2.2.2.2 h
      refine ⟨i1, ?_⟩
      rw [i2, readable_push hwf hp]
      simp
    · simp at h

theorem span_succ (v : CharVec) (off n : Nat) :
    v.span off (n + 1) = v.data off :: v.span (off + 1) n := by
  have h := span_add v off 1 n
  rw [Nat.add_comm 1 n] at h
  rw [h]
  simp [CharVec.span, List.range_succ]

/-- Consuming the readable span one byte at a time returns it and empties the buffer. -/
theorem drainBytes_spec (n : Nat) (b : Buffer) (hwf : b.WF)
    (hn : b._writer_idx - b._reader_idx = n) :
    ∃ b1, b.drainBytes n = some (b.readable, b1) ∧ b1.empty = true ∧
      b1._buffer = b._buffer ∧ b1._MAX_BUFFER_SIZE = b._MAX_BUFFER_SIZE := by
  induction n generalizing b with
  | zero =>
    refine ⟨b, ?_, ?_, rfl, rfl⟩
    · rw [readable_of_WF hwf, hn]
      simp [drainBytes, CharVec.span]
    · obtain ⟨w1, _, _⟩ := hwf
      simp only [empty, beq_iff_eq]
      omega
  | succ k ih =>
    have hm := moveReader_eq (n := 1) hwf (by omega)
    have hwf1 := WF_moveReader hwf hm
    have hr : b.readable = b._buffer.data b._reader_idx ::
        b._buffer.span (b._reader_idx + 1) k := by
      rw [readable_of_WF hwf, hn, span_succ]
    by_cases hc : b._reader_idx + 1 = b._writer_idx
    · rw [if_pos hc] at hm hwf1
      have hk : k = 0 := by omega
      subst hk
      refine ⟨b.reset, ?_, rfl, rfl, rfl⟩
      simp only [drainBytes, hm, hr]
      simp [CharVec.span]
    · rw [if_neg hc] at hm hwf1
      obtain ⟨b2, i1, i2, i3, i4⟩ := ih _ hwf1 (by show b._writer_idx - (b._reader_idx + 1) = k; omega)
      refine ⟨b2, ?_, i2, i3, i4⟩
      simp only [drainBytes, hm, i1, hr]
      rw [readable_of_WF hwf1]
      have e : b._writer_idx - (b._reader_idx + 1) = k := by omega
      simp [e]

/-- C1 (as stated, refuted): after `Buffer().resize(2)` the ceiling is 2 while the
arena keeps its 10 MiB, so a `push` of 3 bytes, more than the ceiling, returns true and
makes the 3 bytes readable. -/
theorem C1_counterexample_push_above_ceiling_succeeds :
    Reachable ((Buffer.new).resize 2) ∧
    ((Buffer.new).resize 2)._MAX_BUFFER_SIZE < [(1 : Byte), 2, 3].length ∧
    (((Buffer.new).resize 2).push [1, 2, 3]).map (fun p => (p.1, p.2.readable)) =
      some (true, [1, 2, 3]) := by
  refine ⟨ReachableVia.resize (ReachableVia.new _) trivial, by decide, by decide⟩

/-- C1 (amended): in every state reachable through construction, push, moveReader,
moveWriter, reset, swap and those `resize` calls that do not put the ceiling below the
arena size, a `push` of more bytes than the ceiling returns false and leaves the whole
buffer (cursors, capacity, ceiling, bytes) exactly as it was. -/
theorem C1_push_above_ceiling_fails (b : Buffer) (d : List Byte)
    (hb : ReachableKeepingCeiling b) (hlen : b._MAX_BUFFER_SIZE < d.length) :
    b.push d = some (false, b) := by
  have hwf := WF_of_reachableVia hb
  have hc := size_le_max_of_reachableKeepingCeiling hb
  have he : b.ensureEnoughSize d.length = b :=
    (ensureEnoughSize_spec b d.length).2.2.2.2.2.2.2 (Or.inl hlen)
  rw [push_eq, he, if_pos]
  rw [writerableSize_of_WF hwf]
  omega

theorem C1_push_above_ceiling_fails_witness :
    ReachableKeepingCeiling (Buffer.new 2) ∧
    (Buffer.new 2)._MAX_BUFFER_SIZE < [(1 : Byte), 2, 3].length ∧
    (Buffer.new 2).push [1, 2, 3] = some (false, Buffer.new 2) :=
  ⟨ReachableVia.new 2, by decide,
    C1_push_above_ceiling_fails (Buffer.new 2) [1, 2, 3] (ReachableVia.new 2) (by decide)⟩

/-- C4 (as stated, refuted): `Buffer().resize(64)` is reachable and its arena
(10 MiB) is larger than its ceiling (64), so `cap ≤ max_cap` fails. -/
theorem C4_counterexample_capacity_above_ceiling :
    ¬ ∀ b : Buffer, Reachable b →
      0 ≤ b._reader_idx ∧ b._reader_idx ≤ b._writer_idx ∧
        b._writer_idx ≤ b._buffer.size ∧ b._buffer.size ≤ b._MAX_BUFFER_SIZE := by
  intro h
  have h1 := (h ((Buffer.new).resize 64)
    (ReachableVia.resize (ReachableVia.new _) trivial)).2.2.2
  revert h1
  decide

/-- C4 (amended): every state reachable through construction, push, moveReader,
moveWriter, reset, swap and those `resize` calls that do not put the ceiling below the
arena size satisfies `0 ≤ r ≤ w ≤ cap ≤ max_cap`. -/
theorem C4_invariant_keeping_ceiling (b : Buffer) (hb : ReachableKeepingCeiling b) :
    0 ≤ b._reader_idx ∧ b._reader_idx ≤ b._writer_idx ∧
      b._writer_idx ≤ b._buffer.size ∧ b._buffer.size ≤ b._MAX_BUFFER_SIZE := by
  obtain ⟨w1, w2, _⟩ := WF_of_reachableVia hb
  exact ⟨Nat.zero_le _, w1, w2, size_le_max_of_reachableKeepingCeiling hb⟩

theorem C4_invariant_keeping_ceiling_witness :
    ReachableKeepingCeiling ((Buffer.new 64).resize 100) ∧
    (0 ≤ ((Buffer.new 64).resize 100)._reader_idx ∧
      ((Buffer.new 64).resize 100)._reader_idx ≤ ((Buffer.new 64).resize 100)._writer_idx ∧
      ((Buffer.new 64).resize 100)._writer_idx ≤ ((Buffer.new 64).resize 100)._buffer.size ∧
      ((Buffer.new 64).resize 100)._buffer.size ≤
        ((Buffer.new 64).resize 100)._MAX_BUFFER_SIZE) :=
  ⟨ReachableVia.resize (ReachableVia.new 64) (by decide),
    C4_invariant_keeping_ceiling _ (ReachableVia.resize (ReachableVia.new 64) (by decide))⟩

/-- C5: when `push(data, len)` returns true on a buffer satisfying the class invariant
(as every reachable buffer does), the write cursor has advanced by exactly `len`, the
read cursor and the ceiling are unchanged, the `len` bytes at the old write position
are `data`, and every byte below the old write cursor, so every byte that was
readable, is unchanged, whether or not the arena was enlarged. -/
theorem C5_push_success (b b1 : Buffer) (d : List Byte) (hwf : b.WF)
    (h : b.push d = some (true, b1)) :
    b1._writer_idx = b._writer_idx + d.length ∧
    b1._reader_idx = b._reader_idx ∧
    b1._buffer.span b._writer_idx d.length = d ∧
    (∀ i, i < b._writer_idx → b1._buffer.data i = b._buffer.data i) ∧
    b1.readable = b.readable ++ d := by
  obtain ⟨p1, p2, _, p4, p5, _, _⟩ := push_true_spec hwf h
  exact ⟨p1, p2, p4, p5, readable_push hwf h⟩

/-- Witness of C5 on a push that enlarges the arena: the write cursor is at the end of
the 10 MiB arena, pushing one byte doubles the arena to 20 MiB and stores the byte. -/
theorem C5_push_success_witness :
    (Buffer.mk 209715200 ((CharVec.zeros 10485760).memcpy 10485758 [5, 6]) 10485758
      10485760).WF ∧
    (Buffer.mk 209715200 ((CharVec.zeros 10485760).memcpy 10485758 [5, 6]) 10485758
      10485760).push [7] =
      some (true, Buffer.mk 209715200
        ((((CharVec.zeros 10485760).memcpy 10485758 [5, 6]).resize 20971520).memcpy
          10485760 [7]) 10485758 10485761) ∧
    (Buffer.mk 209715200
        ((((CharVec.zeros 10485760).memcpy 10485758 [5, 6]).resize 20971520).memcpy
          10485760 [7]) 10485758 10485761).readable =
      (Buffer.mk 209715200 ((CharVec.zeros 10485760).memcpy 10485758 [5, 6]) 10485758
        10485760).readable ++ [7] :=
  ⟨by decide, rfl,
    (C5_push_success
      (Buffer.mk 209715200 ((CharVec.zeros 10485760).memcpy 10485758 [5, 6]) 10485758
        10485760)
      (Buffer.mk 209715200
        ((((CharVec.zeros 10485760).memcpy 10485758 [5, 6]).resize 20971520).memcpy
          10485760 [7]) 10485758 10485761)
      [7] (by decide) rfl).2.2.2.2⟩

/-- C3: for every sequence of byte strings (zero bytes included) whose pushes into an
empty buffer satisfying the class invariant (a freshly constructed one in particular)
all return true, the readable span is their concatenation in push order; consuming it
with one `moveReader(readableSize())` succeeds and empties the buffer, and consuming
it one byte at a time yields exactly those bytes in order and empties the buffer. -/
theorem C3_push_read_roundtrip (b b1 : Buffer) (ds : List (List Byte)) (hwf : b.WF)
    (hempty : b.empty = true) (h : pushAll b ds = some b1) :
    b1.readable = ds.flatten ∧
    b1.readableSize = ds.flatten.length ∧
    (∃ b2, b1.moveReader b1.readableSize = some b2 ∧ b2.empty = true ∧
      b2.readableSize = 0) ∧
    (∃ b3, b1.drainBytes b1.readableSize = some (ds.flatten, b3) ∧ b3.empty = true ∧
      b3.readableSize = 0) := by
  obtain ⟨hwf1, hr⟩ := pushAll_spec hwf h
  have hb : b.readable = [] := by
    rw [readable_of_WF hwf]
    simp only [empty, beq_iff_eq] at hempty
    simp [hempty, CharVec.span]
  rw [hb, List.nil_append] at hr
  have hsz : b1.readableSize = ds.flatten.length := by
    rw [← hr]
    simp [readable, CharVec.span]
  have hempty0 : ∀ c : Buffer, c.WF → c.empty = true → c.readableSize = 0 := by
    intro c hc he
    rw [readableSize_of_WF hc]
    simp only [empty, beq_iff_eq] at he
    omega
  refine ⟨hr, hsz, ?_, ?_⟩
  · have hm := moveReader_eq (n := b1.readableSize) hwf1
      (by rw [readableSize_of_WF hwf1])
    have hwf2 := WF_moveReader hwf1 hm
    refine ⟨_, hm, ?_, hempty0 _ hwf2 ?_⟩
    all_goals
      rw [readableSize_of_WF hwf1, if_pos (by obtain ⟨w1, _, _⟩ := hwf1; omega)]
      rfl
  · obtain ⟨b3, d1, d2, d3, _⟩ := drainBytes_spec b1.readableSize b1 hwf1
      (by rw [readableSize_of_WF hwf1])
    rw [hr] at d1
    refine ⟨b3, d1, d2, ?_⟩
    simp only [empty, beq_iff_eq] at d2
    simp only [readableSize, szSub, d2, SIZE_MOD]
    omega

/-- Witness of C3: three strings, one of them empty and two holding zero bytes, are
pushed into a freshly constructed buffer. -/
theorem C3_push_read_roundtrip_witness :
    (Buffer.new).WF ∧ (Buffer.new).empty = true ∧
    pushAll Buffer.new [[1, 0, 2], [], [0, 3]] =
      some (Buffer.mk 209715200
        ((((CharVec.zeros 10485760).memcpy 0 [1, 0, 2]).memcpy 3 []).memcpy 3 [0, 3]) 0 5) ∧
    (Buffer.mk 209715200
        ((((CharVec.zeros 10485760).memcpy 0 [1, 0, 2]).memcpy 3 []).memcpy 3 [0, 3]) 0
        5).readable = [1, 0, 2, 0, 3] :=
  ⟨by decide, rfl, rfl,
    (C3_push_read_roundtrip Buffer.new
      (Buffer.mk 209715200
        ((((CharVec.zeros 10485760).memcpy 0 [1, 0, 2]).memcpy 3 []).memcpy 3 [0, 3]) 0 5)
      [[1, 0, 2], [], [0, 3]] (by decide) rfl rfl).1⟩

/-- C6 (as stated, refuted): on the reachable buffer `Buffer(10485761)` after
`moveWriter(10485760)`, a `push` of 2 bytes (which fit under the ceiling but not on
top of the bytes already written) returns false, yet the capacity has changed from
10485760 to 10485761. -/
theorem C6_counterexample_failed_push_grows_capacity :
    Reachable (Buffer.mk 10485761 (CharVec.zeros 10485760) 0 10485760) ∧
    (Buffer.mk 10485761 (CharVec.zeros 10485760) 0 10485760).push [1, 2] =
      some (false, Buffer.mk 10485761 ((CharVec.zeros 10485760).resize 10485761) 0
        10485760) ∧
    (Buffer.mk 10485761 ((CharVec.zeros 10485760).resize 10485761) 0 10485760)._buffer.size
      ≠ (Buffer.mk 10485761 (CharVec.zeros 10485760) 0 10485760)._buffer.size := by
  refine ⟨?_, rfl, by decide⟩
  exact ReachableVia.moveWriter (n := 10485760) (ReachableVia.new 10485761) rfl

/-- C6 (amended): whenever `push(data, len)` returns false, the read cursor, the write
cursor, the ceiling and every stored byte of the old arena are as before the call and
the capacity has not shrunk and is at most the larger of the old capacity and the
ceiling; the whole buffer is exactly as before when `len` exceeds the ceiling or the
capacity had already reached the ceiling. -/
theorem C6_push_failure (b b1 : Buffer) (d : List Byte) (h : b.push d = some (false, b1)) :
    b1._reader_idx = b._reader_idx ∧
    b1._writer_idx = b._writer_idx ∧
    b1._MAX_BUFFER_SIZE = b._MAX_BUFFER_SIZE ∧
    (∀ i, i < b._buffer.size → b1._buffer.data i = b._buffer.data i) ∧
    b._buffer.size ≤ b1._buffer.size ∧
    b1._buffer.size ≤ max b._buffer.size b._MAX_BUFFER_SIZE ∧
    (b._MAX_BUFFER_SIZE < d.length ∨ b._MAX_BUFFER_SIZE ≤ b._buffer.size → b1 = b) := by
  obtain ⟨e1, e2, e3, e4, e5, _, e7, e8⟩ := ensureEnoughSize_spec b d.length
  rw [(push_false_spec h).1]
  exact ⟨e1, e2, e3, e7, e4, e5, e8⟩

theorem C6_push_failure_witness :
    (Buffer.mk 10485761 (CharVec.zeros 10485760) 0 10485760).push [1, 2] =
      some (false, Buffer.mk 10485761 ((CharVec.zeros 10485760).resize 10485761) 0
        10485760) ∧
    (Buffer.mk 10485761 ((CharVec.zeros 10485760).resize 10485761) 0
        10485760)._writer_idx =
      (Buffer.mk 10485761 (CharVec.zeros 10485760) 0 10485760)._writer_idx :=
  ⟨rfl, (C6_push_failure (Buffer.mk 10485761 (CharVec.zeros 10485760) 0 10485760)
    (Buffer.mk 10485761 ((CharVec.zeros 10485760).resize 10485761) 0 10485760)
    [1, 2] rfl).2.1⟩

end Buffer

end mylog

/-! ## The double-buffer loop `AsyncLooper` -/

namespace mylog

namespace Buffer

theorem readable_ensureEnoughSize {b : Buffer} (hwf : b.WF) (need : Nat) :
    (b.ensureEnoughSize need).readable = b.readable := by
  obtain ⟨e1, e2, _, _, _, _, e7, _⟩ := ensureEnoughSize_spec b need
  rw [readable_of_WF (WF_ensureEnoughSize hwf need), readable_of_WF hwf, e1, e2]
  obtain ⟨w1, w2, _⟩ := hwf
  exact span_congr _ _ _ _ (fun i _ hi => e7 i (by omega))

theorem readable_eq_nil {b : Buffer} (hwf : b.WF) (h : b._reader_idx = b._writer_idx) :
    b.readable = [] := by
  rw [readable_of_WF hwf, h]
  simp [CharVec.span]

end Buffer

namespace AsyncLooper

theorem Inv_new : Inv AsyncLooper.new where
  pro_wf := Buffer.WF_new _
  con_wf := Buffer.WF_new _
  con_r := rfl
  con_w := rfl
  bytes := by
    show [] ++ (Buffer.new).readable = []
    rw [Buffer.readable_eq_nil (Buffer.WF_new _) rfl]
    rfl
  done := by intro h; cases h

theorem Inv_stop {s : AsyncLooper} (h : Inv s) : Inv s.stop where
  pro_wf := h.pro_wf
  con_wf := h.con_wf
  con_r := h.con_r
  con_w := h.con_w
  bytes := h.bytes
  done := fun he => ⟨rfl, (h.done he).2⟩

theorem Inv_setMaxBufferSize {s : AsyncLooper} (h : Inv s) (m : Nat) :
    Inv (s.setMaxBufferSize m) where
  pro_wf := h.pro_wf
  con_wf := h.con_wf
  con_r := h.con_r
  con_w := h.con_w
  bytes := h.bytes
  done := h.done

theorem Inv_threadEntry {s : AsyncLooper} (h : Inv s) : Inv s.threadEntry := by
  unfold threadEntry
  split_ifs with h1 h2 h3
  · exact h
  · exact h
  · simp only [Bool.and_eq_true, Bool.not_eq_true', Buffer.empty, beq_iff_eq] at h3
    exact { h with done := fun _ => h3 }
  · have hx : s.exited = false := by simpa using h1
    refine ⟨h.con_wf, ⟨Nat.le_refl _, Nat.zero_le _, h.pro_wf.2.2⟩, rfl, rfl, ?_, ?_⟩
    · show (s.delivered ++ [s._pro_buf.readable]).flatten ++ s._con_buf.readable = _
      rw [Buffer.readable_eq_nil h.con_wf (by rw [h.con_r, h.con_w])]
      simp only [List.flatten_append, List.flatten_cons, List.flatten_nil, List.append_nil]
      exact h.bytes
    · intro he
      rw [hx] at he
      cases he

theorem Inv_push {s s1 : AsyncLooper} {d : List Byte} {o : PushOutcome} (h : Inv s)
    (hp : s.push d = some (o, s1)) : Inv s1 := by
  unfold push at hp
  by_cases hr : s._running = true
  · rw [if_pos hr] at hp
    have hx : s.exited = true → False := by
      intro he
      have := (h.done he).1
      rw [hr] at this
      cases this
    split at hp
    · cases hp
    · rename_i b hb
      simp only [Option.some.injEq, Prod.mk.injEq] at hp
      rw [← hp.2]
      refine ⟨(Buffer.push_true_spec h.pro_wf hb).2.2.2.2.2.2, h.con_wf, h.con_r, h.con_w,
        ?_, fun he => (hx he).elim⟩
      show s.delivered.flatten ++ b.readable = (s.stored ++ [d]).flatten
      rw [Buffer.readable_push h.pro_wf hb, ← List.append_assoc, h.bytes]
      simp
    · rename_i b hb
      simp only [Option.some.injEq, Prod.mk.injEq] at hp
      rw [← hp.2]
      have hb1 := (Buffer.push_false_spec hb).1
      refine ⟨?_, h.con_wf, h.con_r, h.con_w, ?_, fun he => (hx he).elim⟩
      · show b.WF
        rw [hb1]
        exact Buffer.WF_ensureEnoughSize h.pro_wf _
      · show s.delivered.flatten ++ b.readable = s.stored.flatten
        rw [hb1, Buffer.readable_ensureEnoughSize h.pro_wf]
        exact h.bytes
  · rw [if_neg hr] at hp
    simp only [Option.some.injEq, Prod.mk.injEq] at hp
    rw [← hp.2]
    exact h

theorem looper_push_ne_none (s : AsyncLooper) (d : List Byte) : s.push d ≠ none := by
  unfold push
  have := Buffer.push_ne_none s._pro_buf d
  split_ifs
  · split
    · rename_i hb; exact absurd hb this
    · simp
    · simp
  · simp

theorem step_inv {s : AsyncLooper} (h : Inv s) (t : Step) :
    ∃ s1, s.step t = some s1 ∧ Inv s1 := by
  cases t with
  | push d =>
    cases hp : s.push d with
    | none => exact absurd hp (looper_push_ne_none s d)
    | some r =>
      obtain ⟨o, s1⟩ := r
      exact ⟨s1, by simp [step, hp], Inv_push h hp⟩
  | worker => exact ⟨_, rfl, Inv_threadEntry h⟩
  | stop => exact ⟨_, rfl, Inv_stop h⟩
  | setMax m => exact ⟨_, rfl, Inv_setMaxBufferSize h m⟩

theorem run_inv (steps : List Step) {s : AsyncLooper} (h : Inv s) :
    ∃ s1, s.run steps = some s1 ∧ Inv s1 := by
  induction steps generalizing s with
  | nil => exact ⟨s, rfl, h⟩
  | cons t ts ih =>
    obtain ⟨s1, e1, i1⟩ := step_inv h t
    obtain ⟨s2, e2, i2⟩ := ih i1
    exact ⟨s2, by simp [run, e1, e2], i2⟩

/-- After `stop`, two worker iterations are enough for the worker to leave its loop
with everything that was stored delivered. -/
theorem drain_after_stop {s : AsyncLooper} (h : Inv s) :
    s.stop.threadEntry.threadEntry.exited = true ∧
    s.stop.threadEntry.threadEntry.stored = s.stored ∧
    s.stop.threadEntry.threadEntry.delivered.flatten = s.stored.flatten := by
  have hi := Inv_threadEntry (Inv_threadEntry (Inv_stop h))
  have hex : s.stop.threadEntry.threadEntry.exited = true := by
    by_cases hx : s.exited = true
    · simp [threadEntry, stop, hx]
    · by_cases he : s._pro_buf._reader_idx = s._pro_buf._writer_idx
      · simp [threadEntry, stop, hx, he, Buffer.empty]
      · have hc : s._con_buf._reader_idx = s._con_buf._writer_idx := by
          rw [h.con_r, h.con_w]
        simp [threadEntry, stop, hx, he, hc, Buffer.empty, Buffer.swap]
  have hst : s.stop.threadEntry.threadEntry.stored = s.stored := by
    simp only [threadEntry, stop]
    split_ifs <;> simp only []
  refine ⟨hex, hst, ?_⟩
  have hb := hi.bytes
  rw [Buffer.readable_eq_nil hi.pro_wf (hi.done hex).2, List.append_nil, hst] at hb
  exact hb

/-- C7: in the step model (producer passes through `push`, worker iterations, `stop`
and `setMaxBufferSize` interleaved in any order from construction) no assertion fails,
the concatenation of the spans handed to the delivery callback is always a prefix of
the concatenation of the byte strings stored by `push`, in push order, and equals it
once the worker has left its loop; and from every such state `stop` followed by two
worker iterations makes the worker leave its loop with everything stored delivered,
the bytes still buffered at `stop` included. -/
theorem C7_delivered_prefix_of_stored (steps : List Step) :
    ∃ s, AsyncLooper.new.run steps = some s ∧
      s.delivered.flatten <+: s.stored.flatten ∧
      (s.exited = true → s.delivered.flatten = s.stored.flatten) ∧
      s.stop.threadEntry.threadEntry.exited = true ∧
      s.stop.threadEntry.threadEntry.stored = s.stored ∧
      s.stop.threadEntry.threadEntry.delivered.flatten = s.stored.flatten := by
  obtain ⟨s, hs, hi⟩ := run_inv steps Inv_new
  refine ⟨s, hs, ⟨s._pro_buf.readable, hi.bytes⟩, ?_, drain_after_stop hi⟩
  intro he
  have hb := hi.bytes
  rw [Buffer.readable_eq_nil hi.pro_wf (hi.done he).2, List.append_nil] at hb
  exact hb

/-- Witness of C7: two lines are pushed, the looper is stopped, a third push is
abandoned, and two worker iterations deliver the two lines in order and leave the loop. -/
theorem C7_delivered_prefix_of_stored_witness :
    (AsyncLooper.new.run [Step.push [104, 10], Step.push [105, 10], Step.stop,
        Step.push [106, 10], Step.worker, Step.worker]).map
        (fun s => (s.exited, s.delivered, s.stored)) =
      some (true, [[104, 10, 105, 10]], [[104, 10], [105, 10]]) ∧
    ∃ s, AsyncLooper.new.run [Step.push [104, 10], Step.push [105, 10], Step.stop,
        Step.push [106, 10], Step.worker, Step.worker] = some s ∧
      (s.exited = true → s.delivered.flatten = s.stored.flatten) :=
  ⟨by decide,
    (C7_delivered_prefix_of_stored [Step.push [104, 10], Step.push [105, 10], Step.stop,
      Step.push [106, 10], Step.worker, Step.worker]).imp (fun _ h => ⟨h.1, h.2.2.1⟩)⟩

/-- C8 (as stated, refuted): a push on a stopped looper returns to its caller exactly
as a successful push on a running looper does (`push` is `void`), while the looper is
left unchanged: the three bytes are neither stored nor ever delivered. -/
theorem C8_counterexample_push_after_stop_dropped :
    (AsyncLooper.new.stop.push [104, 105, 10]).map Prod.fst =
      (AsyncLooper.new.push [104, 105, 10]).map Prod.fst ∧
    (AsyncLooper.new.push [104, 105, 10]).map (fun p => p.2.stored) =
      some [[104, 105, 10]] ∧
    AsyncLooper.new.stop.push [104, 105, 10] =
      some (PushOutcome.returned, AsyncLooper.new.stop) ∧
    AsyncLooper.new.stop.threadEntry.exited = true ∧
    AsyncLooper.new.stop.threadEntry.delivered = [] := by
  refine ⟨by decide, by decide, rfl, by decide, by decide⟩

/-- C8 (amended): a push on an AsyncLooper that has been stopped returns to its
caller without any failure indication and leaves the looper exactly as it was: none
of its bytes is stored, so none is delivered. -/
theorem C8_push_after_stop (s : AsyncLooper) (d : List Byte) (h : s._running = false) :
    s.push d = some (PushOutcome.returned, s) := by
  unfold push
  rw [if_neg (by rw [h]; decide)]

theorem C8_push_after_stop_witness :
    AsyncLooper.new.stop._running = false ∧
    AsyncLooper.new.stop.push [104, 105, 10] =
      some (PushOutcome.returned, AsyncLooper.new.stop) :=
  ⟨rfl, C8_push_after_stop AsyncLooper.new.stop [104, 105, 10] rfl⟩

end AsyncLooper

end mylog

/-! ## Line splitting in `AsyncLogger::realLog` -/

namespace mylog

namespace AsyncLogger

theorem memchr_some {l : List Byte} {c : Byte} {k : Nat} (h : memchr l c = some k) :
    k < l.length ∧ l.take (k + 1) = l.take k ++ [c] ∧ c ∉ l.take k := by
  induction l generalizing k with
  | nil => simp [memchr] at h
  | cons x xs ih =>
    unfold memchr at h
    by_cases hx : x = c
    · rw [if_pos hx] at h
      simp only [Option.some.injEq] at h
      subst h
      simp [hx]
    · rw [if_neg hx] at h
      cases hm : memchr xs c with
      | none => rw [hm] at h; simp at h
      | some j =>
        rw [hm] at h
        simp only [Option.map_some', Option.some.injEq] at h
        subst h
        obtain ⟨i1, i2, i3⟩ := ih hm
        refine ⟨by simp only [List.length_cons]; omega, ?_, ?_⟩
        · simp only [List.take_succ_cons, List.cons_append, i2]
        · simp only [List.take_succ_cons, List.mem_cons, not_or]
          exact ⟨fun e => hx e.symm, i3⟩

theorem memchr_none {l : List Byte} {c : Byte} (h : memchr l c = none) : c ∉ l := by
  induction l with
  | nil => simp
  | cons x xs ih =>
    unfold memchr at h
    by_cases hx : x = c
    · rw [if_pos hx] at h; simp at h
    · rw [if_neg hx] at h
      simp only [Option.map_eq_none'] at h
      simp only [List.mem_cons, not_or]
      exact ⟨fun e => hx e.symm, ih h⟩

theorem segmentsOf_append (i : Nat) (a b : List (Nat × List Byte)) :
    segmentsOf i (a ++ b) = segmentsOf i a ++ segmentsOf i b := by
  simp [segmentsOf]

theorem segmentsOf_fanOut (n i : Nat) (seg : List Byte) :
    segmentsOf i (fanOut n seg) = if i < n then [seg] else [] := by
  induction n with
  | zero => simp [segmentsOf, fanOut]
  | succ k ih =>
    have e : fanOut (k + 1) seg = fanOut k seg ++ [(k, seg)] := by
      simp [fanOut, List.range_succ]
    rw [e, segmentsOf_append, ih]
    by_cases h1 : i < k
    · have h2 : ¬ k = i := by omega
      simp [segmentsOf, h1, h2, Nat.lt_succ_of_lt h1]
    · by_cases h3 : k = i
      · subst h3
        simp [segmentsOf]
      · have h4 : ¬ i < k + 1 := by omega
        simp [segmentsOf, h1, h3, h4]

theorem LinesThenTail_cons {seg : List Byte} {segs : List (List Byte)} (h1 : IsLine seg)
    (h2 : LinesThenTail segs) : LinesThenTail (seg :: segs) := by
  cases segs with
  | nil => exact Or.inl h1
  | cons a as => exact ⟨h1, h2⟩

theorem LinesThenTail_dropLast {segs : List (List Byte)} (h : LinesThenTail segs) :
    ∀ seg ∈ segs.dropLast, IsLine seg := by
  induction segs with
  | nil => simp
  | cons a as ih =>
    cases as with
    | nil => simp
    | cons b bs =>
      intro seg hs
      simp only [List.dropLast_cons₂, List.mem_cons] at hs
      rcases hs with hs | hs
      · rw [hs]; exact h.1
      · exact ih h.2 seg hs

theorem LinesThenTail_getLast {segs : List (List Byte)} (h : LinesThenTail segs)
    {last : List Byte} (hl : segs.getLast? = some last) :
    IsLine last ∨ (last ≠ [] ∧ (10 : Byte) ∉ last) := by
  induction segs with
  | nil => simp at hl
  | cons a as ih =>
    cases as with
    | nil =>
      simp only [List.getLast?_singleton, Option.some.injEq] at hl
      rw [← hl]; exact h
    | cons b bs =>
      rw [List.getLast?_cons_cons] at hl
      exact ih h.2 hl

/-- The segments one sink receives from the loop of `realLog`: they concatenate to
the bytes given to the loop, all but the last are lines, and the last is a line or a
non-empty segment without newline. -/
theorem realLogLoop_spec (n i : Nat) (hi : i < n) (fuel : Nat) (rest : List Byte)
    (hf : rest.length ≤ fuel) :
    (segmentsOf i (realLogLoop n fuel rest)).flatten = rest ∧
    LinesThenTail (segmentsOf i (realLogLoop n fuel rest)) := by
  induction fuel generalizing rest with
  | zero =>
    have : rest = [] := List.length_eq_zero.mp (by omega)
    subst this
    simp [realLogLoop, segmentsOf, LinesThenTail]
  | succ f ih =>
    unfold realLogLoop
    by_cases hr : 0 < rest.length
    · rw [if_pos hr]
      cases hm : memchr rest 10 with
      | none =>
        simp only [segmentsOf_fanOut, if_pos hi, List.flatten_cons, List.flatten_nil,
          List.append_nil, true_and]
        exact Or.inr ⟨List.ne_nil_of_length_pos hr, memchr_none hm⟩
      | some k =>
        obtain ⟨m1, m2, m3⟩ := memchr_some hm
        obtain ⟨i1, i2⟩ := ih (rest.drop (k + 1)) (by simp only [List.length_drop]; omega)
        simp only [segmentsOf_append, segmentsOf_fanOut, if_pos hi, List.flatten_append,
          List.flatten_cons, List.flatten_nil, List.append_nil, i1, List.take_append_drop,
          true_and]
        exact LinesThenTail_cons ⟨_, m2, m3⟩ i2
    · rw [if_neg hr]
      have : rest = [] := List.length_eq_zero.mp (by omega)
      subst this
      simp [segmentsOf, LinesThenTail]

/-- C9: for every readable span handed to `realLog` of a logger with a non-empty sink
list and every sink of the list, the segments forwarded to that sink, concatenated in
order, equal the span; every segment except possibly the last ends with a newline and
holds no other newline; and the last segment is such a line too unless it holds no
newline at all, which happens only when the span does not end with a newline. -/
theorem C9_realLog_splits_on_newlines (nsinks i : Nat) (buf : Buffer) (hi : i < nsinks) :
    (segmentsOf i (realLog nsinks buf)).flatten = buf.readable ∧
    (∀ seg ∈ (segmentsOf i (realLog nsinks buf)).dropLast, IsLine seg) ∧
    (∀ last, (segmentsOf i (realLog nsinks buf)).getLast? = some last →
      IsLine last ∨ ((10 : Byte) ∉ last ∧ buf.readable.getLast? ≠ some 10)) := by
  have hn : ¬ nsinks = 0 := by omega
  unfold realLog
  rw [if_neg hn]
  obtain ⟨h1, h2⟩ := realLogLoop_spec nsinks i hi buf.readable.length buf.readable
    (Nat.le_refl _)
  refine ⟨h1, LinesThenTail_dropLast h2, ?_⟩
  intro last hl
  rcases LinesThenTail_getLast h2 hl with h3 | ⟨h3, h4⟩
  · exact Or.inl h3
  · refine Or.inr ⟨h4, ?_⟩
    intro hspan
    obtain ⟨pre, hpre⟩ : ∃ pre, segmentsOf i (realLogLoop nsinks buf.readable.length
        buf.readable) = pre ++ [last] := by
      rw [List.getLast?_eq_some_iff] at hl
      exact hl
    rw [hpre, List.flatten_append, List.flatten_cons, List.flatten_nil,
      List.append_nil] at h1
    rw [← h1, List.getLast?_append_of_ne_nil _ h3] at hspan
    exact h4 (List.mem_of_getLast?_eq_some hspan)

theorem C9_realLog_splits_on_newlines_witness :
    1 < 2 ∧
    segmentsOf 1 (realLog 2
        (Buffer.mk 64 ((CharVec.zeros 64).memcpy 0 [97, 10, 98, 99, 10, 10, 100]) 0 7)) =
      [[97, 10], [98, 99, 10], [10], [100]] ∧
    (segmentsOf 1 (realLog 2
        (Buffer.mk 64 ((CharVec.zeros 64).memcpy 0 [97, 10, 98, 99, 10, 10, 100]) 0
          7))).flatten =
      (Buffer.mk 64 ((CharVec.zeros 64).memcpy 0 [97, 10, 98, 99, 10, 10, 100]) 0
        7).readable :=
  ⟨by decide, by decide,
    (C9_realLog_splits_on_newlines 2 1
      (Buffer.mk 64 ((CharVec.zeros 64).memcpy 0 [97, 10, 98, 99, 10, 10, 100]) 0 7)
      (by decide)).1⟩

end AsyncLogger

end mylog

/-! ## The size-rotated file sink `RollBySizeSink` -/

namespace mylog

namespace RollBySizeSink

theorem openNew_files (clock : Nat → Nat) (s : RollBySizeSink) :
    (openNew clock s).files = s.files ++ [⟨(createNewFile clock s).1, []⟩] ∧
    (openNew clock s).is_open = true := by
  unfold openNew createNewFile
  constructor
  · dsimp only
    split_ifs <;> rfl
  · rfl

theorem Holds_openNew (clock : Nat → Nat) {s : RollBySizeSink} {ws : List (List Byte)}
    (h : Holds s ws) (c : Nat) :
    Holds { openNew clock s with _cur_size := c } ws ∧
    ({ openNew clock s with _cur_size := c } : RollBySizeSink).files ≠ [] := by
  obtain ⟨⟨groups, g1, g2⟩, _⟩ := h
  obtain ⟨f1, _⟩ := openNew_files clock s
  have hne : (openNew clock s).files ≠ [] := by rw [f1]; simp
  refine ⟨⟨⟨groups ++ [[]], ?_, ?_⟩, fun _ => hne⟩, hne⟩
  · rw [List.flatten_append, g1]; simp
  · show (openNew clock s).files.map RollFile.content = _
    rw [f1, List.map_append, g2]
    simp

theorem Holds_write {s : RollBySizeSink} {ws : List (List Byte)} (h : Holds s ws)
    (hne : s.files ≠ []) (d : List Byte) (c : Nat) :
    Holds { s.write d with _cur_size := c } (ws ++ [d]) ∧
    ({ s.write d with _cur_size := c } : RollBySizeSink).is_open = s.is_open := by
  obtain ⟨⟨groups, g1, g2⟩, _⟩ := h
  obtain ⟨fs, f, hf⟩ : ∃ fs f, s.files = fs ++ [f] := by
    rcases List.eq_nil_or_concat s.files with h0 | ⟨fs, f, h1⟩
    · exact absurd h0 hne
    · exact ⟨fs, f, by rw [h1, List.concat_eq_append]⟩
  obtain ⟨pre, g, hg⟩ : ∃ pre g, groups = pre ++ [g] := by
    rcases List.eq_nil_or_concat groups with h0 | ⟨pre, g, h1⟩
    · rw [h0, hf] at g2
      simp at g2
    · exact ⟨pre, g, by rw [h1, List.concat_eq_append]⟩
  rw [hf, hg, List.map_append, List.map_append] at g2
  obtain ⟨c1, c2⟩ := List.append_inj' g2 (by simp)
  simp only [List.map_cons, List.map_nil, List.cons.injEq, and_true] at c2
  have hw : (s.write d).files = fs ++ [{ f with content := f.content ++ d }] ∧
      (s.write d).is_open = s.is_open := by
    unfold write
    rw [hf, List.getLast?_concat]
    simp
  refine ⟨⟨⟨pre ++ [g ++ [d]], ?_, ?_⟩, ?_⟩, hw.2⟩
  · rw [← g1, hg]
    simp
  · show (s.write d).files.map RollFile.content = _
    rw [hw.1]
    simp [c1, c2]
  · intro _
    show (s.write d).files ≠ []
    rw [hw.1]
    simp

/-- The part of `log` from the write on: append the bytes, add `len` to `_cur_size`,
rotate when the limit is reached. -/
theorem Holds_log_write (clock : Nat → Nat) {s2 : RollBySizeSink} {ws : List (List Byte)}
    (h : Holds s2 ws) (hne : s2.files ≠ []) (d : List Byte) :
    Holds
      (if ({ s2.write d with _cur_size := szAdd (s2.write d)._cur_size d.length } :
            RollBySizeSink)._cur_size ≥
          ({ s2.write d with _cur_size := szAdd (s2.write d)._cur_size d.length } :
            RollBySizeSink)._max_size then
        rotate clock { s2.write d with _cur_size := szAdd (s2.write d)._cur_size d.length }
      else { s2.write d with _cur_size := szAdd (s2.write d)._cur_size d.length })
      (ws ++ [d]) := by
  obtain ⟨c1, _⟩ := Holds_write h hne d (szAdd (s2.write d)._cur_size d.length)
  split_ifs
  · exact (Holds_openNew clock c1 0).1
  · exact c1

/-- The part of `log` after the lazy first open. -/
theorem Holds_log_opened (clock : Nat → Nat) {s1 : RollBySizeSink} {ws : List (List Byte)}
    (h : Holds s1 ws) (hne : s1.files ≠ []) (d : List Byte) :
    Holds (log clock { s1 with is_open := true } d) (ws ++ [d]) := by
  unfold log
  by_cases hc : szAdd s1._cur_size d.length > s1._max_size ∧ s1._cur_size > 0
  · have hr := Holds_openNew clock (s := { s1 with is_open := true })
      ⟨h.1, fun _ => hne⟩ 0
    simpa [hc, rotate] using Holds_log_write clock hr.1 hr.2 d
  · have h1 : Holds ({ s1 with is_open := true } : RollBySizeSink) ws := ⟨h.1, fun _ => hne⟩
    simpa [hc] using Holds_log_write clock h1 hne d

theorem Holds_log (clock : Nat → Nat) {s : RollBySizeSink} {ws : List (List Byte)}
    (h : Holds s ws) (d : List Byte) : Holds (log clock s d) (ws ++ [d]) := by
  by_cases ho : s.is_open = true
  · have e : ({ s with is_open := true } : RollBySizeSink) = s := by
      cases s
      simp only [] at ho
      simp [ho]
    have := Holds_log_opened clock h (h.2 ho) d
    rwa [e] at this
  · have ho1 : s.is_open = false := by simpa using ho
    obtain ⟨a1, a2⟩ := Holds_openNew clock h 0
    have e : ({ ({ openNew clock s with _cur_size := 0 } : RollBySizeSink) with
        is_open := true } : RollBySizeSink) = { openNew clock s with _cur_size := 0 } := by
      have := (openNew_files clock s).2
      generalize openNew clock s = t at this
      cases t
      simp only [] at this
      simp [this]
    have hl := Holds_log_opened clock a1 a2 d
    rw [e] at hl
    have e2 : log clock s d = log clock { openNew clock s with _cur_size := 0 } d := by
      have o := (openNew_files clock s).2
      conv_lhs => unfold log
      conv_rhs => unfold log
      simp [ho1, o]
    rw [e2]
    exact hl

theorem Holds_logAll (clock : Nat → Nat) (writes : List (List Byte)) {s : RollBySizeSink}
    {ws : List (List Byte)} (h : Holds s ws) :
    Holds (logAll clock s writes) (ws ++ writes) := by
  induction writes generalizing s ws with
  | nil => simpa [logAll] using h
  | cons d ds ih =>
    have := ih (Holds_log clock h d)
    simpa [logAll] using this

/-- C10: for every sequence of writes to a RollBySizeSink (file operations succeeding,
each newly opened file empty), whatever the clock and the size limit, the writes split
into consecutive groups, one per file in creation order, such that every file holds
exactly the concatenation of the writes of its group (so the bytes of one write land
contiguously in one file and are never split over two), and the contents of the files
concatenated in creation order equal the concatenation of the writes in order. -/
theorem C10_writes_land_whole_and_in_order (clock : Nat → Nat) (max_size : Nat)
    (writes : List (List Byte)) :
    (∃ groups : List (List (List Byte)), groups.flatten = writes ∧
      (logAll clock (RollBySizeSink.new max_size) writes).files.map RollFile.content =
        groups.map List.flatten) ∧
    ((logAll clock (RollBySizeSink.new max_size) writes).files.map RollFile.content).flatten =
      writes.flatten := by
  have h0 : Holds (RollBySizeSink.new max_size) [] :=
    ⟨⟨[], rfl, rfl⟩, fun h => by cases h⟩
  have h := (Holds_logAll clock writes h0).1
  rw [List.nil_append] at h
  refine ⟨h, ?_⟩
  obtain ⟨groups, g1, g2⟩ := h
  rw [g2, ← List.flatten_flatten, g1]

/-- Witness of C10: five writes under a limit of 4 bytes make four files, each holding
whole writes. -/
theorem C10_writes_land_whole_and_in_order_witness :
    (logAll (fun _ => 5) (RollBySizeSink.new 4) [[1, 2], [3], [4, 5, 6], [7, 8, 9, 10, 11],
        [12]]).files.map RollFile.content =
      [[1, 2, 3], [4, 5, 6], [7, 8, 9, 10, 11], [12]] ∧
    ((logAll (fun _ => 5) (RollBySizeSink.new 4) [[1, 2], [3], [4, 5, 6], [7, 8, 9, 10, 11],
        [12]]).files.map RollFile.content).flatten =
      [[1, 2], [3], [4, 5, 6], [7, 8, 9, 10, 11], [12]].flatten :=
  ⟨by decide,
    (C10_writes_land_whole_and_in_order (fun _ => 5) 4
      [[1, 2], [3], [4, 5, 6], [7, 8, 9, 10, 11], [12]]).2⟩

end RollBySizeSink

end mylog

/-! ## Growth policy, cursor moves and swap of `Buffer` -/

namespace mylog

namespace Buffer

/-- One iteration is all the loop of `ensureEnoughSize` makes when the computed size
is larger than the arena and ends the loop condition. -/
theorem growLoop_once (lim thr inc w need fuel : Nat) (v : CharVec) (hfuel : 0 < fuel)
    (hc : szSub v.size w < need ∧ v.size < lim)
    (hns : v.size < newSize lim thr inc w need v.size)
    (hexit : ¬ (szSub (newSize lim thr inc w need v.size) w < need ∧
      newSize lim thr inc w need v.size < lim)) :
    growLoop lim thr inc w need fuel v = v.resize (newSize lim thr inc w need v.size) := by
  obtain ⟨f, rfl⟩ : ∃ f, fuel = f + 1 := ⟨fuel - 1, by omega⟩
  simp only [growLoop]
  rw [if_pos hc, if_neg (by omega)]
  cases f with
  | zero => rfl
  | succ g =>
    simp only [growLoop]
    rw [if_neg]
    exact hexit

/-- Without `size_t` overflow the size computed by one iteration is the one of the
growth policy, written with natural-number arithmetic. -/
theorem newSize_eq (lim thr inc w need cur : Nat) (h1 : 2 * cur < SIZE_MOD)
    (h2 : cur + inc < SIZE_MOD) (h3 : w + need < SIZE_MOD) :
    newSize lim thr inc w need cur =
      min (max (if cur < thr then min (2 * cur) thr else cur + inc) (w + need)) lim := by
  have e1 : szMul cur 2 = 2 * cur := by
    simp only [szMul, SIZE_MOD] at *
    omega
  simp only [newSize, e1, szAdd_of_lt h2, szAdd_of_lt h3]

/-- C15: when `push(data, len)` has to grow the arena (`cap - w < len ≤ ceiling` and
`cap < ceiling`), the capacity after the call is `min(max(g, w + len), ceiling)` with
`g = min(2 cap, T)` if `cap < T` and `g = cap + I` otherwise, `T = max(1, min(80 MiB,
ceiling))`, `I = max(1, min(10 MiB, ceiling))`, all taken before the call.  The buffer
satisfies its class invariant and the sizes are those of real objects (arena and data
shorter than `2 ^ 63` bytes), so that no `size_t` operation wraps. -/
theorem C15_capacity_after_growth (b : Buffer) (d : List Byte) (r : Bool × Buffer)
    (hwf : b.WF) (hcapB : b._buffer.size < 9223372036854775808)
    (hlenB : d.length < 9223372036854775808)
    (hgrow : b._buffer.size - b._writer_idx < d.length)
    (hlen : d.length ≤ b._MAX_BUFFER_SIZE) (hcap : b._buffer.size < b._MAX_BUFFER_SIZE)
    (hp : b.push d = some r) :
    r.2._buffer.size =
      min (max (if b._buffer.size < max 1 (min THRESHOLD_BUFFER_SIZE b._MAX_BUFFER_SIZE)
          then min (2 * b._buffer.size) (max 1 (min THRESHOLD_BUFFER_SIZE b._MAX_BUFFER_SIZE))
          else b._buffer.size + max 1 (min INCREMENT_BUFFER_SIZE b._MAX_BUFFER_SIZE))
        (b._writer_idx + d.length)) b._MAX_BUFFER_SIZE := by
  obtain ⟨w1, w2, w3⟩ := hwf
  have hsub : szSub b._buffer.size b._writer_idx = b._buffer.size - b._writer_idx :=
    szSub_of_le w2 w3
  have hI : max 1 (min INCREMENT_BUFFER_SIZE b._MAX_BUFFER_SIZE) ≤ 10485760 := by
    simp only [INCREMENT_BUFFER_SIZE]
    omega
  have hne := newSize_eq b._MAX_BUFFER_SIZE
    (max 1 (min THRESHOLD_BUFFER_SIZE b._MAX_BUFFER_SIZE))
    (max 1 (min INCREMENT_BUFFER_SIZE b._MAX_BUFFER_SIZE)) b._writer_idx d.length
    b._buffer.size (by simp only [SIZE_MOD]; omega) (by simp only [SIZE_MOD]; omega)
    (by simp only [SIZE_MOD]; omega)
  have hlt := newSize_lt b._MAX_BUFFER_SIZE
    (max 1 (min THRESHOLD_BUFFER_SIZE b._MAX_BUFFER_SIZE))
    (max 1 (min INCREMENT_BUFFER_SIZE b._MAX_BUFFER_SIZE)) b._writer_idx d.length
    b._buffer.size
  have hle := newSize_le_lim b._MAX_BUFFER_SIZE
    (max 1 (min THRESHOLD_BUFFER_SIZE b._MAX_BUFFER_SIZE))
    (max 1 (min INCREMENT_BUFFER_SIZE b._MAX_BUFFER_SIZE)) b._writer_idx d.length
    b._buffer.size
  have hgt : b._buffer.size < newSize b._MAX_BUFFER_SIZE
      (max 1 (min THRESHOLD_BUFFER_SIZE b._MAX_BUFFER_SIZE))
      (max 1 (min INCREMENT_BUFFER_SIZE b._MAX_BUFFER_SIZE)) b._writer_idx d.length
      b._buffer.size := by
    rw [hne]
    split_ifs <;> omega
  have hens : (b.ensureEnoughSize d.length)._buffer =
      b._buffer.resize (newSize b._MAX_BUFFER_SIZE
        (max 1 (min THRESHOLD_BUFFER_SIZE b._MAX_BUFFER_SIZE))
        (max 1 (min INCREMENT_BUFFER_SIZE b._MAX_BUFFER_SIZE)) b._writer_idx d.length
        b._buffer.size) := by
    unfold ensureEnoughSize
    rw [if_neg (by omega)]
    refine growLoop_once _ _ _ _ _ _ _ (by omega) ⟨by omega, hcap⟩ hgt ?_
    intro hcon
    have hs : szSub (newSize b._MAX_BUFFER_SIZE
        (max 1 (min THRESHOLD_BUFFER_SIZE b._MAX_BUFFER_SIZE))
        (max 1 (min INCREMENT_BUFFER_SIZE b._MAX_BUFFER_SIZE)) b._writer_idx d.length
        b._buffer.size) b._writer_idx = _ := szSub_of_le (by omega) hlt
    rw [hs] at hcon
    rw [hne] at hcon
    omega
  have hsz : r.2._buffer.size = (b.ensureEnoughSize d.length)._buffer.size := by
    rw [push_eq] at hp
    split_ifs at hp <;> cases hp <;> rfl
  rw [hsz, hens, ← hne]
  rfl

/-- Witness of C15: the write cursor is at the end of the 10 MiB arena of a default
buffer; pushing one byte doubles the arena. -/
theorem C15_capacity_after_growth_witness :
    (Buffer.mk 209715200 (CharVec.zeros 10485760) 0 10485760).push [7] =
      some (true, Buffer.mk 209715200
        (((CharVec.zeros 10485760).resize 20971520).memcpy 10485760 [7]) 0 10485761) ∧
    (Buffer.mk 209715200
        (((CharVec.zeros 10485760).resize 20971520).memcpy 10485760 [7]) 0
        10485761)._buffer.size = 20971520 :=
  ⟨rfl,
    (C15_capacity_after_growth (Buffer.mk 209715200 (CharVec.zeros 10485760) 0 10485760) [7]
      (true, Buffer.mk 209715200
        (((CharVec.zeros 10485760).resize 20971520).memcpy 10485760 [7]) 0 10485761)
      (by decide) (by decide) (by decide) (by decide) (by decide) (by decide) rfl).trans
      (by decide)⟩

/-- C16: for every buffer satisfying the class invariant and every
`n ≤ readableSize()`, `moveReader(n)` succeeds, leaves the arena (capacity and stored
bytes) and the ceiling unchanged, and either advances the read cursor by `n` with the
write cursor unchanged or, when the read cursor thereby reaches the write cursor, sets
both cursors to 0. -/
theorem C16_moveReader_effect (b : Buffer) (n : Nat) (hwf : b.WF)
    (hn : n ≤ b.readableSize) :
    ∃ b1, b.moveReader n = some b1 ∧
      b1._buffer = b._buffer ∧ b1._MAX_BUFFER_SIZE = b._MAX_BUFFER_SIZE ∧
      (b._reader_idx + n ≠ b._writer_idx →
        b1._reader_idx = b._reader_idx + n ∧ b1._writer_idx = b._writer_idx) ∧
      (b._reader_idx + n = b._writer_idx → b1._reader_idx = 0 ∧ b1._writer_idx = 0) := by
  rw [readableSize_of_WF hwf] at hn
  refine ⟨_, moveReader_eq hwf hn, ?_, ?_, ?_, ?_⟩
  · split_ifs <;> rfl
  · split_ifs <;> rfl
  · intro hne
    rw [if_neg hne]
    exact ⟨rfl, rfl⟩
  · intro he
    rw [if_pos he]
    exact ⟨rfl, rfl⟩

/-- Witness of C16: five readable bytes, of which first two and then the other three
are consumed. -/
theorem C16_moveReader_effect_witness :
    (Buffer.mk 64 ((CharVec.zeros 64).memcpy 0 [1, 2, 3, 4, 5]) 0 5).WF ∧
    2 ≤ (Buffer.mk 64 ((CharVec.zeros 64).memcpy 0 [1, 2, 3, 4, 5]) 0 5).readableSize ∧
    (Buffer.mk 64 ((CharVec.zeros 64).memcpy 0 [1, 2, 3, 4, 5]) 0 5).moveReader 2 =
      some (Buffer.mk 64 ((CharVec.zeros 64).memcpy 0 [1, 2, 3, 4, 5]) 2 5) ∧
    (Buffer.mk 64 ((CharVec.zeros 64).memcpy 0 [1, 2, 3, 4, 5]) 2 5).moveReader 3 =
      some (Buffer.mk 64 ((CharVec.zeros 64).memcpy 0 [1, 2, 3, 4, 5]) 0 0) ∧
    ∃ b1, (Buffer.mk 64 ((CharVec.zeros 64).memcpy 0 [1, 2, 3, 4, 5]) 0 5).moveReader 2 =
        some b1 ∧
      b1._buffer = (CharVec.zeros 64).memcpy 0 [1, 2, 3, 4, 5] :=
  ⟨by decide, by decide, rfl, rfl,
    (C16_moveReader_effect (Buffer.mk 64 ((CharVec.zeros 64).memcpy 0 [1, 2, 3, 4, 5]) 0 5) 2
      (by decide) (by decide)).imp (fun _ h => ⟨h.1, h.2.1⟩)⟩

/-- C17: `a.swap(b)` leaves `a` with the former arena (contents and capacity),
cursors and ceiling of `b` and `b` with the former ones of `a`; swapping twice
restores both buffers. -/
theorem C17_swap_exchanges (a b : Buffer) :
    ((a.swap b).1._buffer = b._buffer ∧ (a.swap b).1._reader_idx = b._reader_idx ∧
      (a.swap b).1._writer_idx = b._writer_idx ∧
      (a.swap b).1._MAX_BUFFER_SIZE = b._MAX_BUFFER_SIZE) ∧
    ((a.swap b).2._buffer = a._buffer ∧ (a.swap b).2._reader_idx = a._reader_idx ∧
      (a.swap b).2._writer_idx = a._writer_idx ∧
      (a.swap b).2._MAX_BUFFER_SIZE = a._MAX_BUFFER_SIZE) ∧
    (a.swap b).1.swap (a.swap b).2 = (a, b) :=
  ⟨⟨rfl, rfl, rfl, rfl⟩, ⟨rfl, rfl, rfl, rfl⟩, rfl⟩

/-- Both results of `moveReader` keep the arena. -/
theorem moveReader_buffer {b b1 : Buffer} {n : Nat} (h : b.moveReader n = some b1) :
    b1._buffer = b._buffer ∧ b1._MAX_BUFFER_SIZE = b._MAX_BUFFER_SIZE := by
  unfold moveReader at h
  by_cases h1 : n ≤ b.readableSize
  · rw [if_pos h1] at h
    dsimp only at h
    by_cases h2 : szAdd b._reader_idx n = b._writer_idx
    · simp only [h2, if_true] at h
      split_ifs at h
      cases h
      exact ⟨rfl, rfl⟩
    · simp only [h2, if_false] at h
      split_ifs at h
      cases h
      exact ⟨rfl, rfl⟩
  · rw [if_neg h1] at h
    cases h

theorem moveWriter_buffer {b b1 : Buffer} {n : Nat} (h : b.moveWriter n = some b1) :
    b1._buffer = b._buffer ∧ b1._MAX_BUFFER_SIZE = b._MAX_BUFFER_SIZE := by
  unfold moveWriter at h
  split_ifs at h
  simp only [Option.some.injEq] at h
  rw [← h]
  exact ⟨rfl, rfl⟩

theorem push_size_le {b : Buffer} {d : List Byte} {r : Bool × Buffer}
    (h : b.push d = some r) : b._buffer.size ≤ r.2._buffer.size := by
  have e4 := (ensureEnoughSize_spec b d.length).2.2.2.1
  rw [push_eq] at h
  split_ifs at h <;> cases h <;> exact e4

/-- C18: no operation other than swap lowers the capacity: after `push` (whatever it
returns), `moveReader`, `moveWriter`, `reset` or `resize` the arena size is at least
what it was before, the last four leaving the arena untouched; and `resize` changes
only the ceiling. -/
theorem C18_capacity_never_lowered (b : Buffer) :
    (∀ d r, b.push d = some r → b._buffer.size ≤ r.2._buffer.size) ∧
    (∀ n b1, b.moveReader n = some b1 → b1._buffer = b._buffer) ∧
    (∀ n b1, b.moveWriter n = some b1 → b1._buffer = b._buffer) ∧
    b.reset._buffer = b._buffer ∧
    (∀ m, (b.resize m)._buffer = b._buffer ∧ (b.resize m)._reader_idx = b._reader_idx ∧
      (b.resize m)._writer_idx = b._writer_idx) :=
  ⟨fun _ _ h => push_size_le h, fun _ _ h => (moveReader_buffer h).1,
    fun _ _ h => (moveWriter_buffer h).1, rfl, fun _ => ⟨rfl, rfl, rfl⟩⟩

/-- Witness of C18 on a push that enlarges the arena from 10 MiB to 20 MiB. -/
theorem C18_capacity_never_lowered_witness :
    (Buffer.mk 209715200 (CharVec.zeros 10485760) 0 10485760).push [7] =
      some (true, Buffer.mk 209715200
        (((CharVec.zeros 10485760).resize 20971520).memcpy 10485760 [7]) 0 10485761) ∧
    (Buffer.mk 209715200 (CharVec.zeros 10485760) 0 10485760)._buffer.size ≤
      (Buffer.mk 209715200
        (((CharVec.zeros 10485760).resize 20971520).memcpy 10485760 [7]) 0
        10485761)._buffer.size :=
  ⟨rfl,
    (C18_capacity_never_lowered (Buffer.mk 209715200 (CharVec.zeros 10485760) 0 10485760)).1
      [7] (true, Buffer.mk 209715200
        (((CharVec.zeros 10485760).resize 20971520).memcpy 10485760 [7]) 0 10485761) rfl⟩

/-- C19: in every state reachable through the public operations used within their
preconditions (whatever `resize` is given), `r ≤ w ≤ capacity` holds; so
`writerableSize()` is `capacity - w` without wrap-around, `push` never trips the
assertion of `moveWriter`, and when `push` copies, the copied range `[w, w + len)` lies
inside the arena. -/
theorem C19_cursors_inside_arena (b : Buffer) (hb : Reachable b) :
    b._reader_idx ≤ b._writer_idx ∧ b._writer_idx ≤ b._buffer.size ∧
    b.writerableSize = b._buffer.size - b._writer_idx ∧
    b._writer_idx + b.writerableSize = b._buffer.size ∧
    (∀ d, b.push d ≠ none) ∧
    (∀ d b1, b.push d = some (true, b1) →
      b._writer_idx + d.length ≤ b1._buffer.size ∧
      b1._writer_idx = b._writer_idx + d.length) := by
  have hwf := WF_of_reachableVia hb
  have hws := writerableSize_of_WF hwf
  refine ⟨hwf.1, hwf.2.1, hws, ?_, fun d => push_ne_none b d, ?_⟩
  · rw [hws]
    have := hwf.2.1
    omega
  · intro d b1 hp
    obtain ⟨p1, _, _, _, _, _, p7⟩ := push_true_spec hwf hp
    have := p7.2.1
    exact ⟨by omega, p1⟩

/-- Witness of C19 on `Buffer().resize(64)`, the state whose arena exceeds its ceiling. -/
theorem C19_cursors_inside_arena_witness :
    Reachable ((Buffer.new).resize 64) ∧
    ((Buffer.new).resize 64).writerableSize = 10485760 ∧
    ((Buffer.new).resize 64)._writer_idx ≤ ((Buffer.new).resize 64)._buffer.size :=
  ⟨ReachableVia.resize (ReachableVia.new _) trivial, by decide,
    (C19_cursors_inside_arena ((Buffer.new).resize 64)
      (ReachableVia.resize (ReachableVia.new _) trivial)).2.1⟩

end Buffer

end mylog

/-! ## Size policy of `RollBySizeSink` -/

namespace mylog

namespace RollBySizeSink

theorem openNew_view (clock : Nat → Nat) (s : RollBySizeSink) :
    (openNew clock s).files.map RollFile.content = s.files.map RollFile.content ++ [[]] ∧
    (openNew clock s).is_open = true ∧ (openNew clock s)._cur_size = s._cur_size ∧
    (openNew clock s)._max_size = s._max_size := by
  refine ⟨?_, ?_, ?_, ?_⟩
  · rw [(openNew_files clock s).1]
    simp
  · exact (openNew_files clock s).2
  · unfold openNew createNewFile
    dsimp only
    split_ifs <;> rfl
  · unfold openNew createNewFile
    dsimp only
    split_ifs <;> rfl

theorem write_view (s : RollBySizeSink) (d : List Byte) :
    (s.write d).files.map RollFile.content = appendLast (s.files.map RollFile.content) d ∧
    (s.write d).is_open = s.is_open ∧ (s.write d)._cur_size = s._cur_size ∧
    (s.write d)._max_size = s._max_size := by
  rcases List.eq_nil_or_concat s.files with h0 | ⟨fs, f, h1⟩
  · simp [write, appendLast, h0]
  · rw [List.concat_eq_append] at h1
    simp [write, appendLast, h1, List.getLast?_concat]

theorem view_rotate (clock : Nat → Nat) (s : RollBySizeSink) :
    (rotate clock s).view =
      { contents := s.view.contents ++ [[]], cur := 0, opened := true } ∧
    (rotate clock s)._max_size = s._max_size := by
  obtain ⟨o1, o2, _, o4⟩ := openNew_view clock s
  exact ⟨by simp only [view, rotate, o1, o2], o4⟩

/-- The view of `log` is `viewLog` of the view, and `log` keeps the limit. -/
theorem log_view (clock : Nat → Nat) (s : RollBySizeSink) (d : List Byte) :
    (log clock s d).view = viewLog s._max_size s.view d ∧
    (log clock s d)._max_size = s._max_size := by
  -- after the lazy first open
  have h1 : ∀ s1 : RollBySizeSink,
      s1 = (if !s.is_open then { openNew clock s with _cur_size := 0 } else s) →
      s1.view = viewOpen s.view ∧ s1._max_size = s._max_size := by
    intro s1 e
    obtain ⟨o1, o2, _, o4⟩ := openNew_view clock s
    rw [e]
    unfold viewOpen
    by_cases ho : s.is_open = true
    · simp [view, ho]
    · simp only [Bool.not_eq_true] at ho
      simp [view, ho, o1, o2, o4]
  -- after the rotation before the write
  have h2 : ∀ s1 s2 : RollBySizeSink,
      s2 = (if szAdd s1._cur_size d.length > s1._max_size ∧ s1._cur_size > 0 then
        rotate clock s1 else s1) →
      s2.view = viewPre s1._max_size s1.view d.length ∧ s2._max_size = s1._max_size := by
    intro s1 s2 e
    obtain ⟨r1, r2⟩ := view_rotate clock s1
    rw [e]
    unfold viewPre
    by_cases hc : szAdd s1._cur_size d.length > s1._max_size ∧ s1._cur_size > 0
    · rw [if_pos hc, if_pos (by simpa [view] using hc)]
      exact ⟨r1, r2⟩
    · rw [if_neg hc, if_neg (by simpa [view] using hc)]
      exact ⟨rfl, rfl⟩
  -- after the write and the rotation that follows it
  have h3 : ∀ s2 s5 : RollBySizeSink,
      s5 = (if ({ s2.write d with _cur_size := szAdd (s2.write d)._cur_size d.length } :
              RollBySizeSink)._cur_size ≥
            ({ s2.write d with _cur_size := szAdd (s2.write d)._cur_size d.length } :
              RollBySizeSink)._max_size then
          rotate clock { s2.write d with _cur_size := szAdd (s2.write d)._cur_size d.length }
        else { s2.write d with _cur_size := szAdd (s2.write d)._cur_size d.length }) →
      s5.view = viewWrite s2._max_size s2.view d ∧ s5._max_size = s2._max_size := by
    intro s2 s5 e
    obtain ⟨w1, w2, w3, w4⟩ := write_view s2 d
    obtain ⟨r1, r2⟩ := view_rotate clock
      { s2.write d with _cur_size := szAdd (s2.write d)._cur_size d.length }
    rw [e]
    unfold viewWrite
    by_cases hc : szAdd s2._cur_size d.length ≥ s2._max_size
    · rw [if_pos (by simpa [w3, w4] using hc), if_pos (by simpa [view] using hc)]
      refine ⟨?_, by rw [r2]; exact w4⟩
      rw [r1]
      simp [view, w1]
    · rw [if_neg (by simpa [w3, w4] using hc), if_neg (by simpa [view] using hc)]
      exact ⟨by simp [view, w1, w2, w3], w4⟩
  obtain ⟨s1, hs1⟩ : ∃ s1 : RollBySizeSink,
      s1 = (if !s.is_open then { openNew clock s with _cur_size := 0 } else s) := ⟨_, rfl⟩
  obtain ⟨s2, hs2⟩ : ∃ s2 : RollBySizeSink,
      s2 = (if szAdd s1._cur_size d.length > s1._max_size ∧ s1._cur_size > 0 then
        rotate clock s1 else s1) := ⟨_, rfl⟩
  obtain ⟨s5, hs5⟩ : ∃ s5 : RollBySizeSink,
      s5 = (if ({ s2.write d with _cur_size := szAdd (s2.write d)._cur_size d.length } :
              RollBySizeSink)._cur_size ≥
            ({ s2.write d with _cur_size := szAdd (s2.write d)._cur_size d.length } :
              RollBySizeSink)._max_size then
          rotate clock { s2.write d with _cur_size := szAdd (s2.write d)._cur_size d.length }
        else { s2.write d with _cur_size := szAdd (s2.write d)._cur_size d.length }) :=
    ⟨_, rfl⟩
  have hlog : log clock s d = s5 := by
    rw [hs5, hs2, hs1]
    rfl
  obtain ⟨a1, a2⟩ := h1 s1 hs1
  obtain ⟨b1, b2⟩ := h2 s1 s2 hs2
  obtain ⟨c1, c2⟩ := h3 s2 s5 hs5
  rw [hlog, c1, c2, b1, b2, a1, a2]
  exact ⟨rfl, rfl⟩

theorem logAll_view (clock : Nat → Nat) (writes : List (List Byte)) (s : RollBySizeSink) :
    (logAll clock s writes).view = writes.foldl (viewLog s._max_size) s.view ∧
    (logAll clock s writes)._max_size = s._max_size := by
  induction writes generalizing s with
  | nil => exact ⟨rfl, rfl⟩
  | cons d ds ih =>
    obtain ⟨l1, l2⟩ := log_view clock s d
    obtain ⟨i1, i2⟩ := ih (log clock s d)
    simp only [logAll, List.foldl_cons] at i1 i2 ⊢
    rw [i1, i2, l1, l2]
    exact ⟨rfl, rfl⟩

theorem appendLast_concat (pre : List (List Byte)) (c d : List Byte) :
    appendLast (pre ++ [c]) d = pre ++ [c ++ d] := by
  simp [appendLast, List.getLast?_concat]

theorem viewWrite_rotate (C c : Nat) (pre : List (List Byte)) (x d : List Byte) (o : Bool)
    (h : szAdd c d.length ≥ C) :
    viewWrite C { contents := pre ++ [x], cur := c, opened := o } d =
      { contents := pre ++ [x ++ d] ++ [[]], cur := 0, opened := true } := by
  unfold viewWrite
  dsimp only
  rw [if_pos h, appendLast_concat]

theorem GroupOk_nil (C : Nat) : GroupOk C [] := Or.inl (by simp)

theorem Bounded_viewOpen {C : Nat} {v : SinkView} {ws : List (List Byte)} (hC : 0 < C)
    (h : Bounded C v ws) : Bounded C (viewOpen v) ws ∧ (viewOpen v).opened = true := by
  unfold viewOpen
  by_cases ho : v.opened = true
  · simp only [ho, Bool.not_true, Bool.false_eq_true, if_false]
    exact ⟨h, trivial⟩
  · simp only [Bool.not_eq_true] at ho
    simp only [ho, Bool.not_false, if_true, and_true]
    obtain ⟨_, groups, g1, g2, g3, _⟩ := h
    refine ⟨hC, groups ++ [[]], by simp [g1], by simp [g2], ?_, fun _ => ⟨groups, [], rfl, rfl⟩⟩
    intro g hg
    rcases List.mem_append.mp hg with hg | hg
    · exact g3 g hg
    · simp only [List.mem_singleton] at hg
      rw [hg]
      exact GroupOk_nil C

theorem Bounded_viewPre {C len : Nat} {v : SinkView} {ws : List (List Byte)} (hC : 0 < C)
    (hov : C + len ≤ SIZE_MOD) (h : Bounded C v ws) (ho : v.opened = true) :
    Bounded C (viewPre C v len) ws ∧ (viewPre C v len).opened = true ∧
    ((viewPre C v len).cur + len ≤ C ∨ (viewPre C v len).cur = 0) := by
  have hc := h.1
  have e : szAdd v.cur len = v.cur + len := szAdd_of_lt (by omega)
  unfold viewPre
  by_cases hr : szAdd v.cur len > C ∧ v.cur > 0
  · rw [if_pos hr]
    obtain ⟨_, groups, g1, g2, g3, _⟩ := h
    refine ⟨⟨hC, groups ++ [[]], by simp [g1], by simp [g2], ?_,
      fun _ => ⟨groups, [], rfl, rfl⟩⟩, rfl, Or.inr rfl⟩
    intro g hg
    rcases List.mem_append.mp hg with hg | hg
    · exact g3 g hg
    · simp only [List.mem_singleton] at hg
      rw [hg]
      exact GroupOk_nil C
  · rw [if_neg hr]
    refine ⟨h, ho, ?_⟩
    rw [e] at hr
    omega

theorem Bounded_viewWrite {C : Nat} {v : SinkView} {ws : List (List Byte)} {d : List Byte}
    (hC : 0 < C) (hov : C + d.length ≤ SIZE_MOD) (h : Bounded C v ws) (ho : v.opened = true)
    (hfit : v.cur + d.length ≤ C ∨ v.cur = 0) :
    Bounded C (viewWrite C v d) (ws ++ [d]) := by
  obtain ⟨hc, groups, g1, g2, g3, g4⟩ := h
  obtain ⟨pre, g, hg, hl⟩ := g4 ho
  have e : szAdd v.cur d.length = v.cur + d.length := szAdd_of_lt (by omega)
  have hcs : appendLast v.contents d = (pre ++ [g ++ [d]]).map List.flatten := by
    rw [g2, hg]
    simp [appendLast_concat]
  have hflat : (pre ++ [g ++ [d]]).flatten = ws ++ [d] := by
    rw [← g1, hg]
    simp
  have hok : ∀ x ∈ pre ++ [g ++ [d]], GroupOk C x := by
    intro x hx
    rcases List.mem_append.mp hx with hx | hx
    · exact g3 x (by rw [hg]; exact List.mem_append_left _ hx)
    · simp only [List.mem_singleton] at hx
      rw [hx]
      have hlen : (g ++ [d]).flatten.length = v.cur + d.length := by
        simp [hl]
      by_cases hle : v.cur + d.length ≤ C
      · exact Or.inl (by rw [hlen]; exact hle)
      · have h0 : v.cur = 0 := by omega
        have hnil : g.flatten = [] := List.length_eq_zero.mp (by rw [hl, h0])
        refine Or.inr ⟨d, by simp, by omega, ?_⟩
        simp [hnil]
  unfold viewWrite
  by_cases hp : szAdd v.cur d.length ≥ C
  · rw [if_pos hp]
    refine ⟨hC, pre ++ [g ++ [d]] ++ [[]], by rw [List.flatten_append, hflat]; simp,
      by rw [hcs]; simp, ?_, fun _ => ⟨pre ++ [g ++ [d]], [], rfl, rfl⟩⟩
    intro x hx
    rcases List.mem_append.mp hx with hx | hx
    · exact hok x hx
    · simp only [List.mem_singleton] at hx
      rw [hx]
      exact GroupOk_nil C
  · rw [if_neg hp]
    refine ⟨by show szAdd v.cur d.length < C; omega, pre ++ [g ++ [d]], hflat, hcs, hok,
      fun _ => ⟨pre, g ++ [d], rfl, ?_⟩⟩
    show (g ++ [d]).flatten.length = szAdd v.cur d.length
    rw [e]
    simp [hl]

theorem Bounded_viewLog {C : Nat} {v : SinkView} {ws : List (List Byte)} (d : List Byte)
    (hC : 0 < C) (hov : C + d.length ≤ SIZE_MOD) (h : Bounded C v ws) :
    Bounded C (viewLog C v d) (ws ++ [d]) := by
  obtain ⟨a1, a2⟩ := Bounded_viewOpen hC h
  obtain ⟨b1, b2, b3⟩ := Bounded_viewPre hC hov a1 a2
  exact Bounded_viewWrite hC hov b1 b2 b3

theorem Bounded_foldl {C : Nat} (writes : List (List Byte)) {v : SinkView}
    {ws : List (List Byte)} (hC : 0 < C) (hov : ∀ w ∈ writes, C + w.length ≤ SIZE_MOD)
    (h : Bounded C v ws) : Bounded C (writes.foldl (viewLog C) v) (ws ++ writes) := by
  induction writes generalizing v ws with
  | nil => simpa using h
  | cons d ds ih =>
    have h1 := Bounded_viewLog d hC (hov d (by simp)) h
    have h2 := ih (fun w hw => hov w (List.mem_cons_of_mem _ hw)) h1
    simpa using h2

/-- C12: for a RollBySizeSink with max_size `C > 0` (each newly opened file empty;
limit and writes of real size, below `2 ^ 63` bytes, so that the size counter does not
wrap), after every log call, that is after every prefix of the writes, the size counter
is below `C`; and the files hold consecutive groups of whole writes such that every
file holds at most `C` bytes unless its bytes are exactly those of one write that is by
itself larger than `C`. -/
theorem C12_size_counter_and_files_bounded (clock : Nat → Nat) (C : Nat)
    (writes : List (List Byte)) (hC : 0 < C) (hCB : C < 9223372036854775808)
    (hw : ∀ w ∈ writes, w.length < 9223372036854775808) :
    (∀ k, (logAll clock (RollBySizeSink.new C) (writes.take k))._cur_size < C) ∧
    (∃ groups : List (List (List Byte)), groups.flatten = writes ∧
      (logAll clock (RollBySizeSink.new C) writes).files.map RollFile.content =
        groups.map List.flatten ∧
      ∀ g ∈ groups, g.flatten.length ≤ C ∨ ∃ d ∈ g, C < d.length ∧ g.flatten = d) ∧
    (∀ f ∈ (logAll clock (RollBySizeSink.new C) writes).files,
      f.content.length ≤ C ∨ ∃ d ∈ writes, C < d.length ∧ f.content = d) := by
  have h0 : Bounded C (RollBySizeSink.new C).view [] := by
    refine ⟨hC, [], rfl, rfl, ?_, ?_⟩
    · intro g hg
      cases hg
    · intro ho
      cases ho
  have hall : ∀ ws : List (List Byte), (∀ w ∈ ws, w.length < 9223372036854775808) →
      Bounded C (logAll clock (RollBySizeSink.new C) ws).view ws := by
    intro ws hws
    have hb := Bounded_foldl ws hC
      (fun w hx => by have := hws w hx; simp only [SIZE_MOD]; omega) h0
    rw [List.nil_append] at hb
    rw [(logAll_view clock ws _).1]
    exact hb
  obtain ⟨_, groups, g1, g2, g3, _⟩ := hall writes hw
  refine ⟨?_, ⟨groups, g1, g2, g3⟩, ?_⟩
  · intro k
    exact (hall (writes.take k) (fun w hx => hw w (List.mem_of_mem_take hx))).1
  · intro f hf
    have hmem : f.content ∈ groups.map List.flatten := by
      rw [← g2]
      exact List.mem_map_of_mem _ hf
    obtain ⟨g, hg, hgf⟩ := List.mem_map.mp hmem
    rcases g3 g hg with h1 | ⟨d, hd, h2, h3⟩
    · exact Or.inl (by rw [← hgf]; exact h1)
    · refine Or.inr ⟨d, ?_, h2, by rw [← hgf]; exact h3⟩
      rw [← g1]
      exact List.mem_flatten.mpr ⟨g, hg, hd⟩

/-- Witness of C12: under a limit of 4 bytes, a write of 5 bytes gets a file of its
own. -/
theorem C12_size_counter_and_files_bounded_witness :
    0 < 4 ∧
    (logAll (fun _ => 5) (RollBySizeSink.new 4) [[1, 2], [3], [4, 5, 6], [7, 8, 9, 10, 11],
        [12]]).files.map RollFile.content =
      [[1, 2, 3], [4, 5, 6], [7, 8, 9, 10, 11], [12]] ∧
    ∀ k, (logAll (fun _ => 5) (RollBySizeSink.new 4)
      ([[1, 2], [3], [4, 5, 6], [7, 8, 9, 10, 11], [12]].take k))._cur_size < 4 :=
  ⟨by decide, by decide,
    (C12_size_counter_and_files_bounded (fun _ => 5) 4
      [[1, 2], [3], [4, 5, 6], [7, 8, 9, 10, 11], [12]] (by decide) (by decide)
      (by decide)).1⟩

end RollBySizeSink

end mylog

/-! ## Fan-out of `SyncLogger` and failures inside a sink -/

namespace mylog

namespace SyncLogger

theorem fanLoop_all_returned (sinkLog : Nat → List Byte → SinkResult) (data : List Byte)
    (idxs : List Nat) (h : ∀ i ∈ idxs, sinkLog i data = SinkResult.returned) :
    fanLoop sinkLog data idxs = (idxs.map (fun i => (i, data)), SinkResult.returned) := by
  induction idxs with
  | nil => rfl
  | cons i rest ih =>
    have hi := h i (List.mem_cons_self _ _)
    have hr := ih (fun j hj => h j (List.mem_cons_of_mem _ hj))
    simp only [fanLoop, hi, hr, List.map_cons]

theorem fanLoop_stops (sinkLog : Nat → List Byte → SinkResult) (data : List Byte)
    (pre post : List Nat) (k : Nat)
    (hpre : ∀ i ∈ pre, sinkLog i data = SinkResult.returned)
    (hk : sinkLog k data ≠ SinkResult.returned) :
    fanLoop sinkLog data (pre ++ k :: post) =
      ((pre ++ [k]).map (fun i => (i, data)), sinkLog k data) := by
  induction pre with
  | nil =>
    simp only [List.nil_append, fanLoop]
    cases hs : sinkLog k data with
    | returned => exact absurd hs hk
    | threw => rfl
    | aborted => rfl
  | cons i rest ih =>
    have hi := hpre i (List.mem_cons_self _ _)
    have hr := ih (fun j hj => hpre j (List.mem_cons_of_mem _ hj))
    simp only [List.cons_append, fanLoop, hi, List.map_cons]
    rw [show rest.append (k :: post) = rest ++ k :: post from rfl, hr]

theorem range_split (n k : Nat) (hk : k < n) :
    ∃ post, List.range n = List.range k ++ k :: post := by
  obtain ⟨m, rfl⟩ : ∃ m, n = k + (m + 1) := ⟨n - (k + 1), by omega⟩
  refine ⟨(List.range m).map (fun i => k + (i + 1)), ?_⟩
  rw [List.range_add, List.range_succ_eq_map]
  simp

end SyncLogger

namespace RollBySizeSink

theorem openNewFs_ok (env : FsEnv) (clock : Nat → Nat) (s : RollBySizeSink)
    (hdir : env.dirExists = true ∨ env.mkdirOk = true) (hopen : env.openOk = true) :
    openNewFs env clock s = Outcome.returned (openNew clock s) := by
  unfold openNewFs createDirectory
  rcases hdir with h | h
  · simp [h, hopen, Outcome.andThen]
  · cases hd : env.dirExists <;> simp [h, hopen, Outcome.andThen]

theorem openNewFs_throws (env : FsEnv) (clock : Nat → Nat) (s : RollBySizeSink)
    (hdir : env.dirExists = false) (hmk : env.mkdirOk = false) :
    openNewFs env clock s = Outcome.threw := by
  unfold openNewFs createDirectory
  simp [hdir, hmk, Outcome.andThen]

theorem andThen_returned {α β : Type} (a : α) (k : α → Outcome β) :
    (Outcome.returned a).andThen k = k a := rfl

theorem ite_returned {α : Type} (c : Prop) [Decidable c] (a b : α) :
    (if c then Outcome.returned a else Outcome.returned b) =
      Outcome.returned (if c then a else b) := by
  split_ifs <;> rfl

/-- With a file system that does not fail, `logFs` is `log`. -/
theorem logFs_ok (env : FsEnv) (clock : Nat → Nat) (s : RollBySizeSink) (d : List Byte)
    (hdir : env.dirExists = true ∨ env.mkdirOk = true) (hopen : env.openOk = true)
    (hwrite : env.writeOk = true) :
    logFs env clock s d = Outcome.returned (log clock s d) := by
  unfold logFs log rotateFs rotate
  simp only [openNewFs_ok env clock _ hdir hopen, andThen_returned, ite_returned, hwrite,
    if_true]

/-- A failed write does not make `logFs` fail. -/
theorem logFs_write_error_returns (env : FsEnv) (clock : Nat → Nat) (s : RollBySizeSink)
    (d : List Byte) (hdir : env.dirExists = true ∨ env.mkdirOk = true)
    (hopen : env.openOk = true) :
    (logFs env clock s d).result = SinkResult.returned := by
  unfold logFs rotateFs
  simp only [openNewFs_ok env clock _ hdir hopen, andThen_returned, ite_returned]
  rfl

/-- A failed directory creation at the first open makes `logFs` throw. -/
theorem logFs_mkdir_error_throws (env : FsEnv) (clock : Nat → Nat) (s : RollBySizeSink)
    (d : List Byte) (hclosed : s.is_open = false) (hdir : env.dirExists = false)
    (hmk : env.mkdirOk = false) :
    logFs env clock s d = Outcome.threw := by
  unfold logFs
  simp only [hclosed, Bool.not_false, if_true, openNewFs_throws env clock _ hdir hmk,
    Outcome.andThen]

end RollBySizeSink

namespace Logger

/-- C13: for a SyncLogger with threshold `T`, a call at level `L < T` invokes no sink;
a call at level `L ≥ T` whose sinks all return passes exactly the formatter's rendered
line for the record built from the call to every sink of the logger once, in the order
of `_sinks`. -/
theorem C13_threshold_then_fan_out (lg : Logger) (format : LogMsg → List Byte)
    (sinkLog : Nat → List Byte → SinkResult) (now tid : Nat) (level : LogLevel)
    (file : String) (line : Nat) :
    (level < lg._limit_level → ∀ vas,
      lg.common_level format sinkLog now tid level file line vas =
        ([], SinkResult.returned)) ∧
    (lg._limit_level ≤ level → ∀ res,
      (∀ i < lg.nsinks,
        sinkLog i (format (lg.mkMsg now tid level file line res)) = SinkResult.returned) →
      lg.common_level format sinkLog now tid level file line (some res) =
        ((List.range lg.nsinks).map
          (fun i => (i, format (lg.mkMsg now tid level file line res))),
         SinkResult.returned)) := by
  constructor
  · intro h vas
    unfold common_level
    rw [if_pos h]
  · intro h res hs
    unfold common_level
    rw [if_neg (Nat.not_lt.mpr h)]
    simp only [SyncLogger.log]
    by_cases h0 : lg.nsinks = 0
    · rw [if_pos h0, h0]
      rfl
    · rw [if_neg h0]
      exact SyncLogger.fanLoop_all_returned _ _ _
        (fun i hi => hs i (List.mem_range.mp hi))

/-- Witness of C13: a logger with threshold 2 and two sinks, called at level 1 and at
level 3. -/
theorem C13_threshold_then_fan_out_witness :
    (1 : LogLevel) < (Logger.mk "sync" 2 2)._limit_level ∧
    (Logger.mk "sync" 2 2).common_level (fun m => [Fin.ofNat m._level, Fin.ofNat m._line, 10])
        (fun _ _ => SinkResult.returned) 1700000000 7 1 "main.cpp" 42 (some "hello") =
      ([], SinkResult.returned) ∧
    (Logger.mk "sync" 2 2).common_level (fun m => [Fin.ofNat m._level, Fin.ofNat m._line, 10])
        (fun _ _ => SinkResult.returned) 1700000000 7 3 "main.cpp" 42 (some "hello") =
      ([(0, [3, 42, 10]), (1, [3, 42, 10])], SinkResult.returned) :=
  ⟨by decide,
    (C13_threshold_then_fan_out (Logger.mk "sync" 2 2)
      (fun m => [Fin.ofNat m._level, Fin.ofNat m._line, 10])
      (fun _ _ => SinkResult.returned) 1700000000 7 1 "main.cpp" 42).1 (by decide)
      (some "hello"),
    (C13_threshold_then_fan_out (Logger.mk "sync" 2 2)
      (fun m => [Fin.ofNat m._level, Fin.ofNat m._line, 10])
      (fun _ _ => SinkResult.returned) 1700000000 7 3 "main.cpp" 42).2 (by decide)
      "hello" (fun _ _ => rfl)⟩

end Logger

namespace SyncLogger

/-- C14 (as stated, refuted): a logger fans a line out to a RollBySizeSink and then to
a sink that always returns; the directory of the first sink's file does not exist and
`mkdir` fails.  `File::createDirectory` throws, the exception leaves the sink and
`SyncLogger::log`, and the second sink is never called. -/
theorem C14_counterexample_exception_escapes :
    RollBySizeSink.logFs (FsEnv.mk false false true true) (fun _ => 0)
      (RollBySizeSink.new 1024) [104, 105, 10] = Outcome.threw ∧
    SyncLogger.log
      (fun i d => if i = 0 then
          (RollBySizeSink.logFs (FsEnv.mk false false true true) (fun _ => 0)
            (RollBySizeSink.new 1024) d).result
        else SinkResult.returned)
      (Logger.mk "sync" 0 2) [104, 105, 10] =
      ([(0, [104, 105, 10])], SinkResult.threw) := by
  refine ⟨rfl, by decide⟩

/-- C14 (amended): in the fan-out of `SyncLogger::log`, when every sink's `log` returns
every sink receives the line in order, and a write error inside `RollBySizeSink::log`
is such a case, being only reported on `std::cerr`; when the sink at position `k` is
the first whose `log` does not return (a failed directory creation makes
`File::createDirectory` throw, a failed open trips an assertion) the call ends the way
that sink ended, exactly the sinks up to position `k` have been called, and the later
sinks do not receive the line. -/
theorem C14_fan_out_ends_at_first_failure (sinkLog : Nat → List Byte → SinkResult)
    (lg : Logger) (data : List Byte) :
    ((∀ i < lg.nsinks, sinkLog i data = SinkResult.returned) →
      SyncLogger.log sinkLog lg data =
        ((List.range lg.nsinks).map (fun i => (i, data)), SinkResult.returned)) ∧
    (∀ k, k < lg.nsinks → (∀ i < k, sinkLog i data = SinkResult.returned) →
      sinkLog k data ≠ SinkResult.returned →
      SyncLogger.log sinkLog lg data =
        ((List.range (k + 1)).map (fun i => (i, data)), sinkLog k data)) ∧
    (∀ (env : FsEnv) (clock : Nat → Nat) (s : RollBySizeSink),
      (env.dirExists = true ∨ env.mkdirOk = true) → env.openOk = true →
      (RollBySizeSink.logFs env clock s data).result = SinkResult.returned) ∧
    (∀ (env : FsEnv) (clock : Nat → Nat) (s : RollBySizeSink),
      s.is_open = false → env.dirExists = false → env.mkdirOk = false →
      (RollBySizeSink.logFs env clock s data).result = SinkResult.threw) := by
  refine ⟨?_, ?_, ?_, ?_⟩
  · intro hs
    unfold SyncLogger.log
    by_cases h0 : lg.nsinks = 0
    · rw [if_pos h0, h0]
      rfl
    · rw [if_neg h0]
      exact fanLoop_all_returned _ _ _ (fun i hi => hs i (List.mem_range.mp hi))
  · intro k hk hpre hfail
    unfold SyncLogger.log
    rw [if_neg (by omega)]
    obtain ⟨post, hpost⟩ := range_split lg.nsinks k hk
    rw [hpost, fanLoop_stops sinkLog data (List.range k) post k
      (fun i hi => hpre i (List.mem_range.mp hi)) hfail, List.range_succ]
  · intro env clock s hdir hopen
    exact RollBySizeSink.logFs_write_error_returns env clock s data hdir hopen
  · intro env clock s hc hdir hmk
    rw [RollBySizeSink.logFs_mkdir_error_throws env clock s data hc hdir hmk]
    rfl

/-- Witness of C14: three sinks, the second of which is a RollBySizeSink whose
directory cannot be created; the first two are called, the third is not. -/
theorem C14_fan_out_ends_at_first_failure_witness :
    SyncLogger.log
      (fun i d => if i = 1 then
          (RollBySizeSink.logFs (FsEnv.mk false false true true) (fun _ => 0)
            (RollBySizeSink.new 1024) d).result
        else SinkResult.returned)
      (Logger.mk "sync" 0 3) [104, 105, 10] =
      ((List.range (1 + 1)).map (fun i => (i, [104, 105, 10])),
       (fun i d => if i = 1 then
          (RollBySizeSink.logFs (FsEnv.mk false false true true) (fun _ => 0)
            (RollBySizeSink.new 1024) d).result
        else SinkResult.returned) 1 [104, 105, 10]) :=
  (C14_fan_out_ends_at_first_failure
    (fun i d => if i = 1 then
        (RollBySizeSink.logFs (FsEnv.mk false false true true) (fun _ => 0)
          (RollBySizeSink.new 1024) d).result
      else SinkResult.returned)
    (Logger.mk "sync" 0 3) [104, 105, 10]).2.1 1 (by decide) (by decide) (by decide)

end SyncLogger

end mylog

/-! ## Lock discipline of the worker thread -/

namespace mylog

namespace AsyncLooper

theorem Disciplined_init : Fine.init.Disciplined := by
  refine ⟨?_, ?_⟩
  · simp [Fine.init]
  · intro e he
    cases he

theorem Disciplined_workerStep {t : Fine} (h : t.Disciplined) : t.workerStep.Disciplined := by
  obtain ⟨h1, h2⟩ := h
  unfold Fine.workerStep
  cases hpc : t.pc with
  | top => exact ⟨by simp, h2⟩
  | locked =>
    have hheld : t.workerHoldsMutex = true := h1.mpr (Or.inl hpc)
    simp only []
    split_ifs
    · exact ⟨by simp, h2⟩
    · exact ⟨by simp, h2⟩
    · refine ⟨by simp [hheld], ?_⟩
      intro e he
      rcases List.mem_append.mp he with he | he
      · exact h2 e he
      · simp only [List.mem_singleton] at he
        rw [he]
        simp [hheld]
  | waiting => exact ⟨by simp, h2⟩
  | swapped => exact ⟨by simp, h2⟩
  | unlocked =>
    have hfree : t.workerHoldsMutex = false := by
      cases hh : t.workerHoldsMutex with
      | false => rfl
      | true =>
        rcases h1.mp hh with h3 | h3 <;> rw [hpc] at h3 <;> cases h3
    refine ⟨by simp [hfree], ?_⟩
    intro e he
    rcases List.mem_append.mp he with he | he
    · exact h2 e he
    · simp only [List.mem_singleton] at he
      rw [he]
      simp [hfree]
  | delivered =>
    refine ⟨?_, h2⟩
    have := h1
    rw [hpc] at this
    simpa using this
  | done =>
    refine ⟨?_, h2⟩
    show t.workerHoldsMutex = true ↔ (t.pc = WorkerPc.locked ∨ t.pc = WorkerPc.swapped)
    exact h1

theorem Disciplined_step {t t1 : Fine} {x : Step} (h : t.Disciplined)
    (hs : t.step x = some t1) : t1.Disciplined := by
  cases x with
  | worker =>
    simp only [Fine.step, Option.some.injEq] at hs
    rw [← hs]
    exact Disciplined_workerStep h
  | push d =>
    simp only [Fine.step] at hs
    split_ifs at hs
    · cases hs
      exact h
    · cases hp : t.looper.push d with
      | none => rw [hp] at hs; cases hs
      | some r =>
        rw [hp] at hs
        cases hs
        exact h
  | stop =>
    simp only [Fine.step, Option.some.injEq] at hs
    rw [← hs]
    exact h
  | setMax m =>
    simp only [Fine.step] at hs
    split_ifs at hs <;> cases hs <;> exact h

theorem Disciplined_run (steps : List Step) {t t1 : Fine} (h : t.Disciplined)
    (hr : t.run steps = some t1) : t1.Disciplined := by
  induction steps generalizing t with
  | nil =>
    simp only [Fine.run, Option.some.injEq] at hr
    rw [← hr]
    exact h
  | cons x xs ih =>
    simp only [Fine.run] at hr
    cases hs : t.step x with
    | none => rw [hs] at hr; cases hr
    | some t2 =>
      rw [hs] at hr
      exact ih (Disciplined_step h hs) hr

/-- The statement-level model refines the step model: started at the top of the loop
with the mutex free and run without interruption, the worker reaches in two or five
statements a point where the looper is the one `threadEntry` gives, with the mutex
free again. -/
theorem fine_refines_threadEntry (t : Fine) (hpc : t.pc = WorkerPc.top)
    (hx : t.looper.exited = false) :
    (t.workerStep.workerStep.looper = t.looper.threadEntry ∧
      t.workerStep.workerStep.workerHoldsMutex = false ∧
      (t.workerStep.workerStep.pc = WorkerPc.waiting ∨
        t.workerStep.workerStep.pc = WorkerPc.done)) ∨
    (t.workerStep.workerStep.workerStep.workerStep.workerStep.looper =
        t.looper.threadEntry ∧
      t.workerStep.workerStep.workerStep.workerStep.workerStep.workerHoldsMutex = false ∧
      t.workerStep.workerStep.workerStep.workerStep.workerStep.pc = WorkerPc.top) := by
  obtain ⟨lp, pc, held, ev⟩ := t
  simp only [] at hpc hx
  subst hpc
  by_cases h1 : (!(!lp._pro_buf.empty || !lp._running)) = true
  · left
    simp [Fine.workerStep, threadEntry, hx, h1]
  · by_cases h2 : (!lp._running && lp._pro_buf.empty) = true
    · left
      simp [Fine.workerStep, threadEntry, hx, h1, h2]
    · right
      simp [Fine.workerStep, threadEntry, hx, h1, h2, Buffer.swap]

/-- C20: in the statement-level model of the looper, whatever the schedule of worker
statements, producer pushes, `stop` and `setMaxBufferSize` calls, no assertion fails,
every swap of the producer and consumer buffers is made by the worker while it owns
the mutex, every run of the delivery callback is made while it does not own it, and
the worker owns the mutex only at the two program points inside the scope of `lock`,
so that at the point where the callback starts the mutex has been released. -/
theorem C20_callback_outside_mutex (steps : List Step) :
    ∃ t, Fine.init.run steps = some t ∧
      (∀ e ∈ t.events, (e.1 = WorkerAction.swap → e.2 = true) ∧
        (e.1 = WorkerAction.callback → e.2 = false)) ∧
      (t.workerHoldsMutex = true ↔ (t.pc = WorkerPc.locked ∨ t.pc = WorkerPc.swapped)) ∧
      (t.pc = WorkerPc.unlocked → t.workerHoldsMutex = false) := by
  have hsome : ∀ (xs : List Step) (t : Fine), ∃ t1, t.run xs = some t1 := by
    intro xs
    induction xs with
    | nil => exact fun t => ⟨t, rfl⟩
    | cons x xs ih =>
      intro t
      have hstep : ∃ t2, t.step x = some t2 := by
        cases x with
        | worker => exact ⟨_, rfl⟩
        | push d =>
          simp only [Fine.step]
          split_ifs
          · exact ⟨_, rfl⟩
          · cases hp : t.looper.push d with
            | none => exact absurd hp (looper_push_ne_none _ d)
            | some r => exact ⟨_, rfl⟩
        | stop => exact ⟨_, rfl⟩
        | setMax m =>
          simp only [Fine.step]
          split_ifs <;> exact ⟨_, rfl⟩
      obtain ⟨t2, h2⟩ := hstep
      obtain ⟨t3, h3⟩ := ih t2
      exact ⟨t3, by simp only [Fine.run, h2, h3]⟩
  obtain ⟨t, ht⟩ := hsome steps Fine.init
  obtain ⟨d1, d2⟩ := Disciplined_run steps Disciplined_init ht
  refine ⟨t, ht, d2, d1, ?_⟩
  intro hpc
  cases hh : t.workerHoldsMutex with
  | false => rfl
  | true =>
    rcases d1.mp hh with h3 | h3 <;> rw [hpc] at h3 <;> cases h3

/-- Witness of C20: a line is pushed, the worker locks and swaps, a producer finds the
mutex taken, the worker leaves the scope, a second line is pushed while the callback
has not yet run, then the callback runs on the first line and the buffer is reset. -/
theorem C20_callback_outside_mutex_witness :
    (Fine.init.run [Step.push [97, 10], Step.worker, Step.worker, Step.push [120, 10],
        Step.worker, Step.push [98, 10], Step.worker, Step.worker]).map
        (fun t => (t.events, t.looper.delivered, t.looper.stored, t.pc)) =
      some ([(WorkerAction.swap, true), (WorkerAction.callback, false)], [[97, 10]],
        [[97, 10], [98, 10]], WorkerPc.top) ∧
    ∃ t, Fine.init.run [Step.push [97, 10], Step.worker, Step.worker, Step.push [120, 10],
        Step.worker, Step.push [98, 10], Step.worker, Step.worker] = some t ∧
      ∀ e ∈ t.events, (e.1 = WorkerAction.swap → e.2 = true) ∧
        (e.1 = WorkerAction.callback → e.2 = false) :=
  ⟨by decide,
    (C20_callback_outside_mutex [Step.push [97, 10], Step.worker, Step.worker,
      Step.push [120, 10], Step.worker, Step.push [98, 10], Step.worker,
      Step.worker]).imp (fun _ h => ⟨h.1, h.2.1⟩)⟩

end AsyncLooper

end mylog

/-! ## Order of the sink calls of `AsyncLogger::realLog` -/

namespace mylog

namespace AsyncLogger

theorem realLogLoop_flatMap (n fuel : Nat) (rest : List Byte) :
    ∃ segs : List (List Byte), realLogLoop n fuel rest = segs.flatMap (fanOut n) := by
  induction fuel generalizing rest with
  | zero => exact ⟨[], rfl⟩
  | succ f ih =>
    unfold realLogLoop
    by_cases hr : 0 < rest.length
    · rw [if_pos hr]
      cases hm : memchr rest 10 with
      | none => exact ⟨[rest], by simp⟩
      | some k =>
        obtain ⟨segs, hs⟩ := ih (rest.drop (k + 1))
        exact ⟨rest.take (k + 1) :: segs, by simp [hs]⟩
    · rw [if_neg hr]
      exact ⟨[], rfl⟩

theorem segmentsOf_flatMap_fanOut (n i : Nat) (hi : i < n) (segs : List (List Byte)) :
    segmentsOf i (segs.flatMap (fanOut n)) = segs := by
  induction segs with
  | nil => rfl
  | cons s ss ih =>
    rw [List.flatMap_cons, segmentsOf_append, segmentsOf_fanOut, if_pos hi, ih]
    rfl

/-- C22: the calls `realLog` makes are, for a list of segments, the calls of the first
segment on the sinks in the order of `_sinks`, then those of the second segment, and
so on; so every sink receives that same sequence of segments, each segment reaching
all the sinks before the next one reaches any; with an empty sink list or an empty
span no sink is called. -/
theorem C22_realLog_call_order (nsinks : Nat) (buf : Buffer) :
    (∃ segs : List (List Byte),
      realLog nsinks buf =
        segs.flatMap (fun seg => (List.range nsinks).map (fun i => (i, seg))) ∧
      ∀ i, i < nsinks → segmentsOf i (realLog nsinks buf) = segs) ∧
    (nsinks = 0 → realLog nsinks buf = []) ∧
    (buf.readable = [] → realLog nsinks buf = []) := by
  refine ⟨?_, ?_, ?_⟩
  · unfold realLog
    by_cases h0 : nsinks = 0
    · rw [if_pos h0]
      exact ⟨[], rfl, fun i hi => by omega⟩
    · rw [if_neg h0]
      obtain ⟨segs, hs⟩ := realLogLoop_flatMap nsinks buf.readable.length buf.readable
      refine ⟨segs, hs, fun i hi => ?_⟩
      rw [hs]
      exact segmentsOf_flatMap_fanOut nsinks i hi segs
  · intro h0
    unfold realLog
    rw [if_pos h0]
  · intro he
    unfold realLog
    rw [he]
    split_ifs <;> rfl

/-- Witness of C22: two sinks and a span of two lines. -/
theorem C22_realLog_call_order_witness :
    realLog 2 (Buffer.mk 64 ((CharVec.zeros 64).memcpy 0 [97, 10, 98, 10]) 0 4) =
      [(0, [97, 10]), (1, [97, 10]), (0, [98, 10]), (1, [98, 10])] ∧
    realLog 0 (Buffer.mk 64 ((CharVec.zeros 64).memcpy 0 [97, 10, 98, 10]) 0 4) = [] ∧
    ∃ segs : List (List Byte),
      realLog 2 (Buffer.mk 64 ((CharVec.zeros 64).memcpy 0 [97, 10, 98, 10]) 0 4) =
        segs.flatMap (fun seg => (List.range 2).map (fun i => (i, seg))) ∧
      ∀ i, i < 2 → segmentsOf i
        (realLog 2 (Buffer.mk 64 ((CharVec.zeros 64).memcpy 0 [97, 10, 98, 10]) 0 4)) = segs :=
  ⟨by decide,
    (C22_realLog_call_order 0
      (Buffer.mk 64 ((CharVec.zeros 64).memcpy 0 [97, 10, 98, 10]) 0 4)).2.1 rfl,
    (C22_realLog_call_order 2
      (Buffer.mk 64 ((CharVec.zeros 64).memcpy 0 [97, 10, 98, 10]) 0 4)).1⟩

end AsyncLogger

end mylog

/-! ## Time buckets of `RollByTimeSink` -/

namespace mylog

theorem localtime_r_inj (off a b : Int) (h : localtime_r off a = localtime_r off b) : a = b := by
  unfold localtime_r at h
  simp only [Tm.mk.injEq] at h
  omega

theorem mktime_localtime_r (off t : Int) : mktime off (localtime_r off t) = t := by
  unfold mktime localtime_r
  simp only
  omega

namespace RollByTimeSink

theorem floorToUnit_Secondly (off t : Int) : floorToUnit off t TimeUnit.Secondly = t := by
  unfold floorToUnit
  exact mktime_localtime_r off t

/-- C24: with local time UTC plus the fixed offset `off`, the bucket of every time `t`
and unit `u` contains `t`: `floorToUnit t u ≤ t < nextCutFrom (floorToUnit t u) u`.
The bucket start is `t` itself for Secondly and otherwise the instant whose local time
is that of `t` with the seconds (Minutely), the minutes and seconds (Hourly) or the
hours, minutes and seconds (Daily) set to zero; the next cut is 1, 60, 3600 or 86400
seconds after the bucket start. -/
theorem C24_bucket_contains_time (off t : Int) (u : TimeUnit) :
    (floorToUnit off t u ≤ t ∧ t < nextCutFrom (floorToUnit off t u) u) ∧
    floorToUnit off t TimeUnit.Secondly = t ∧
    localtime_r off (floorToUnit off t TimeUnit.Minutely) =
      { localtime_r off t with tm_sec := 0 } ∧
    localtime_r off (floorToUnit off t TimeUnit.Hourly) =
      { localtime_r off t with tm_min := 0, tm_sec := 0 } ∧
    localtime_r off (floorToUnit off t TimeUnit.Daily) =
      { localtime_r off t with tm_hour := 0, tm_min := 0, tm_sec := 0 } ∧
    (∀ b : Int, nextCutFrom b TimeUnit.Secondly = b + 1 ∧
      nextCutFrom b TimeUnit.Minutely = b + 60 ∧
      nextCutFrom b TimeUnit.Hourly = b + 3600 ∧
      nextCutFrom b TimeUnit.Daily = b + 86400) := by
  refine ⟨?_, floorToUnit_Secondly off t, ?_, ?_, ?_, ?_⟩
  · cases u <;> simp only [floorToUnit, nextCutFrom, mktime, localtime_r] <;> omega
  · simp only [floorToUnit, mktime, localtime_r, Tm.mk.injEq]
    omega
  · simp only [floorToUnit, mktime, localtime_r, Tm.mk.injEq]
    omega
  · simp only [floorToUnit, mktime, localtime_r, Tm.mk.injEq]
    omega
  · intro b
    exact ⟨rfl, rfl, by norm_num [nextCutFrom], by norm_num [nextCutFrom]⟩

end RollByTimeSink

end mylog

/-! ## Calls of `AsyncLooper::stop` from several threads -/

namespace mylog

namespace AsyncLooper

namespace StopCalls

theorem StopInv_init (l : AsyncLooper) (hl : l._running = true) : StopInv l (init l) :=
  Or.inl ⟨rfl, hl, rfl, rfl, rfl, rfl, fun _ => rfl⟩

theorem step_start_running (s : StopCalls) (i : Nat) (hp : s.pc i = StopPc.start)
    (hr : s.looper._running = true) :
    s.step i = { s with looper := s.looper.stop, flips := s.flips + 1,
                        pc := Function.update s.pc i StopPc.notify } := by
  unfold step
  rw [hp]
  simp only [hr, if_true]

theorem step_start_stopped (s : StopCalls) (i : Nat) (hp : s.pc i = StopPc.start)
    (hr : s.looper._running = false) :
    s.step i = { s with pc := Function.update s.pc i StopPc.done } := by
  unfold step
  rw [hp]
  simp only [hr, Bool.false_eq_true, if_false]

theorem step_notify (s : StopCalls) (i : Nat) (hp : s.pc i = StopPc.notify) :
    s.step i = { s with notified := s.notified ++ [i],
                        pc := Function.update s.pc i StopPc.join } := by
  unfold step
  rw [hp]

theorem step_join_joinable (s : StopCalls) (i : Nat) (hp : s.pc i = StopPc.join)
    (hj : s.joinable = true) :
    s.step i = { s with joinable := false, joined := s.joined ++ [i],
                        pc := Function.update s.pc i StopPc.done } := by
  unfold step
  rw [hp]
  simp only [hj, if_true]

theorem step_done (s : StopCalls) (i : Nat) (hp : s.pc i = StopPc.done) : s.step i = s := by
  unfold step
  rw [hp]

theorem StopInv_step (l : AsyncLooper) (s : StopCalls) (i : Nat) (h : StopInv l s) :
    StopInv l (s.step i) := by
  rcases h with ⟨hl, hr, hf, hj, hn, hjb, hpc⟩ | ⟨hl, hf, w, hoth, hw⟩
  · rw [step_start_running s i (hpc i) hr]
    refine Or.inr ⟨by rw [hl], by simp only [hf], i, ?_, Or.inl ⟨?_, hjb, hj, hn⟩⟩
    · intro k hk
      left
      show Function.update s.pc i StopPc.notify k = StopPc.start
      rw [Function.update_noteq hk]
      exact hpc k
    · show Function.update s.pc i StopPc.notify i = StopPc.notify
      rw [Function.update_same]
  · have hr : s.looper._running = false := by rw [hl]; rfl
    by_cases hiw : i = w
    · subst hiw
      rcases hw with ⟨hp, hjb, hj, hn⟩ | ⟨hp, hjb, hj, hn⟩ | ⟨hp, hjb, hj, hn⟩
      · rw [step_notify s i hp]
        refine Or.inr ⟨hl, hf, i, ?_, Or.inr (Or.inl ⟨?_, hjb, hj, ?_⟩)⟩
        · intro k hk
          show Function.update s.pc i StopPc.join k = StopPc.start ∨
            Function.update s.pc i StopPc.join k = StopPc.done
          rw [Function.update_noteq hk]
          exact hoth k hk
        · show Function.update s.pc i StopPc.join i = StopPc.join
          rw [Function.update_same]
        · show s.notified ++ [i] = [i]
          rw [hn]
          rfl
      · rw [step_join_joinable s i hp hjb]
        refine Or.inr ⟨hl, hf, i, ?_, Or.inr (Or.inr ⟨?_, rfl, ?_, hn⟩)⟩
        · intro k hk
          show Function.update s.pc i StopPc.done k = StopPc.start ∨
            Function.update s.pc i StopPc.done k = StopPc.done
          rw [Function.update_noteq hk]
          exact hoth k hk
        · show Function.update s.pc i StopPc.done i = StopPc.done
          rw [Function.update_same]
        · show s.joined ++ [i] = [i]
          rw [hj]
          rfl
      · rw [step_done s i hp]
        exact Or.inr ⟨hl, hf, i, hoth, Or.inr (Or.inr ⟨hp, hjb, hj, hn⟩)⟩
    · rcases hoth i hiw with hp | hp
      · rw [step_start_stopped s i hp hr]
        refine Or.inr ⟨hl, hf, w, ?_, ?_⟩
        · intro k hk
          show Function.update s.pc i StopPc.done k = StopPc.start ∨
            Function.update s.pc i StopPc.done k = StopPc.done
          by_cases hki : k = i
          · subst hki
            right
            rw [Function.update_same]
          · rw [Function.update_noteq hki]
            exact hoth k hk
        · have hwi : w ≠ i := fun h => hiw h.symm
          have hpw : Function.update s.pc i StopPc.done w = s.pc w :=
            Function.update_noteq hwi _ _
          rcases hw with ⟨hp, hjb, hj, hn⟩ | ⟨hp, hjb, hj, hn⟩ | ⟨hp, hjb, hj, hn⟩
          · exact Or.inl ⟨hpw.trans hp, hjb, hj, hn⟩
          · exact Or.inr (Or.inl ⟨hpw.trans hp, hjb, hj, hn⟩)
          · exact Or.inr (Or.inr ⟨hpw.trans hp, hjb, hj, hn⟩)
      · rw [step_done s i hp]
        exact Or.inr ⟨hl, hf, w, hoth, hw⟩

theorem StopInv_run (l : AsyncLooper) (sched : List Nat) (s : StopCalls) (h : StopInv l s) :
    StopInv l (s.run sched) := by
  induction sched generalizing s with
  | nil => exact h
  | cons i rest ih => exact ih (s.step i) (StopInv_step l s i h)

theorem step_pc_other (s : StopCalls) (i k : Nat) (hk : k ≠ i) : (s.step i).pc k = s.pc k := by
  unfold step
  split
  · split_ifs
    · exact Function.update_noteq hk _ _
    · exact Function.update_noteq hk _ _
  · exact Function.update_noteq hk _ _
  · split_ifs
    · exact Function.update_noteq hk _ _
    · exact Function.update_noteq hk _ _
  · rfl

theorem run_pc_not_scheduled (sched : List Nat) (s : StopCalls) (k : Nat) (hk : k ∉ sched) :
    (s.run sched).pc k = s.pc k := by
  induction sched generalizing s with
  | nil => rfl
  | cons i rest ih =>
    have h1 : k ≠ i := fun h => hk (h ▸ List.mem_cons_self _ _)
    have h2 : k ∉ rest := fun h => hk (List.mem_cons_of_mem _ h)
    show ((s.step i).run rest).pc k = s.pc k
    rw [ih (s.step i) h2, step_pc_other s i k h1]

/-- C21: on a running looper, whatever calls of `stop()` are made and however their
steps interleave, `_running` goes from true to false at most once and at most one call
joins the worker; a call that finds `_running` false returns at its first step and
changes nothing; and once every call that took a step has returned, `_running` has
gone to false exactly once and exactly one of the calls has notified the waiters and
joined the worker thread, the rest of the looper being as it was. -/
theorem C21_stop_flips_once_one_joiner (l : AsyncLooper) (hl : l._running = true)
    (sched : List Nat) :
    (((init l).run sched).flips ≤ 1 ∧ ((init l).run sched).joined.length ≤ 1 ∧
      (((init l).run sched).flips = 1 ↔ ((init l).run sched).looper._running = false)) ∧
    (∀ s : StopCalls, ∀ i, s.looper._running = false → s.pc i = StopPc.start →
      s.step i = { s with pc := Function.update s.pc i StopPc.done }) ∧
    (sched ≠ [] → (∀ i ∈ sched, ((init l).run sched).pc i = StopPc.done) →
      ((init l).run sched).looper = { l with _running := false } ∧
      ((init l).run sched).flips = 1 ∧
      ∃ w ∈ sched, ((init l).run sched).joined = [w] ∧
        ((init l).run sched).notified = [w]) := by
  have hinv := StopInv_run l sched (init l) (StopInv_init l hl)
  refine ⟨?_, fun s i hr hp => step_start_stopped s i hp hr, ?_⟩
  · rcases hinv with ⟨_, hr, hf, hj, _, _, _⟩ | ⟨hlo, hf, w, _, hw⟩
    · refine ⟨by omega, by rw [hj]; exact Nat.zero_le _, ?_⟩
      rw [hf, hr]
      constructor
      · intro h
        omega
      · intro h
        cases h
    · have hr : ((init l).run sched).looper._running = false := by rw [hlo]; rfl
      refine ⟨by omega, ?_, ?_⟩
      · rcases hw with ⟨_, _, hj, _⟩ | ⟨_, _, hj, _⟩ | ⟨_, _, hj, _⟩ <;> rw [hj] <;> simp
      · exact ⟨fun _ => hr, fun _ => hf⟩
  · intro hne hdone
    obtain ⟨i0, rest, hs⟩ := List.exists_cons_of_ne_nil hne
    have hi0 : i0 ∈ sched := hs ▸ List.mem_cons_self _ _
    rcases hinv with ⟨_, _, _, _, _, _, hpc⟩ | ⟨hlo, hf, w, _, hw⟩
    · have h1 := hdone i0 hi0
      rw [hpc i0] at h1
      cases h1
    · have hwm : w ∈ sched := by
        by_contra hnot
        have h1 := run_pc_not_scheduled sched (init l) w hnot
        rcases hw with ⟨hp, _⟩ | ⟨hp, _⟩ | ⟨hp, _⟩ <;> rw [hp] at h1 <;> cases h1
      have hwd := hdone w hwm
      rcases hw with ⟨hp, _⟩ | ⟨hp, _⟩ | ⟨_, _, hj, hn⟩
      · rw [hp] at hwd
        cases hwd
      · rw [hp] at hwd
        cases hwd
      · exact ⟨hlo, hf, w, hwm, hj, hn⟩

/-- Witness of C21: three calls of `stop()` on a new looper, interleaved; call 1 wins
the exchange and joins, calls 0 and 2 return at once. -/
theorem C21_stop_flips_once_one_joiner_witness :
    AsyncLooper.new._running = true ∧
    ([1, 0, 1, 2, 1] : List Nat) ≠ [] ∧
    (∀ i ∈ ([1, 0, 1, 2, 1] : List Nat),
      ((init AsyncLooper.new).run [1, 0, 1, 2, 1]).pc i = StopPc.done) ∧
    ((init AsyncLooper.new).run [1, 0, 1, 2, 1]).joined = [1] ∧
    ((init AsyncLooper.new).run [1, 0, 1, 2, 1]).notified = [1] ∧
    ((init AsyncLooper.new).run [1, 0, 1, 2, 1]).flips = 1 ∧
    (((init AsyncLooper.new).run [1, 0, 1, 2, 1]).looper =
        { AsyncLooper.new with _running := false } ∧
      ((init AsyncLooper.new).run [1, 0, 1, 2, 1]).flips = 1 ∧
      ∃ w ∈ ([1, 0, 1, 2, 1] : List Nat),
        ((init AsyncLooper.new).run [1, 0, 1, 2, 1]).joined = [w] ∧
        ((init AsyncLooper.new).run [1, 0, 1, 2, 1]).notified = [w]) :=
  ⟨rfl, by decide, by decide, by decide, by decide, by decide,
    (C21_stop_flips_once_one_joiner AsyncLooper.new rfl [1, 0, 1, 2, 1]).2.2
      (by decide) (by decide)⟩

end StopCalls

end AsyncLooper

end mylog

/-! ## Sequence numbers and file names of `RollBySizeSink` -/

namespace mylog

namespace RollBySizeSink

theorem madeIn_le (l : List RollName) (sec : Nat) : madeIn l sec ≤ l.length :=
  List.length_filter_le _ l

theorem madeIn_append (a b : List RollName) (sec : Nat) :
    madeIn (a ++ b) sec = madeIn a sec + madeIn b sec := by
  unfold madeIn
  rw [List.filter_append, List.length_append]

theorem madeIn_reverse (a : List RollName) (sec : Nat) : madeIn a.reverse sec = madeIn a sec := by
  unfold madeIn
  rw [List.filter_reverse, List.length_reverse]

theorem madeIn_cons (n : RollName) (l : List RollName) (sec : Nat) :
    madeIn (n :: l) sec = madeIn l sec + (if n.sec = sec then 1 else 0) := by
  unfold madeIn
  by_cases h : n.sec = sec
  · rw [List.filter_cons_of_pos (by simpa using h), if_pos h]
    rfl
  · rw [List.filter_cons_of_neg (by simpa using h), if_neg h]
    rfl

theorem madeIn_eq_zero (l : List RollName) (sec : Nat) (h : ∀ n ∈ l, n.sec < sec) :
    madeIn l sec = 0 := by
  unfold madeIn
  rw [List.length_eq_zero, List.filter_eq_nil_iff]
  intro n hn
  have := h n hn
  simp only [decide_eq_true_eq]
  omega

theorem SeqOk_suffix (a b : List RollName) (h : SeqOk (a ++ b)) : SeqOk b := by
  induction a with
  | nil => exact h
  | cons x xs ih => exact ih h.2

theorem SeqOk_seq_lt (l : List RollName) (h : SeqOk l) (hl : l.length < SIZE_MOD)
    (m : RollName) (hm : m ∈ l) : m.seq < madeIn l m.sec := by
  induction l with
  | nil => cases hm
  | cons x xs ih =>
    have hx : xs.length < SIZE_MOD := by
      rw [List.length_cons] at hl
      omega
    rw [madeIn_cons]
    rcases List.mem_cons.mp hm with e | hin
    · subst e
      have h1 := h.1
      have h2 := madeIn_le xs m.sec
      rw [Nat.mod_eq_of_lt (by omega)] at h1
      rw [if_pos rfl]
      omega
    · have := ih h.2 hx hin
      omega

theorem SeqOk_nodup (l : List RollName) (h : SeqOk l) (hl : l.length < SIZE_MOD) : l.Nodup := by
  induction l with
  | nil => exact List.nodup_nil
  | cons x xs ih =>
    have hx : xs.length < SIZE_MOD := by
      rw [List.length_cons] at hl
      omega
    refine List.nodup_cons.mpr ⟨fun hin => ?_, ih h.2 hx⟩
    have h1 := h.1
    have h2 := madeIn_le xs x.sec
    rw [Nat.mod_eq_of_lt (by omega)] at h1
    have h3 := SeqOk_seq_lt xs h.2 hx x hin
    omega

theorem SeqInv_new (clock : Nat → Nat) (max_size : Nat) : SeqInv clock (new max_size) :=
  ⟨trivial, rfl, fun _ h => (by cases h), Nat.zero_le _⟩

theorem SeqInv_of_eq (clock : Nat → Nat) {s t : RollBySizeSink} (h : SeqInv clock s)
    (h1 : t.names = s.names) (h2 : t._seq = s._seq) (h3 : t._last_sec = s._last_sec)
    (h4 : t.reads = s.reads) : SeqInv clock t := by
  refine ⟨?_, ?_, ?_, ?_⟩
  · rw [h1]
    exact h.ok
  · rw [h1, h2, h3]
    exact h.seq
  · rw [h1, h3]
    exact h.past
  · rw [h3, h4]
    exact h.ahead

theorem createNewFile_fields (clock : Nat → Nat) (s : RollBySizeSink) :
    (createNewFile clock s).1.sec = clock s.reads ∧
    (createNewFile clock s).1.seq =
      (if clock s.reads ≠ s._last_sec then 0 else s._seq) ∧
    (openNew clock s)._seq =
      szAdd (if clock s.reads ≠ s._last_sec then 0 else s._seq) 1 ∧
    (openNew clock s)._last_sec = clock s.reads ∧
    (openNew clock s).reads = s.reads + 1 := by
  unfold openNew createNewFile
  dsimp only
  by_cases h : clock s.reads ≠ s._last_sec
  · simp only [if_pos h]
    exact ⟨trivial, trivial, trivial, trivial, trivial⟩
  · simp only [if_neg h]
    have e : s._last_sec = clock s.reads := (not_not.mp h).symm
    exact ⟨trivial, trivial, trivial, e, trivial⟩

theorem SeqInv_openNew (clock : Nat → Nat) (hmono : ∀ i j, i ≤ j → clock i ≤ clock j)
    {s : RollBySizeSink} (h : SeqInv clock s) : SeqInv clock (openNew clock s) := by
  obtain ⟨c1, c2, c3, c4, c5⟩ := createNewFile_fields clock s
  have hn : (openNew clock s).names = s.names ++ [(createNewFile clock s).1] := by
    unfold names
    rw [(openNew_files clock s).1, List.map_append]
    rfl
  have hcnt : (createNewFile clock s).1.seq =
      madeIn s.names (createNewFile clock s).1.sec % SIZE_MOD := by
    rw [c2, c1]
    by_cases hq : clock s.reads ≠ s._last_sec
    · have hz : madeIn s.names (clock s.reads) = 0 := by
        apply madeIn_eq_zero
        intro n hn
        have h1 := h.past n hn
        have h2 := h.ahead
        omega
      rw [if_pos hq, hz]
      rfl
    · rw [if_neg hq, not_not.mp hq]
      exact h.seq
  refine ⟨?_, ?_, ?_, ?_⟩
  · rw [hn, List.reverse_append, List.reverse_singleton, List.singleton_append]
    refine ⟨?_, h.ok⟩
    rw [madeIn_reverse]
    exact hcnt
  · rw [hn, c3, c4, madeIn_append, ← c2, hcnt, c1]
    have e : madeIn [(createNewFile clock s).1] (clock s.reads) = 1 := by
      rw [madeIn_cons, if_pos c1]
      rfl
    rw [e]
    unfold szAdd
    rw [Nat.add_mod, Nat.mod_mod, ← Nat.add_mod]
  · rw [hn, c4]
    intro n hin
    rcases List.mem_append.mp hin with h1 | h1
    · have h2 := h.past n h1
      have h3 := h.ahead
      omega
    · rw [List.mem_singleton] at h1
      rw [h1, c1]
  · rw [c4, c5]
    exact hmono _ _ (Nat.le_succ _)

theorem SeqInv_rotate (clock : Nat → Nat) (hmono : ∀ i j, i ≤ j → clock i ≤ clock j)
    {s : RollBySizeSink} (h : SeqInv clock s) : SeqInv clock (rotate clock s) :=
  SeqInv_of_eq clock (SeqInv_openNew clock hmono h) rfl rfl rfl rfl

theorem names_write (s : RollBySizeSink) (d : List Byte) : (s.write d).names = s.names := by
  unfold names
  rcases List.eq_nil_or_concat s.files with h0 | ⟨fs, f, h1⟩
  · simp [write, h0]
  · rw [List.concat_eq_append] at h1
    simp [write, h1]

theorem write_fields (s : RollBySizeSink) (d : List Byte) :
    (s.write d)._seq = s._seq ∧ (s.write d)._last_sec = s._last_sec ∧
    (s.write d).reads = s.reads := by
  unfold write
  split <;> exact ⟨rfl, rfl, rfl⟩

theorem SeqInv_write (clock : Nat → Nat) {s : RollBySizeSink} (h : SeqInv clock s)
    (d : List Byte) (c : Nat) : SeqInv clock { s.write d with _cur_size := c } :=
  SeqInv_of_eq clock h (names_write s d) (write_fields s d).1 (write_fields s d).2.1
    (write_fields s d).2.2

theorem SeqInv_ite (clock : Nat → Nat) (c : Prop) [Decidable c] {a b : RollBySizeSink}
    (ha : SeqInv clock a) (hb : SeqInv clock b) : SeqInv clock (if c then a else b) := by
  split_ifs
  · exact ha
  · exact hb

theorem SeqInv_log (clock : Nat → Nat) (hmono : ∀ i j, i ≤ j → clock i ≤ clock j)
    {s : RollBySizeSink} (h : SeqInv clock s) (d : List Byte) : SeqInv clock (log clock s d) := by
  unfold log
  have h1 : SeqInv clock (if (!s.is_open) = true then { openNew clock s with _cur_size := 0 }
      else s) := SeqInv_ite clock _ (SeqInv_rotate clock hmono h) h
  obtain ⟨s1, hs1⟩ : ∃ s1, s1 = (if (!s.is_open) = true then
      { openNew clock s with _cur_size := 0 } else s) := ⟨_, rfl⟩
  simp only [← hs1]
  rw [← hs1] at h1
  have h2 : SeqInv clock (if szAdd s1._cur_size d.length > s1._max_size ∧ s1._cur_size > 0
      then rotate clock s1 else s1) := SeqInv_ite clock _ (SeqInv_rotate clock hmono h1) h1
  obtain ⟨s2, hs2⟩ : ∃ s2, s2 = (if szAdd s1._cur_size d.length > s1._max_size ∧
      s1._cur_size > 0 then rotate clock s1 else s1) := ⟨_, rfl⟩
  simp only [← hs2]
  rw [← hs2] at h2
  have h4 := SeqInv_write clock h2 d (szAdd (s2.write d)._cur_size d.length)
  exact SeqInv_ite clock _ (SeqInv_rotate clock hmono h4) h4

theorem SeqInv_logAll (clock : Nat → Nat) (hmono : ∀ i j, i ≤ j → clock i ≤ clock j)
    (writes : List (List Byte)) {s : RollBySizeSink} (h : SeqInv clock s) :
    SeqInv clock (logAll clock s writes) := by
  induction writes generalizing s with
  | nil => exact h
  | cons d ds ih => exact ih (SeqInv_log clock hmono h d)

theorem pathFields_injective (off : Int) : Function.Injective (pathFields off) := by
  intro a b h
  unfold pathFields at h
  rw [Prod.mk.injEq] at h
  have h1 := localtime_r_inj off _ _ h.1
  cases a
  cases b
  simp only [RollName.mk.injEq]
  simp only at h1 h
  exact ⟨by exact_mod_cast h1, h.2⟩

theorem opened_reads (clock : Nat → Nat) (k : Nat) : (opened clock k).reads = k := by
  induction k with
  | zero => rfl
  | succ k ih =>
    show (openNew clock (opened clock k)).reads = k + 1
    rw [(createNewFile_fields clock _).2.2.2.2, ih]

theorem createNewFile_congr (clock : Nat → Nat) (s t : RollBySizeSink)
    (h1 : s.reads = t.reads) (h2 : s._seq = t._seq) (h3 : s._last_sec = t._last_sec) :
    (createNewFile clock s).1 = (createNewFile clock t).1 ∧
    (openNew clock s)._seq = (openNew clock t)._seq ∧
    (openNew clock s)._last_sec = (openNew clock t)._last_sec := by
  obtain ⟨a1, a2, a3, a4, _⟩ := createNewFile_fields clock s
  obtain ⟨b1, b2, b3, b4, _⟩ := createNewFile_fields clock t
  refine ⟨?_, ?_, ?_⟩
  · have e1 : (createNewFile clock s).1.sec = (createNewFile clock t).1.sec := by
      rw [a1, b1, h1]
    have e2 : (createNewFile clock s).1.seq = (createNewFile clock t).1.seq := by
      rw [a2, b2, h1, h2, h3]
    generalize (createNewFile clock s).1 = x at e1 e2
    generalize (createNewFile clock t).1 = y at e1 e2
    cases x
    cases y
    simp only at e1 e2
    rw [e1, e2]
  · rw [a3, b3, h1, h2, h3]
  · rw [a4, b4, h1]

theorem NameInv_new (clock : Nat → Nat) (max_size : Nat) : NameInv clock (new max_size) :=
  ⟨rfl, rfl, rfl, rfl⟩

theorem NameInv_of_eq (clock : Nat → Nat) {s t : RollBySizeSink} (h : NameInv clock s)
    (h1 : t.names = s.names) (h2 : t._seq = s._seq) (h3 : t._last_sec = s._last_sec)
    (h4 : t.reads = s.reads) : NameInv clock t := by
  have hl : t.files.length = s.files.length := by
    have := congrArg List.length h1
    unfold names at this
    rw [List.length_map, List.length_map] at this
    exact this
  refine ⟨?_, ?_, ?_, ?_⟩
  · rw [h4, hl]
    exact h.reads
  · rw [h2, h4]
    exact h.seq
  · rw [h3, h4]
    exact h.last
  · rw [h1, h4]
    exact h.names

theorem NameInv_openNew (clock : Nat → Nat) {s : RollBySizeSink} (h : NameInv clock s) :
    NameInv clock (openNew clock s) := by
  obtain ⟨_, _, _, _, c5⟩ := createNewFile_fields clock s
  obtain ⟨e1, e2, e3⟩ := createNewFile_congr clock s (opened clock s.reads)
    (opened_reads clock s.reads).symm h.seq h.last
  have hn : (openNew clock s).names = s.names ++ [(createNewFile clock s).1] := by
    unfold names
    rw [(openNew_files clock s).1, List.map_append]
    rfl
  refine ⟨?_, ?_, ?_, ?_⟩
  · rw [c5, (openNew_files clock s).1, List.length_append, h.reads]
    rfl
  · rw [c5, e2]
    rfl
  · rw [c5, e3]
    rfl
  · rw [hn, c5, List.range_succ, List.map_append, h.names, e1]
    rfl

theorem NameInv_rotate (clock : Nat → Nat) {s : RollBySizeSink} (h : NameInv clock s) :
    NameInv clock (rotate clock s) :=
  NameInv_of_eq clock (NameInv_openNew clock h) rfl rfl rfl rfl

theorem NameInv_write (clock : Nat → Nat) {s : RollBySizeSink} (h : NameInv clock s)
    (d : List Byte) (c : Nat) : NameInv clock { s.write d with _cur_size := c } :=
  NameInv_of_eq clock h (names_write s d) (write_fields s d).1 (write_fields s d).2.1
    (write_fields s d).2.2

theorem NameInv_ite (clock : Nat → Nat) (c : Prop) [Decidable c] {a b : RollBySizeSink}
    (ha : NameInv clock a) (hb : NameInv clock b) : NameInv clock (if c then a else b) := by
  split_ifs
  · exact ha
  · exact hb

theorem NameInv_log (clock : Nat → Nat) {s : RollBySizeSink} (h : NameInv clock s)
    (d : List Byte) : NameInv clock (log clock s d) := by
  unfold log
  have h1 : NameInv clock (if (!s.is_open) = true then { openNew clock s with _cur_size := 0 }
      else s) := NameInv_ite clock _ (NameInv_rotate clock h) h
  obtain ⟨s1, hs1⟩ : ∃ s1, s1 = (if (!s.is_open) = true then
      { openNew clock s with _cur_size := 0 } else s) := ⟨_, rfl⟩
  simp only [← hs1]
  rw [← hs1] at h1
  have h2 : NameInv clock (if szAdd s1._cur_size d.length > s1._max_size ∧ s1._cur_size > 0
      then rotate clock s1 else s1) := NameInv_ite clock _ (NameInv_rotate clock h1) h1
  obtain ⟨s2, hs2⟩ : ∃ s2, s2 = (if szAdd s1._cur_size d.length > s1._max_size ∧
      s1._cur_size > 0 then rotate clock s1 else s1) := ⟨_, rfl⟩
  simp only [← hs2]
  rw [← hs2] at h2
  have h4 := NameInv_write clock h2 d (szAdd (s2.write d)._cur_size d.length)
  exact NameInv_ite clock _ (NameInv_rotate clock h4) h4

theorem NameInv_logAll (clock : Nat → Nat) (writes : List (List Byte)) {s : RollBySizeSink}
    (h : NameInv clock s) : NameInv clock (logAll clock s writes) := by
  induction writes generalizing s with
  | nil => exact h
  | cons d ds ih => exact ih (NameInv_log clock h d)

theorem nameAt_sec (clock : Nat → Nat) (k : Nat) : (nameAt clock k).sec = clock k := by
  unfold nameAt
  rw [(createNewFile_fields clock _).1, opened_reads]

theorem names_sec_read (clock : Nat → Nat) (writes : List (List Byte)) (max_size : Nat)
    (n : RollName) (hn : n ∈ (logAll clock (new max_size) writes).names) :
    ∃ k, n.sec = clock k := by
  have h := (NameInv_logAll clock writes (NameInv_new clock max_size)).names
  rw [h, List.mem_map] at hn
  obtain ⟨k, _, hk⟩ := hn
  exact ⟨k, by rw [← hk, nameAt_sec]⟩

theorem pathFieldsOf_inj_on (localtime : Int → Tm) (a b : RollName)
    (hloc : localtime a.sec = localtime b.sec → a.sec = b.sec)
    (h : pathFieldsOf localtime a = pathFieldsOf localtime b) : a = b := by
  unfold pathFieldsOf at h
  rw [Prod.mk.injEq] at h
  have h1 := hloc h.1
  cases a
  cases b
  simp only [RollName.mk.injEq]
  simp only at h1 h
  exact ⟨h1, h.2⟩

/-- C23, as the code has it: for a new `RollBySizeSink` written under a clock that
never goes backwards (fewer than 2^63 files being created), the sequence number in
the name of every file is the number of files the sink created before it in the same second: 0
for the first file of a second, one more for each further file of that second.  So no
two files of the sink have the same second and sequence number.  The path prints the
local date and time of the second, not the second itself: provided local time shows
no two of the seconds read from the clock alike, no two files get the same path, and
this is so whenever local time is UTC plus a fixed offset. -/
theorem C23_sequence_numbers_name_files_apart (clock : Nat → Nat)
    (hmono : ∀ i j, i ≤ j → clock i ≤ clock j) (max_size : Nat) (writes : List (List Byte))
    (localtime : Int → Tm)
    (hloc : ∀ i j, localtime (clock i) = localtime (clock j) → clock i = clock j)
    (hlen : (logAll clock (new max_size) writes).files.length < 9223372036854775808) :
    (∀ pre n post, (logAll clock (new max_size) writes).files.map RollFile.name =
        pre ++ n :: post → n.seq = (pre.filter (fun m => m.sec = n.sec)).length) ∧
    ((logAll clock (new max_size) writes).files.map RollFile.name).Nodup ∧
    (((logAll clock (new max_size) writes).files.map RollFile.name).map
      (pathFieldsOf localtime)).Nodup ∧
    (∀ off : Int, (((logAll clock (new max_size) writes).files.map RollFile.name).map
      (pathFields off)).Nodup) := by
  have hinv := SeqInv_logAll clock hmono writes (SeqInv_new clock max_size)
  have hok := hinv.ok
  have hb : (logAll clock (new max_size) writes).names.length < SIZE_MOD := by
    unfold names
    rw [List.length_map]
    show _ < 18446744073709551616
    omega
  have hnd : (logAll clock (new max_size) writes).names.Nodup := by
    rw [← List.nodup_reverse]
    exact SeqOk_nodup _ hok (by rw [List.length_reverse]; exact hb)
  refine ⟨?_, hnd, ?_, fun off => List.Nodup.map (pathFields_injective off) hnd⟩
  · intro pre n post hsplit
    change (logAll clock (new max_size) writes).names = pre ++ n :: post at hsplit
    rw [hsplit, List.reverse_append, List.reverse_cons, List.append_assoc,
      List.singleton_append] at hok
    have h1 := (SeqOk_suffix _ _ hok).1
    rw [madeIn_reverse] at h1
    have h2 := madeIn_le pre n.sec
    have h3 : pre.length < SIZE_MOD := by
      rw [hsplit, List.length_append, List.length_cons] at hb
      omega
    rw [Nat.mod_eq_of_lt (by omega)] at h1
    exact h1
  · refine List.Nodup.map_on ?_ hnd
    intro a ha b hb2 hab
    obtain ⟨i, hi⟩ := names_sec_read clock writes max_size a ha
    obtain ⟨j, hj⟩ := names_sec_read clock writes max_size b hb2
    refine pathFieldsOf_inj_on localtime a b ?_ hab
    rw [hi, hj]
    intro hl
    exact hloc i j hl

/-- Witness of C23: a clock that advances every second reading, local time eight hours
ahead of UTC, and writes that each fill a file; two files are made in second 100 and
two in second 101. -/
theorem C23_sequence_numbers_name_files_apart_witness :
    (∀ i j, i ≤ j → (fun k => 100 + k / 2) i ≤ (fun k => 100 + k / 2) j) ∧
    (∀ i j : Nat, localtime_r 28800 ((fun k => 100 + k / 2) i : Nat) =
        localtime_r 28800 ((fun k => 100 + k / 2) j : Nat) →
      (fun k => 100 + k / 2) i = (fun k => 100 + k / 2) j) ∧
    (logAll (fun k => 100 + k / 2) (new 3) [[1, 2, 3], [4, 5, 6], [7, 8, 9]]).files.length <
      9223372036854775808 ∧
    (logAll (fun k => 100 + k / 2) (new 3) [[1, 2, 3], [4, 5, 6], [7, 8, 9]]).files.map
      RollFile.name = [⟨100, 0⟩, ⟨100, 1⟩, ⟨101, 0⟩, ⟨101, 1⟩] ∧
    ((∀ pre n post,
        (logAll (fun k => 100 + k / 2) (new 3) [[1, 2, 3], [4, 5, 6], [7, 8, 9]]).files.map
          RollFile.name = pre ++ n :: post →
        n.seq = (pre.filter (fun m => m.sec = n.sec)).length) ∧
      ((logAll (fun k => 100 + k / 2) (new 3) [[1, 2, 3], [4, 5, 6], [7, 8, 9]]).files.map
        RollFile.name).Nodup ∧
      (((logAll (fun k => 100 + k / 2) (new 3) [[1, 2, 3], [4, 5, 6], [7, 8, 9]]).files.map
        RollFile.name).map (pathFieldsOf (localtime_r 28800))).Nodup ∧
      (∀ off : Int,
        (((logAll (fun k => 100 + k / 2) (new 3) [[1, 2, 3], [4, 5, 6], [7, 8, 9]]).files.map
          RollFile.name).map (pathFields off)).Nodup)) :=
  ⟨fun i j h => Nat.add_le_add_left (Nat.div_le_div_right h) 100,
    fun i j h => (by exact_mod_cast localtime_r_inj 28800 _ _ h), by decide, by decide,
    C23_sequence_numbers_name_files_apart (fun k => 100 + k / 2)
      (fun i j h => Nat.add_le_add_left (Nat.div_le_div_right h) 100) 3
      [[1, 2, 3], [4, 5, 6], [7, 8, 9]] (localtime_r 28800)
      (fun i j h => (by exact_mod_cast localtime_r_inj 28800 _ _ h)) (by decide)⟩

/-- Counterexample to C23: in a time zone one hour ahead of UTC that leaves daylight
saving time at second 1729990800 (01:00 UTC on 27 October 2024), a clock
reads 1729989000 and then, an hour later, 1729992600, which never goes backwards.  A
sink of `max_size` 3 that is given one write of three bytes creates a file at the
first reading and, rotating, one at the second.  Both seconds are 02:30:00 of the same
local day and for each the sequence number is 0, so the two files get the same path:
the directory holds one file. -/
theorem C23_counterexample_repeated_hour_same_path :
    (∀ i j, i ≤ j →
      (fun k => 1729989000 + 3600 * k) i ≤ (fun k => 1729989000 + 3600 * k) j) ∧
    (logAll (fun k => 1729989000 + 3600 * k) (new 3) [[1, 2, 3]]).files =
      [⟨⟨1729989000, 0⟩, [1, 2, 3]⟩, ⟨⟨1729992600, 0⟩, []⟩] ∧
    localtime_r_dst 3600 1729990800 1729989000 = ⟨20023, 2, 30, 0⟩ ∧
    localtime_r_dst 3600 1729990800 1729992600 = ⟨20023, 2, 30, 0⟩ ∧
    pathFieldsOf (localtime_r_dst 3600 1729990800) ⟨1729989000, 0⟩ =
      pathFieldsOf (localtime_r_dst 3600 1729990800) ⟨1729992600, 0⟩ ∧
    ¬ (((logAll (fun k => 1729989000 + 3600 * k) (new 3) [[1, 2, 3]]).files.map
      RollFile.name).map (pathFieldsOf (localtime_r_dst 3600 1729990800))).Nodup ∧
    disk (localtime_r_dst 3600 1729990800) []
        (logAll (fun k => 1729989000 + 3600 * k) (new 3) [[1, 2, 3]]) =
      [((⟨20023, 2, 30, 0⟩, 0), [1, 2, 3])] :=
  ⟨fun i j h => Nat.add_le_add_left (Nat.mul_le_mul_left 3600 h) _, by decide, by decide,
    by decide, by decide, by decide, by decide⟩

/-! ### The ten writes of 200 bytes and the directory -/

end RollBySizeSink

end mylog

/-! ## Files of a `RollByTimeSink` written in two consecutive seconds -/

namespace mylog

namespace RollByTimeSink

end RollByTimeSink

end mylog

/-! ## The registry `LoggerManager` and the builders -/

namespace mylog

namespace LoggerManager

theorem lookup_append_some (l1 l2 : List (String × LoggerPtr)) (name : String) (lp : LoggerPtr)
    (h : l1.lookup name = some lp) : (l1 ++ l2).lookup name = some lp := by
  induction l1 with
  | nil => cases h
  | cons x xs ih =>
    obtain ⟨k, v⟩ := x
    rw [List.cons_append]
    by_cases hk : name = k
    · subst hk
      rw [List.lookup_cons, beq_self_eq_true] at h ⊢
      exact h
    · have hb : (name == k) = false := beq_false_of_ne hk
      rw [List.lookup_cons, hb] at h ⊢
      exact ih h

theorem lookup_none_not_mem (l : List (String × LoggerPtr)) (name : String)
    (h : l.lookup name = none) : name ∉ l.map Prod.fst := by
  induction l with
  | nil => exact List.not_mem_nil _
  | cons x xs ih =>
    obtain ⟨k, v⟩ := x
    by_cases hk : name = k
    · subst hk
      rw [List.lookup_cons, beq_self_eq_true] at h
      cases h
    · have hb : (name == k) = false := beq_false_of_ne hk
      rw [List.lookup_cons, hb] at h
      intro hin
      rw [List.map_cons, List.mem_cons] at hin
      rcases hin with e | hin
      · exact hk e
      · exact ih h hin

theorem addLogger_registered (lm : LoggerManager) (name : String) (logger : LoggerPtr)
    (h : lm.hasLogger name = true) : lm.addLogger name logger = lm := by
  unfold hasLogger at h
  unfold addLogger
  cases hf : lm.find name with
  | none =>
    rw [hf] at h
    cases h
  | some lp => rfl

theorem addLogger_absent (lm : LoggerManager) (name : String) (logger : LoggerPtr)
    (h : lm.find name = none) :
    lm.addLogger name logger = { lm with _loggers := lm._loggers ++ [(name, logger)] } := by
  unfold addLogger emplace
  rw [h]
  rfl

theorem addLogger_cases (lm : LoggerManager) (name : String) (logger : LoggerPtr) :
    lm.addLogger name logger = lm ∨
    (lm.find name = none ∧
      lm.addLogger name logger = { lm with _loggers := lm._loggers ++ [(name, logger)] }) := by
  cases hf : lm.find name with
  | none => exact Or.inr ⟨rfl, addLogger_absent lm name logger hf⟩
  | some lp =>
    left
    apply addLogger_registered
    unfold hasLogger
    rw [hf]

theorem find_addLogger (lm : LoggerManager) (name : String) (logger : LoggerPtr)
    (k : String) (lp : LoggerPtr) (h : lm.find k = some lp) :
    (lm.addLogger name logger).find k = some lp := by
  rcases addLogger_cases lm name logger with e | ⟨_, e⟩
  · rw [e]
    exact h
  · rw [e]
    exact lookup_append_some _ _ _ _ h

theorem root_addLogger (lm : LoggerManager) (name : String) (logger : LoggerPtr) :
    (lm.addLogger name logger)._root_logger = lm._root_logger := by
  rcases addLogger_cases lm name logger with e | ⟨_, e⟩ <;> rw [e]

theorem keys_addLogger (lm : LoggerManager) (name : String) (logger : LoggerPtr)
    (h : (lm._loggers.map Prod.fst).Nodup) :
    ((lm.addLogger name logger)._loggers.map Prod.fst).Nodup := by
  rcases addLogger_cases lm name logger with e | ⟨hf, e⟩
  · rw [e]
    exact h
  · rw [e]
    show ((lm._loggers ++ [(name, logger)]).map Prod.fst).Nodup
    rw [List.map_append, List.nodup_append]
    refine ⟨h, List.nodup_singleton _, ?_⟩
    intro a ha hb
    rw [List.map_singleton, List.mem_singleton] at hb
    subst hb
    exact lookup_none_not_mem _ _ hf ha

end LoggerManager

namespace Process

theorem init_lm (debug : LogLevel) :
    (Process.init debug).lm = { _root_logger := some 0, _loggers := [("root", some 0)] } :=
  rfl

theorem apply_spec (p q : Process) (op : RegistryOp) (h : p.apply op = some q) :
    (∃ ext, q.heap = p.heap ++ ext) ∧
    (q.lm = p.lm ∨ ∃ name logger, q.lm = p.lm.addLogger name logger) := by
  cases op with
  | addLogger name logger =>
    simp only [apply, Option.some.injEq] at h
    subst h
    exact ⟨⟨[], (List.append_nil _).symm⟩, Or.inr ⟨name, logger, rfl⟩⟩
  | globalBuild b =>
    simp only [apply, GlobalLoggerBuilder.build] at h
    split_ifs at h with h1 h2 h3
    · simp only [Option.some.injEq] at h
      subst h
      exact ⟨⟨[], (List.append_nil _).symm⟩, Or.inl rfl⟩
    · simp only [Option.some.injEq] at h
      subst h
      exact ⟨⟨_, rfl⟩, Or.inr ⟨_, _, rfl⟩⟩
  | localBuild b =>
    simp only [apply, LocalLoggerBuilder.build] at h
    split_ifs at h with h1
    simp only [Option.some.injEq] at h
    subst h
    exact ⟨⟨_, rfl⟩, Or.inl rfl⟩

theorem run_spec (ops : List RegistryOp) (p q : Process) (h : p.run ops = some q) :
    (∃ ext, q.heap = p.heap ++ ext) ∧
    q.lm._root_logger = p.lm._root_logger ∧
    (∀ name lp, p.lm.find name = some lp → q.lm.find name = some lp) ∧
    ((p.lm._loggers.map Prod.fst).Nodup → (q.lm._loggers.map Prod.fst).Nodup) := by
  induction ops generalizing p with
  | nil =>
    simp only [run, Option.some.injEq] at h
    subst h
    exact ⟨⟨[], (List.append_nil _).symm⟩, rfl, fun _ _ hh => hh, fun hh => hh⟩
  | cons op rest ih =>
    unfold run at h
    cases ha : p.apply op with
    | none =>
      rw [ha] at h
      cases h
    | some p1 =>
      rw [ha] at h
      obtain ⟨⟨e1, he1⟩, hlm⟩ := apply_spec p p1 op ha
      obtain ⟨⟨e2, he2⟩, hr, hf, hk⟩ := ih p1 h
      refine ⟨⟨e1 ++ e2, by rw [he2, he1, List.append_assoc]⟩, ?_, ?_, ?_⟩
      · rw [hr]
        rcases hlm with e | ⟨n, l, e⟩
        · rw [e]
        · rw [e, LoggerManager.root_addLogger]
      · intro name lp hh
        apply hf
        rcases hlm with e | ⟨n, l, e⟩
        · rw [e]
          exact hh
        · rw [e]
          exact LoggerManager.find_addLogger _ _ _ _ _ hh
      · intro hh
        apply hk
        rcases hlm with e | ⟨n, l, e⟩
        · rw [e]
          exact hh
        · rw [e]
          exact LoggerManager.keys_addLogger _ _ _ hh

end Process

namespace GlobalLoggerBuilder

/-- C26: `GlobalLoggerBuilder::build` with a non-empty name that is registered returns
the pointer registered under that name and leaves the process as it was: no logger is
constructed, the registry and the builder are unchanged.  `addLogger` with a
registered name leaves the registry unchanged.  In every state the registry reaches
from its initial one, a name has one entry: two entries with the same name are the
same entry. -/
theorem C26_registered_name_is_reused (b : LoggerBuilder) (p : Process)
    (hne : b._logger_name ≠ "") (hreg : p.lm.hasLogger b._logger_name = true) :
    (∃ lp, p.lm.find b._logger_name = some lp ∧
      build b p = Outcome.returned { ptr := lp, builder := b, process := p }) ∧
    (∀ logger, p.lm.addLogger b._logger_name logger = p.lm) ∧
    (∀ (debug : LogLevel) (ops : List RegistryOp) (q : Process),
      (Process.init debug).run ops = some q →
      (q.lm._loggers.map Prod.fst).Nodup ∧
      ∀ name l1 l2, (name, l1) ∈ q.lm._loggers → (name, l2) ∈ q.lm._loggers → l1 = l2) := by
  refine ⟨?_, fun logger => LoggerManager.addLogger_registered p.lm _ logger hreg, ?_⟩
  · cases hf : p.lm.find b._logger_name with
    | none =>
      unfold LoggerManager.hasLogger at hreg
      rw [hf] at hreg
      cases hreg
    | some lp =>
      refine ⟨lp, rfl, ?_⟩
      unfold build
      rw [if_neg hne, if_pos hreg]
      unfold LoggerManager.getLogger
      rw [hf]
  · intro debug ops q hq
    have hnd : (q.lm._loggers.map Prod.fst).Nodup :=
      (Process.run_spec ops _ q hq).2.2.2 (by
        rw [Process.init_lm]
        exact List.nodup_singleton _)
    refine ⟨hnd, ?_⟩
    intro name l1 l2 h1 h2
    have := List.inj_on_of_nodup_map hnd h1 h2 rfl
    exact (Prod.mk.injEq _ _ _ _ ▸ this).2

/-- Witness of C26: building "root", which the manager registers at its creation,
returns the root logger and changes nothing. -/
theorem C26_registered_name_is_reused_witness :
    ({ LoggerBuilder.new 0 with _logger_name := "root" } : LoggerBuilder)._logger_name ≠ "" ∧
    (Process.init 0).lm.hasLogger
      ({ LoggerBuilder.new 0 with _logger_name := "root" } : LoggerBuilder)._logger_name = true ∧
    (∃ lp, (Process.init 0).lm.find
        ({ LoggerBuilder.new 0 with _logger_name := "root" } : LoggerBuilder)._logger_name =
          some lp ∧
      build { LoggerBuilder.new 0 with _logger_name := "root" } (Process.init 0) =
        Outcome.returned
          { ptr := lp, builder := { LoggerBuilder.new 0 with _logger_name := "root" },
            process := Process.init 0 }) :=
  ⟨by decide, by decide,
    (C26_registered_name_is_reused { LoggerBuilder.new 0 with _logger_name := "root" }
      (Process.init 0) (by decide) (by decide)).1⟩

end GlobalLoggerBuilder

namespace LoggerManager

/-- C27: in every state `p1` the process reaches from the creation of the manager, the
name "root" is registered and `getLogger("root")` returns what `rootLogger()` returns,
the logger the constructor made; and whatever calls follow, every name registered in
`p1` stays registered with the same pointer, the loggers constructed so far staying
where they are. -/
theorem C27_root_registered_entries_kept (debug : LogLevel) (ops1 ops2 : List RegistryOp)
    (p1 p2 : Process) (h1 : (Process.init debug).run ops1 = some p1)
    (h2 : p1.run ops2 = some p2) :
    (p1.lm.hasLogger "root" = true ∧ p1.lm.getLogger "root" = p1.lm.rootLogger ∧
      p1.lm.rootLogger = some 0 ∧
      p1.heap.head? = some
        { type := LoggerType.LOGGER_SYNC,
          logger := { _logger_name := "root", _limit_level := debug, nsinks := 1 },
          pattern := DEFAULT_PATTERN, max_buf := none }) ∧
    (∀ name lp, p1.lm.find name = some lp → p2.lm.find name = some lp) ∧
    (∀ name, p1.lm.hasLogger name = true →
      p2.lm.hasLogger name = true ∧ p2.lm.getLogger name = p1.lm.getLogger name) ∧
    (∃ ext, p2.heap = p1.heap ++ ext) := by
  obtain ⟨⟨e1, he1⟩, hr1, hf1, _⟩ := Process.run_spec ops1 _ p1 h1
  obtain ⟨he2, _, hf2, _⟩ := Process.run_spec ops2 p1 p2 h2
  have hroot : p1.lm.find "root" = some (some 0) := hf1 "root" (some 0) (by
    rw [Process.init_lm]
    decide)
  refine ⟨⟨?_, ?_, ?_, ?_⟩, hf2, ?_, he2⟩
  · unfold hasLogger
    rw [hroot]
  · unfold getLogger rootLogger
    rw [hroot, hr1]
    rfl
  · unfold rootLogger
    rw [hr1]
    rfl
  · rw [he1]
    rfl
  · intro name hn
    cases hf : p1.lm.find name with
    | none =>
      unfold hasLogger at hn
      rw [hf] at hn
      cases hn
    | some lp =>
      have h3 := hf2 name lp hf
      unfold hasLogger getLogger
      rw [h3, hf]
      exact ⟨rfl, rfl⟩

/-- Witness of C27: a logger "net" is built; then `addLogger` is called with the names
"root" and "net" and an empty pointer, and a logger "db" is built: "root" and "net"
keep their loggers. -/
theorem C27_root_registered_entries_kept_witness :
    (Process.init 0).run
        [RegistryOp.globalBuild { LoggerBuilder.new 0 with _logger_name := "net" }] =
      some
        { heap := [⟨LoggerType.LOGGER_SYNC, ⟨"root", 0, 1⟩, DEFAULT_PATTERN, none⟩,
                   ⟨LoggerType.LOGGER_SYNC, ⟨"net", 0, 1⟩, DEFAULT_PATTERN, none⟩],
          lm := ⟨some 0, [("root", some 0), ("net", some 1)]⟩ } ∧
    (({ heap := [⟨LoggerType.LOGGER_SYNC, ⟨"root", 0, 1⟩, DEFAULT_PATTERN, none⟩,
                 ⟨LoggerType.LOGGER_SYNC, ⟨"net", 0, 1⟩, DEFAULT_PATTERN, none⟩],
        lm := ⟨some 0, [("root", some 0), ("net", some 1)]⟩ } : Process).run
        [RegistryOp.addLogger "root" none, RegistryOp.addLogger "net" none,
          RegistryOp.globalBuild { LoggerBuilder.new 0 with _logger_name := "db" }] =
      some
        { heap := [⟨LoggerType.LOGGER_SYNC, ⟨"root", 0, 1⟩, DEFAULT_PATTERN, none⟩,
                   ⟨LoggerType.LOGGER_SYNC, ⟨"net", 0, 1⟩, DEFAULT_PATTERN, none⟩,
                   ⟨LoggerType.LOGGER_SYNC, ⟨"db", 0, 1⟩, DEFAULT_PATTERN, none⟩],
          lm := ⟨some 0, [("root", some 0), ("net", some 1), ("db", some 2)]⟩ }) ∧
    (∀ name lp,
      (⟨some 0, [("root", some 0), ("net", some 1)]⟩ : LoggerManager).find name = some lp →
      (⟨some 0, [("root", some 0), ("net", some 1), ("db", some 2)]⟩ :
        LoggerManager).find name = some lp) :=
  ⟨by decide, by decide,
    (C27_root_registered_entries_kept 0
      [RegistryOp.globalBuild { LoggerBuilder.new 0 with _logger_name := "net" }]
      [RegistryOp.addLogger "root" none, RegistryOp.addLogger "net" none,
        RegistryOp.globalBuild { LoggerBuilder.new 0 with _logger_name := "db" }]
      { heap := [⟨LoggerType.LOGGER_SYNC, ⟨"root", 0, 1⟩, DEFAULT_PATTERN, none⟩,
                 ⟨LoggerType.LOGGER_SYNC, ⟨"net", 0, 1⟩, DEFAULT_PATTERN, none⟩],
        lm := ⟨some 0, [("root", some 0), ("net", some 1)]⟩ }
      { heap := [⟨LoggerType.LOGGER_SYNC, ⟨"root", 0, 1⟩, DEFAULT_PATTERN, none⟩,
                 ⟨LoggerType.LOGGER_SYNC, ⟨"net", 0, 1⟩, DEFAULT_PATTERN, none⟩,
                 ⟨LoggerType.LOGGER_SYNC, ⟨"db", 0, 1⟩, DEFAULT_PATTERN, none⟩],
        lm := ⟨some 0, [("root", some 0), ("net", some 1), ("db", some 2)]⟩ }
      (by decide) (by decide)).2.1⟩

end LoggerManager

namespace LoggerBuilder

/-- C28: `build()` on a builder whose logger name is empty returns no logger: in
`GlobalLoggerBuilder` the call `abort()` and in `LocalLoggerBuilder` the assertion on
the name end the process, whatever the rest of the builder and the process are. -/
theorem C28_empty_name_never_builds (b : LoggerBuilder) (p : Process)
    (h : b._logger_name = "") :
    GlobalLoggerBuilder.build b p = Outcome.aborted ∧
    LocalLoggerBuilder.build b p = Outcome.aborted ∧
    (∀ r, GlobalLoggerBuilder.build b p ≠ Outcome.returned r) ∧
    (∀ r, LocalLoggerBuilder.build b p ≠ Outcome.returned r) := by
  have hg : GlobalLoggerBuilder.build b p = Outcome.aborted := by
    unfold GlobalLoggerBuilder.build
    rw [if_pos h]
  have hl : LocalLoggerBuilder.build b p = Outcome.aborted := by
    unfold LocalLoggerBuilder.build
    rw [if_pos h]
  refine ⟨hg, hl, ?_, ?_⟩
  · intro r hr
    rw [hg] at hr
    cases hr
  · intro r hr
    rw [hl] at hr
    cases hr

/-- Witness of C28: a builder on which no name was set, in the initial process. -/
theorem C28_empty_name_never_builds_witness :
    (LoggerBuilder.new 0)._logger_name = "" ∧
    GlobalLoggerBuilder.build (LoggerBuilder.new 0) (Process.init 0) = Outcome.aborted ∧
    LocalLoggerBuilder.build (LoggerBuilder.new 0) (Process.init 0) = Outcome.aborted :=
  ⟨rfl, (C28_empty_name_never_builds (LoggerBuilder.new 0) (Process.init 0) rfl).1,
    (C28_empty_name_never_builds (LoggerBuilder.new 0) (Process.init 0) rfl).2.1⟩

end LoggerBuilder

end mylog

/-! ## The line made by `bitlog::Formatter::format` -/

namespace bitlog

theorem format_eq (putTime : Int → List Byte) (m : LogMsg) :
    format putTime m =
      ([91] ++ format_time_point putTime m.time ++ [93, 91] ++ to_string m.level ++ [93]) ++
        (m.payload ++ [10]) := by
  unfold format
  simp only [List.append_assoc, List.cons_append, List.nil_append]

/-- C29: for every message, `Formatter::format` returns "[" time "][" level "]"
followed at once by the payload and "\n": the space that the header comments and
the tests put between the bracket closing the level and the payload is not written,
so the line is one byte shorter than the described one and differs from it.  For the
message of test case 3 (level INFO, payload "hello", 678 ms past
"2000-01-02 03:04:05") the line is "[2000-01-02 03:04:05.678][INFO]hello\n". -/
theorem C29_format_omits_space (putTime : Int → List Byte) (m : LogMsg) :
    format putTime m =
      [91] ++ format_time_point putTime m.time ++ [93, 91] ++ to_string m.level ++ [93] ++
        m.payload ++ [10] ∧
    (format putTime m).length + 1 = (lineWithSpace putTime m).length ∧
    format putTime m ≠ lineWithSpace putTime m ∧
    format (fun _ => [50, 48, 48, 48, 45, 48, 49, 45, 48, 50, 32, 48, 51, 58, 48, 52, 58, 48, 53])
        { name := [114, 111, 111, 116], level := 1, time := 946782245678000000,
          payload := [104, 101, 108, 108, 111] } =
      [91, 50, 48, 48, 48, 45, 48, 49, 45, 48, 50, 32, 48, 51, 58, 48, 52, 58, 48, 53,
        46, 54, 55, 56, 93, 91, 73, 78, 70, 79, 93, 104, 101, 108, 108, 111, 10] := by
  have hlen : (format putTime m).length + 1 = (lineWithSpace putTime m).length := by
    unfold format lineWithSpace
    simp only [List.length_append, List.length_cons, List.length_nil]
    omega
  refine ⟨?_, hlen, ?_, by decide⟩
  · unfold format
    simp only [List.append_assoc, List.cons_append, List.nil_append]
  · intro h
    rw [h] at hlen
    omega

/-- C30: for every payload, bytes of value 0 included, the line `Formatter::format`
returns is "[" time "][" level "]" followed by the payload as it is and one "\n":
the last `payload.size() + 1` bytes of the line are the payload and the "\n".  For
the payload "A\0B" of test case 4, at level ERROR and 7 ms past "2000-01-02 03:04:05",
the line is "[2000-01-02 03:04:05.007][ERROR]A\0B\n". -/
theorem C30_payload_then_newline (putTime : Int → List Byte) (m : LogMsg) :
    format putTime m =
      ([91] ++ format_time_point putTime m.time ++ [93, 91] ++ to_string m.level ++ [93]) ++
        (m.payload ++ [10]) ∧
    (format putTime m).drop ((format putTime m).length - (m.payload.length + 1)) =
      m.payload ++ [10] ∧
    (format putTime m).getLast? = some 10 ∧
    format (fun _ => [50, 48, 48, 48, 45, 48, 49, 45, 48, 50, 32, 48, 51, 58, 48, 52, 58, 48, 53])
        { name := [114, 111, 111, 116], level := 3, time := 946782245007000000,
          payload := [65, 0, 66] } =
      [91, 50, 48, 48, 48, 45, 48, 49, 45, 48, 50, 32, 48, 51, 58, 48, 52, 58, 48, 53,
        46, 48, 48, 55, 93, 91, 69, 82, 82, 79, 82, 93, 65, 0, 66, 10] := by
  have h := format_eq putTime m
  refine ⟨h, ?_, ?_, by decide⟩
  · rw [h, List.length_append]
    have e : (m.payload ++ [10]).length = m.payload.length + 1 := by
      rw [List.length_append, List.length_singleton]
    rw [e, Nat.add_sub_cancel]
    exact List.drop_left _ _
  · rw [h, ← List.append_assoc, List.getLast?_append]
    rfl

end bitlog

/-! ## When `Buffer::push` succeeds, and the passes of the growth loop -/

namespace mylog

namespace Buffer

theorem ensureEnoughSize_entered (b : Buffer) (need : Nat) (hwf : b.WF)
    (hcapB : b._buffer.size < 9223372036854775808) (hlenB : need < 9223372036854775808)
    (hgrow : b._buffer.size - b._writer_idx < need) (hlen : need ≤ b._MAX_BUFFER_SIZE)
    (hcap : b._buffer.size < b._MAX_BUFFER_SIZE) :
    newSize b._MAX_BUFFER_SIZE (max 1 (min THRESHOLD_BUFFER_SIZE b._MAX_BUFFER_SIZE))
        (max 1 (min INCREMENT_BUFFER_SIZE b._MAX_BUFFER_SIZE)) b._writer_idx need
        b._buffer.size =
      min (max (if b._buffer.size < max 1 (min THRESHOLD_BUFFER_SIZE b._MAX_BUFFER_SIZE)
          then min (2 * b._buffer.size) (max 1 (min THRESHOLD_BUFFER_SIZE b._MAX_BUFFER_SIZE))
          else b._buffer.size + max 1 (min INCREMENT_BUFFER_SIZE b._MAX_BUFFER_SIZE))
        (b._writer_idx + need)) b._MAX_BUFFER_SIZE ∧
    b._buffer.size < newSize b._MAX_BUFFER_SIZE
        (max 1 (min THRESHOLD_BUFFER_SIZE b._MAX_BUFFER_SIZE))
        (max 1 (min INCREMENT_BUFFER_SIZE b._MAX_BUFFER_SIZE)) b._writer_idx need
        b._buffer.size ∧
    ¬ (szSub (newSize b._MAX_BUFFER_SIZE
          (max 1 (min THRESHOLD_BUFFER_SIZE b._MAX_BUFFER_SIZE))
          (max 1 (min INCREMENT_BUFFER_SIZE b._MAX_BUFFER_SIZE)) b._writer_idx need
          b._buffer.size) b._writer_idx < need ∧
        newSize b._MAX_BUFFER_SIZE
          (max 1 (min THRESHOLD_BUFFER_SIZE b._MAX_BUFFER_SIZE))
          (max 1 (min INCREMENT_BUFFER_SIZE b._MAX_BUFFER_SIZE)) b._writer_idx need
          b._buffer.size < b._MAX_BUFFER_SIZE) ∧
    (szSub b._buffer.size b._writer_idx < need ∧ b._buffer.size < b._MAX_BUFFER_SIZE) := by
  obtain ⟨w1, w2, w3⟩ := hwf
  have hsub : szSub b._buffer.size b._writer_idx = b._buffer.size - b._writer_idx :=
    szSub_of_le w2 w3
  have hI : max 1 (min INCREMENT_BUFFER_SIZE b._MAX_BUFFER_SIZE) ≤ 10485760 := by
    simp only [INCREMENT_BUFFER_SIZE]
    omega
  have hne := newSize_eq b._MAX_BUFFER_SIZE
    (max 1 (min THRESHOLD_BUFFER_SIZE b._MAX_BUFFER_SIZE))
    (max 1 (min INCREMENT_BUFFER_SIZE b._MAX_BUFFER_SIZE)) b._writer_idx need
    b._buffer.size (by simp only [SIZE_MOD]; omega) (by simp only [SIZE_MOD]; omega)
    (by simp only [SIZE_MOD]; omega)
  have hlt := newSize_lt b._MAX_BUFFER_SIZE
    (max 1 (min THRESHOLD_BUFFER_SIZE b._MAX_BUFFER_SIZE))
    (max 1 (min INCREMENT_BUFFER_SIZE b._MAX_BUFFER_SIZE)) b._writer_idx need
    b._buffer.size
  have hgt : b._buffer.size < newSize b._MAX_BUFFER_SIZE
      (max 1 (min THRESHOLD_BUFFER_SIZE b._MAX_BUFFER_SIZE))
      (max 1 (min INCREMENT_BUFFER_SIZE b._MAX_BUFFER_SIZE)) b._writer_idx need
      b._buffer.size := by
    rw [hne]
    split_ifs <;> omega
  refine ⟨hne, hgt, ?_, ⟨by omega, hcap⟩⟩
  intro hcon
  have hs : szSub (newSize b._MAX_BUFFER_SIZE
      (max 1 (min THRESHOLD_BUFFER_SIZE b._MAX_BUFFER_SIZE))
      (max 1 (min INCREMENT_BUFFER_SIZE b._MAX_BUFFER_SIZE)) b._writer_idx need
      b._buffer.size) b._writer_idx = _ := szSub_of_le (by omega) hlt
  rw [hs] at hcon
  rw [hne] at hcon
  omega

theorem ensureEnoughSize_size (b : Buffer) (need : Nat) (hwf : b.WF)
    (hcapB : b._buffer.size < 9223372036854775808) (hlenB : need < 9223372036854775808) :
    (b._writer_idx + need ≤ max b._buffer.size b._MAX_BUFFER_SIZE →
      b._writer_idx + need ≤ (b.ensureEnoughSize need)._buffer.size) ∧
    (max b._buffer.size b._MAX_BUFFER_SIZE < b._writer_idx + need →
      (b.ensureEnoughSize need)._buffer.size < b._writer_idx + need) := by
  obtain ⟨_, _, _, s4, s5, _, _, _⟩ := ensureEnoughSize_spec b need
  have hw := hwf.2.1
  refine ⟨?_, fun h => lt_of_le_of_lt s5 h⟩
  intro h
  by_cases hfit : b._writer_idx + need ≤ b._buffer.size
  · omega
  · have hmax : b._writer_idx + need ≤ b._MAX_BUFFER_SIZE := by
      rcases le_max_iff.mp h with h1 | h1
      · exact absurd h1 hfit
      · exact h1
    obtain ⟨hne, hgt, hexit, hc⟩ := ensureEnoughSize_entered b need hwf hcapB hlenB
      (by omega) (by omega) (by omega)
    have hens : (b.ensureEnoughSize need)._buffer =
        b._buffer.resize (newSize b._MAX_BUFFER_SIZE
          (max 1 (min THRESHOLD_BUFFER_SIZE b._MAX_BUFFER_SIZE))
          (max 1 (min INCREMENT_BUFFER_SIZE b._MAX_BUFFER_SIZE)) b._writer_idx need
          b._buffer.size) := by
      unfold ensureEnoughSize
      rw [if_neg (by omega)]
      exact growLoop_once _ _ _ _ _ _ _ (by omega) hc hgt hexit
    rw [hens]
    show b._writer_idx + need ≤ newSize _ _ _ _ _ _
    rw [hne]
    omega

theorem push_true_iff (b : Buffer) (d : List Byte) (hwf : b.WF)
    (hcapB : b._buffer.size < 9223372036854775808)
    (hlenB : d.length < 9223372036854775808) :
    ∃ r, b.push d = some r ∧
      (r.1 = true ↔ b._writer_idx + d.length ≤ max b._buffer.size b._MAX_BUFFER_SIZE) := by
  obtain ⟨_, s2, _, s4, s5, s6, _, _⟩ := ensureEnoughSize_spec b d.length
  obtain ⟨e1, e2⟩ := ensureEnoughSize_size b d.length hwf hcapB hlenB
  have hw := hwf.2.1
  have hsub : (b.ensureEnoughSize d.length).writerableSize =
      (b.ensureEnoughSize d.length)._buffer.size - b._writer_idx := by
    unfold writerableSize
    rw [s2]
    exact szSub_of_le (by have := hwf.2.1; omega) (s6 hwf.2.2)
  rw [push_eq, hsub]
  by_cases h : b._writer_idx + d.length ≤ max b._buffer.size b._MAX_BUFFER_SIZE
  · have := e1 h
    rw [if_neg (by omega)]
    exact ⟨_, rfl, fun _ => h, fun _ => rfl⟩
  · have := e2 (not_le.mp h)
    rw [if_pos (by omega)]
    refine ⟨_, rfl, fun hh => ?_, fun hh => absurd hh h⟩
    cases hh

theorem pushAll_within_ceiling (ds : List (List Byte)) (b : Buffer) (hwf : b.WF)
    (hsz : b._buffer.size ≤ b._MAX_BUFFER_SIZE)
    (hmax : b._MAX_BUFFER_SIZE < 9223372036854775808)
    (hfit : b._writer_idx + ds.flatten.length ≤ b._MAX_BUFFER_SIZE) :
    ∃ b1, pushAll b ds = some b1 := by
  induction ds generalizing b with
  | nil => exact ⟨b, rfl⟩
  | cons d rest ih =>
    rw [List.flatten_cons, List.length_append] at hfit
    obtain ⟨r, hr, hiff⟩ := push_true_iff b d hwf (by omega) (by omega)
    have htrue : r.1 = true := hiff.mpr (by omega)
    obtain ⟨flag, b1⟩ := r
    simp only at htrue
    subst htrue
    obtain ⟨p1, _, p3, _, _, _, p7⟩ := push_true_spec hwf hr
    have hb1 : b1._buffer.size ≤ b1._MAX_BUFFER_SIZE := by
      have h5 := (ensureEnoughSize_spec b d.length).2.2.2.2.1
      have e : b1._buffer.size = (b.ensureEnoughSize d.length)._buffer.size := by
        rw [push_eq] at hr
        split_ifs at hr
        · simp only [Option.some.injEq, Prod.mk.injEq] at hr
          exact absurd hr.1 (by decide)
        · simp only [Option.some.injEq, Prod.mk.injEq, true_and] at hr
          rw [← hr]
          rfl
      rw [e, p3]
      omega
    obtain ⟨b2, hb2⟩ := ih b1 p7 hb1 (by rw [p3]; exact hmax) (by rw [p1, p3]; omega)
    refine ⟨b2, ?_⟩
    unfold pushAll
    rw [hr]
    exact hb2

/-- C36: for a buffer satisfying the class invariant, with arena size and `len` below
2^63 (so that no `size_t` operation of `push` wraps), `push(data, len)` returns, and
it returns true exactly when `w + len ≤ max(capacity, ceiling)`, `w`, the capacity and
the ceiling being `_writer_idx`, `_buffer.size()` and `_MAX_BUFFER_SIZE` before the
call.  Hence on a buffer constructed with a ceiling `max_size` below 2^63, every push
of a sequence of total length at most `max_size` returns true, and the buffer then
holds the pushed bytes in order. -/
theorem C36_push_succeeds_iff_room (b : Buffer) (d : List Byte) (hwf : b.WF)
    (hcapB : b._buffer.size < 9223372036854775808)
    (hlenB : d.length < 9223372036854775808) :
    (∃ r, b.push d = some r ∧
      (r.1 = true ↔ b._writer_idx + d.length ≤ max b._buffer.size b._MAX_BUFFER_SIZE)) ∧
    (∀ (max_size : Nat) (ds : List (List Byte)), max_size < 9223372036854775808 →
      ds.flatten.length ≤ max_size →
      ∃ b1, pushAll (Buffer.new max_size) ds = some b1 ∧ b1.readable = ds.flatten) := by
  refine ⟨push_true_iff b d hwf hcapB hlenB, ?_⟩
  intro max_size ds hm hfit
  obtain ⟨b1, hb1⟩ := pushAll_within_ceiling ds (Buffer.new max_size) (WF_new max_size)
    (by
      show min DEFAULT_BUFFER_SIZE max_size ≤ max_size
      exact Nat.min_le_right _ _)
    hm (by
      show 0 + ds.flatten.length ≤ max_size
      omega)
  refine ⟨b1, hb1, ?_⟩
  have h := (pushAll_spec (WF_new max_size) hb1).2
  rw [h]
  have e : (Buffer.new max_size).readable = [] := by
    unfold readable readableSize
    show (Buffer.new max_size)._buffer.span 0 (szSub 0 0) = []
    rfl
  rw [e, List.nil_append]

/-- Witness of C36: a buffer with ceiling 8 whose arena has 4 bytes, 3 of them
written; 5 more bytes fit under the ceiling, 6 do not. -/
theorem C36_push_succeeds_iff_room_witness :
    (Buffer.mk 8 (CharVec.zeros 4) 0 3).WF ∧
    (CharVec.zeros 4).size < 9223372036854775808 ∧
    ([1, 2, 3, 4, 5] : List Byte).length < 9223372036854775808 ∧
    ((Buffer.mk 8 (CharVec.zeros 4) 0 3).push [1, 2, 3, 4, 5]).map Prod.fst = some true ∧
    ((Buffer.mk 8 (CharVec.zeros 4) 0 3).push [1, 2, 3, 4, 5, 6]).map Prod.fst = some false ∧
    (∃ r, (Buffer.mk 8 (CharVec.zeros 4) 0 3).push [1, 2, 3, 4, 5] = some r ∧
      (r.1 = true ↔ 3 + ([1, 2, 3, 4, 5] : List Byte).length ≤ max (CharVec.zeros 4).size 8)) ∧
    (∃ b1, pushAll (Buffer.new 8) [[1, 2, 3], [4, 5], [6, 7, 8]] = some b1 ∧
      b1.readable = [1, 2, 3, 4, 5, 6, 7, 8]) :=
  ⟨by decide, by decide, by decide, by decide, by decide,
    (C36_push_succeeds_iff_room (Buffer.mk 8 (CharVec.zeros 4) 0 3) [1, 2, 3, 4, 5]
      (by decide) (by decide) (by decide)).1,
    (C36_push_succeeds_iff_room (Buffer.mk 8 (CharVec.zeros 4) 0 3) [1, 2, 3, 4, 5]
      (by decide) (by decide) (by decide)).2 8 [[1, 2, 3], [4, 5], [6, 7, 8]]
      (by decide) (by decide)⟩

theorem growRun_spec (lim thr inc w need : Nat) (fuel : Nat) (v : CharVec)
    (h : lim - v.size < fuel) :
    ∃ sizes, growRun lim thr inc w need fuel v =
        some (sizes, growLoop lim thr inc w need fuel v) ∧
      List.Chain (fun a c => a < c) v.size sizes ∧
      (growLoop lim thr inc w need fuel v).size = (sizes.getLast?).getD v.size := by
  induction fuel generalizing v with
  | zero => omega
  | succ f ih =>
    unfold growRun growLoop
    by_cases hc : szSub v.size w < need ∧ v.size < lim
    · rw [if_pos hc, if_pos hc]
      dsimp only
      by_cases hn : newSize lim thr inc w need v.size ≤ v.size
      · rw [if_pos hn, if_pos hn]
        exact ⟨[], rfl, List.Chain.nil, rfl⟩
      · rw [if_neg hn, if_neg hn]
        have hle := newSize_le_lim lim thr inc w need v.size
        obtain ⟨sizes, h1, h2, h3⟩ := ih (v.resize (newSize lim thr inc w need v.size))
          (by
            show lim - newSize lim thr inc w need v.size < f
            omega)
        refine ⟨newSize lim thr inc w need v.size :: sizes, ?_, ?_, ?_⟩
        · rw [h1]
          rfl
        · exact List.Chain.cons (by omega) h2
        · rw [h3]
          cases sizes with
          | nil => rfl
          | cons x xs =>
            rw [List.getLast?_eq_getLast _ (List.cons_ne_nil _ _)]
            rfl
    · rw [if_neg hc, if_neg hc]
      exact ⟨[], rfl, List.Chain.nil, rfl⟩

theorem growRun_once (lim thr inc w need fuel : Nat) (v : CharVec) (hfuel : 1 < fuel)
    (hc : szSub v.size w < need ∧ v.size < lim)
    (hns : v.size < newSize lim thr inc w need v.size)
    (hexit : ¬ (szSub (newSize lim thr inc w need v.size) w < need ∧
      newSize lim thr inc w need v.size < lim)) :
    ∃ final, growRun lim thr inc w need fuel v =
      some ([newSize lim thr inc w need v.size], final) := by
  obtain ⟨f, rfl⟩ : ∃ f, fuel = f + 2 := ⟨fuel - 2, by omega⟩
  refine ⟨v.resize (newSize lim thr inc w need v.size), ?_⟩
  unfold growRun
  rw [if_pos hc]
  dsimp only
  rw [if_neg (by omega)]
  unfold growRun
  have e : (v.resize (newSize lim thr inc w need v.size)).size =
      newSize lim thr inc w need v.size := rfl
  rw [e, if_neg hexit]
  rfl

theorem growRun_none (lim thr inc w need fuel : Nat) (v : CharVec) (hfuel : 0 < fuel)
    (hc : ¬ (szSub v.size w < need ∧ v.size < lim)) :
    growRun lim thr inc w need fuel v = some ([], v) := by
  obtain ⟨f, rfl⟩ : ∃ f, fuel = f + 1 := ⟨fuel - 1, by omega⟩
  unfold growRun
  rw [if_neg hc]

/-- C37: for every buffer state and every request the growth loop of
`ensureEnoughSize` is left after at most `_MAX_BUFFER_SIZE - _buffer.size() + 1`
passes, leaving the arena `ensureEnoughSize` leaves; every size it gives to
`_buffer.resize` is greater than the size before, and the arena ends with the last of
them.  For a buffer satisfying the class invariant, with arena size and request below
2^63, it calls `_buffer.resize` at most once. -/
theorem C37_growth_loop_ends_one_change (b : Buffer) (need : Nat) :
    ∃ sizes, b.ensureEnoughSizeRun need = some (sizes, b.ensureEnoughSize need) ∧
      List.Chain (fun a c => a < c) b._buffer.size sizes ∧
      (b.ensureEnoughSize need)._buffer.size = (sizes.getLast?).getD b._buffer.size ∧
      (b.WF → b._buffer.size < 9223372036854775808 → need < 9223372036854775808 →
        sizes.length ≤ 1) := by
  unfold ensureEnoughSizeRun
  by_cases hn : need > b._MAX_BUFFER_SIZE
  · rw [if_pos hn]
    have e : b.ensureEnoughSize need = b := by
      unfold ensureEnoughSize
      rw [if_pos hn]
    rw [e]
    exact ⟨[], rfl, List.Chain.nil, rfl, fun _ _ _ => Nat.zero_le _⟩
  · rw [if_neg hn]
    dsimp only
    obtain ⟨sizes, h1, h2, h3⟩ := growRun_spec b._MAX_BUFFER_SIZE
      (max 1 (min THRESHOLD_BUFFER_SIZE b._MAX_BUFFER_SIZE))
      (max 1 (min INCREMENT_BUFFER_SIZE b._MAX_BUFFER_SIZE)) b._writer_idx need
      (b._MAX_BUFFER_SIZE - b._buffer.size + 1) b._buffer (by omega)
    have hfe1 := growLoop_fuel_enough b._MAX_BUFFER_SIZE
      (max 1 (min THRESHOLD_BUFFER_SIZE b._MAX_BUFFER_SIZE))
      (max 1 (min INCREMENT_BUFFER_SIZE b._MAX_BUFFER_SIZE)) b._writer_idx need
      (b._MAX_BUFFER_SIZE - b._buffer.size) b._buffer (le_refl _) 1
    have hfe2 := growLoop_fuel_enough b._MAX_BUFFER_SIZE
      (max 1 (min THRESHOLD_BUFFER_SIZE b._MAX_BUFFER_SIZE))
      (max 1 (min INCREMENT_BUFFER_SIZE b._MAX_BUFFER_SIZE)) b._writer_idx need
      (b._MAX_BUFFER_SIZE - b._buffer.size) b._buffer (le_refl _)
      (b._MAX_BUFFER_SIZE - (b._MAX_BUFFER_SIZE - b._buffer.size))
    have hsum : b._MAX_BUFFER_SIZE - b._buffer.size +
        (b._MAX_BUFFER_SIZE - (b._MAX_BUFFER_SIZE - b._buffer.size)) = b._MAX_BUFFER_SIZE := by
      omega
    rw [hsum] at hfe2
    obtain ⟨grown, hgrown⟩ : ∃ grown, grown = growLoop b._MAX_BUFFER_SIZE
        (max 1 (min THRESHOLD_BUFFER_SIZE b._MAX_BUFFER_SIZE))
        (max 1 (min INCREMENT_BUFFER_SIZE b._MAX_BUFFER_SIZE)) b._writer_idx need
        (b._MAX_BUFFER_SIZE - b._buffer.size + 1) b._buffer := ⟨_, rfl⟩
    rw [← hgrown] at h1 h3 hfe1
    have hens : b.ensureEnoughSize need = { b with _buffer := grown } := by
      unfold ensureEnoughSize
      rw [if_neg hn]
      dsimp only
      rw [hfe2, ← hfe1]
    refine ⟨sizes, ?_, h2, ?_, ?_⟩
    · rw [h1, hens]
      rfl
    · rw [hens]
      exact h3
    · intro hwf hcapB hlenB
      by_cases hc : szSub b._buffer.size b._writer_idx < need ∧
          b._buffer.size < b._MAX_BUFFER_SIZE
      · have hsub : szSub b._buffer.size b._writer_idx = b._buffer.size - b._writer_idx :=
          szSub_of_le hwf.2.1 hwf.2.2
        obtain ⟨_, hgt, hexit, _⟩ := ensureEnoughSize_entered b need hwf hcapB hlenB
          (by rw [← hsub]; exact hc.1) (by omega) hc.2
        obtain ⟨final, hf⟩ := growRun_once b._MAX_BUFFER_SIZE
          (max 1 (min THRESHOLD_BUFFER_SIZE b._MAX_BUFFER_SIZE))
          (max 1 (min INCREMENT_BUFFER_SIZE b._MAX_BUFFER_SIZE)) b._writer_idx need
          (b._MAX_BUFFER_SIZE - b._buffer.size + 1) b._buffer (by omega) hc hgt hexit
        rw [hf] at h1
        simp only [Option.some.injEq, Prod.mk.injEq] at h1
        rw [← h1.1]
        exact le_refl _
      · have hf := growRun_none b._MAX_BUFFER_SIZE
          (max 1 (min THRESHOLD_BUFFER_SIZE b._MAX_BUFFER_SIZE))
          (max 1 (min INCREMENT_BUFFER_SIZE b._MAX_BUFFER_SIZE)) b._writer_idx need
          (b._MAX_BUFFER_SIZE - b._buffer.size + 1) b._buffer (by omega) hc
        rw [hf] at h1
        simp only [Option.some.injEq, Prod.mk.injEq] at h1
        rw [← h1.1]
        exact Nat.zero_le _

/-- Witness of C37: an arena of 4 bytes with 3 written under a ceiling of 64; a request
of 5 bytes makes the loop resize once, to 8 bytes. -/
theorem C37_growth_loop_ends_one_change_witness :
    (Buffer.mk 64 (CharVec.zeros 4) 0 3).WF ∧
    ((Buffer.mk 64 (CharVec.zeros 4) 0 3).ensureEnoughSizeRun 5).map Prod.fst = some [8] ∧
    ∃ sizes, (Buffer.mk 64 (CharVec.zeros 4) 0 3).ensureEnoughSizeRun 5 =
        some (sizes, (Buffer.mk 64 (CharVec.zeros 4) 0 3).ensureEnoughSize 5) ∧
      sizes.length ≤ 1 :=
  ⟨by decide, by decide,
    (C37_growth_loop_ends_one_change (Buffer.mk 64 (CharVec.zeros 4) 0 3) 5).elim
      (fun sizes h => ⟨sizes, h.1, h.2.2.2 (by decide) (by decide) (by decide)⟩)⟩

end Buffer

end mylog

/-! ## The buffers at the swap of the worker thread -/

namespace mylog

namespace AsyncLooper

theorem readable_ne_nil {b : Buffer} (hwf : b.WF) (h : b._reader_idx < b._writer_idx) :
    b.readable ≠ [] := by
  rw [Buffer.readable_of_WF hwf]
  intro hnil
  have hl := congrArg List.length hnil
  unfold CharVec.span at hl
  rw [List.length_map, List.length_range, List.length_nil] at hl
  omega

theorem SwapInv_init : Fine.init.SwapInv where
  pro_wf := Buffer.WF_new _
  con_wf := Buffer.WF_new _
  idle := fun _ => ⟨rfl, rfl⟩
  fresh := fun h => by cases h
  loaded := fun h => by rcases h with h | h <;> cases h
  spans := fun _ h => by cases h
  mutex := by decide

theorem swap_taken {t : Fine} (hpc : t.pc = WorkerPc.locked)
    (hne : t.looper._pro_buf.empty = false) :
    t.workerStep =
      { t with looper := { t.looper with _con_buf := t.looper._pro_buf,
                                         _pro_buf := t.looper._con_buf },
               pc := WorkerPc.swapped,
               events := t.events ++ [(WorkerAction.swap, t.workerHoldsMutex)] } := by
  unfold Fine.workerStep
  rw [hpc]
  simp only [hne, Bool.not_false, Bool.true_or, Bool.not_true, Bool.false_eq_true, if_false,
    Bool.and_false]
  rfl

theorem swap_not_taken {t : Fine} (hpc : t.pc = WorkerPc.locked)
    (he : t.looper._pro_buf.empty = true) :
    t.workerStep.looper._pro_buf = t.looper._pro_buf ∧
    t.workerStep.looper._con_buf = t.looper._con_buf ∧
    t.workerStep.looper.delivered = t.looper.delivered ∧
    ((t.workerStep.pc = WorkerPc.waiting ∧ t.workerStep.workerHoldsMutex = false) ∨
      (t.workerStep.pc = WorkerPc.done ∧ t.workerStep.workerHoldsMutex = false)) := by
  unfold Fine.workerStep
  rw [hpc]
  cases hr : t.looper._running <;> simp [he, hr]

theorem SwapInv_workerStep {t : Fine} (h : t.SwapInv) : t.workerStep.SwapInv := by
  cases hpc : t.pc with
  | top =>
    have e : t.workerStep = { t with pc := WorkerPc.locked, workerHoldsMutex := true } := by
      unfold Fine.workerStep
      rw [hpc]
    rw [e]
    exact ⟨h.pro_wf, h.con_wf, fun _ => h.idle (Or.inl hpc), fun hh => (by cases hh),
      fun hh => (by rcases hh with hh | hh <;> cases hh), h.spans,
      ⟨fun _ => Or.inl rfl, fun _ => rfl⟩⟩
  | locked =>
    cases he : t.looper._pro_buf.empty with
    | false =>
      rw [swap_taken hpc he]
      have hidle := h.idle (Or.inr (Or.inl hpc))
      have hlt : t.looper._pro_buf._reader_idx < t.looper._pro_buf._writer_idx := by
        have h1 := h.pro_wf.1
        unfold Buffer.empty at he
        have h2 : t.looper._pro_buf._reader_idx ≠ t.looper._pro_buf._writer_idx := by
          intro hh
          rw [hh] at he
          simp at he
        omega
      refine ⟨h.con_wf, h.pro_wf, fun hh => ?_, fun _ => hidle, fun _ => hlt, h.spans,
        ⟨fun _ => Or.inr rfl, fun _ => h.mutex.mpr (Or.inl hpc)⟩⟩
      rcases hh with hh | hh | hh | hh <;> cases hh
    | true =>
      obtain ⟨e1, e2, e3, hpc1⟩ := swap_not_taken hpc he
      have hidle := h.idle (Or.inr (Or.inl hpc))
      refine ⟨e1 ▸ h.pro_wf, e2 ▸ h.con_wf, fun _ => e2 ▸ hidle, fun hh => ?_, fun hh => ?_,
        e3 ▸ h.spans, ?_⟩
      · rcases hpc1 with ⟨p, _⟩ | ⟨p, _⟩ <;> rw [p] at hh <;> cases hh
      · rcases hpc1 with ⟨p, _⟩ | ⟨p, _⟩ <;> rw [p] at hh <;> rcases hh with hh | hh <;>
          cases hh
      · rcases hpc1 with ⟨p, q⟩ | ⟨p, q⟩
        · rw [p, q]
          decide
        · rw [p, q]
          decide
  | waiting =>
    have e : t.workerStep = { t with pc := WorkerPc.locked, workerHoldsMutex := true } := by
      unfold Fine.workerStep
      rw [hpc]
    rw [e]
    exact ⟨h.pro_wf, h.con_wf, fun _ => h.idle (Or.inr (Or.inr (Or.inl hpc))),
      fun hh => (by cases hh), fun hh => (by rcases hh with hh | hh <;> cases hh), h.spans,
      ⟨fun _ => Or.inl rfl, fun _ => rfl⟩⟩
  | swapped =>
    have e : t.workerStep = { t with pc := WorkerPc.unlocked, workerHoldsMutex := false } := by
      unfold Fine.workerStep
      rw [hpc]
    rw [e]
    refine ⟨h.pro_wf, h.con_wf, fun hh => ?_, fun hh => (by cases hh),
      fun _ => h.loaded (Or.inl hpc), h.spans, ⟨fun hh => (by cases hh), fun hh => ?_⟩⟩
    · rcases hh with hh | hh | hh | hh <;> cases hh
    · rcases hh with hh | hh <;> cases hh
  | unlocked =>
    have e : t.workerStep =
        { t with looper := { t.looper with
                    delivered := t.looper.delivered ++ [t.looper._con_buf.readable] },
                 pc := WorkerPc.delivered,
                 events := t.events ++ [(WorkerAction.callback, t.workerHoldsMutex)] } := by
      unfold Fine.workerStep
      rw [hpc]
    rw [e]
    have hm : t.workerHoldsMutex = false := by
      cases hh : t.workerHoldsMutex with
      | false => rfl
      | true =>
        rcases h.mutex.mp hh with p | p <;> rw [hpc] at p <;> cases p
    refine ⟨h.pro_wf, h.con_wf, fun hh => ?_, fun hh => (by cases hh), fun hh => ?_, ?_,
      ⟨fun hh => ?_, fun hh => ?_⟩⟩
    · rcases hh with hh | hh | hh | hh <;> cases hh
    · rcases hh with hh | hh <;> cases hh
    · intro d hd
      rcases List.mem_append.mp hd with h1 | h1
      · exact h.spans d h1
      · rw [List.mem_singleton] at h1
        rw [h1]
        exact readable_ne_nil h.con_wf (h.loaded (Or.inr hpc))
    · rw [hm] at hh
      cases hh
    · rcases hh with hh | hh <;> cases hh
  | delivered =>
    have e : t.workerStep =
        { t with looper := { t.looper with _con_buf := t.looper._con_buf.reset },
                 pc := WorkerPc.top } := by
      unfold Fine.workerStep
      rw [hpc]
    rw [e]
    have hm : t.workerHoldsMutex = false := by
      cases hh : t.workerHoldsMutex with
      | false => rfl
      | true =>
        rcases h.mutex.mp hh with p | p <;> rw [hpc] at p <;> cases p
    refine ⟨h.pro_wf, ?_, fun _ => ⟨rfl, rfl⟩, fun hh => (by cases hh), fun hh => ?_, h.spans,
      ⟨fun hh => ?_, fun hh => ?_⟩⟩
    · exact ⟨le_refl _, Nat.zero_le _, h.con_wf.2.2⟩
    · rcases hh with hh | hh <;> cases hh
    · rw [hm] at hh
      cases hh
    · rcases hh with hh | hh <;> cases hh
  | done =>
    have e : t.workerStep = t := by
      unfold Fine.workerStep
      rw [hpc]
    rw [e]
    exact h

theorem SwapInv_step {t t1 : Fine} {x : Step} (h : t.SwapInv) (hs : t.step x = some t1) :
    t1.SwapInv := by
  cases x with
  | worker =>
    simp only [Fine.step, Option.some.injEq] at hs
    rw [← hs]
    exact SwapInv_workerStep h
  | push data =>
    simp only [Fine.step] at hs
    split_ifs at hs with hm
    · simp only [Option.some.injEq] at hs
      rw [← hs]
      exact h
    · cases hp : t.looper.push data with
      | none =>
        rw [hp] at hs
        cases hs
      | some r =>
        rw [hp] at hs
        simp only [Option.map_some', Option.some.injEq] at hs
        rw [← hs]
        have hnot : ¬ (t.pc = WorkerPc.locked ∨ t.pc = WorkerPc.swapped) :=
          fun hh => hm (h.mutex.mpr hh)
        unfold AsyncLooper.push at hp
        split_ifs at hp with hrun
        · cases hb : t.looper._pro_buf.push data with
          | none =>
            rw [hb] at hp
            cases hp
          | some q =>
            obtain ⟨flag, b⟩ := q
            have hwf : b.WF := Buffer.WF_push h.pro_wf hb
            rw [hb] at hp
            cases flag with
            | true =>
              simp only [Option.some.injEq] at hp
              rw [← hp]
              refine ⟨hwf, h.con_wf, h.idle, fun hh => absurd (Or.inr hh) hnot, h.loaded,
                h.spans, h.mutex⟩
            | false =>
              simp only [Option.some.injEq] at hp
              rw [← hp]
              refine ⟨hwf, h.con_wf, h.idle, fun hh => absurd (Or.inr hh) hnot, h.loaded,
                h.spans, h.mutex⟩
        · simp only [Option.some.injEq] at hp
          rw [← hp]
          exact h
  | stop =>
    simp only [Fine.step, Option.some.injEq] at hs
    rw [← hs]
    exact ⟨h.pro_wf, h.con_wf, h.idle, h.fresh, h.loaded, h.spans, h.mutex⟩
  | setMax m =>
    simp only [Fine.step] at hs
    split_ifs at hs with hm
    · simp only [Option.some.injEq] at hs
      rw [← hs]
      exact h
    · simp only [Option.some.injEq] at hs
      rw [← hs]
      exact ⟨h.pro_wf, h.con_wf, h.idle, h.fresh, h.loaded, h.spans, h.mutex⟩

theorem SwapInv_run (steps : List Step) {t t1 : Fine} (h : t.SwapInv)
    (hr : t.run steps = some t1) : t1.SwapInv := by
  induction steps generalizing t with
  | nil =>
    simp only [Fine.run, Option.some.injEq] at hr
    rw [← hr]
    exact h
  | cons x xs ih =>
    unfold Fine.run at hr
    cases hs : t.step x with
    | none =>
      rw [hs] at hr
      cases hr
    | some t2 =>
      rw [hs] at hr
      exact ih (SwapInv_step h hs) hr

theorem Fine_run_some (xs : List Step) (t : Fine) : ∃ t1, t.run xs = some t1 := by
  induction xs generalizing t with
  | nil => exact ⟨t, rfl⟩
  | cons x xs ih =>
    have hstep : ∃ t2, t.step x = some t2 := by
      cases x with
      | worker => exact ⟨_, rfl⟩
      | push d =>
        simp only [Fine.step]
        split_ifs
        · exact ⟨_, rfl⟩
        · cases hp : t.looper.push d with
          | none => exact absurd hp (looper_push_ne_none _ d)
          | some r => exact ⟨_, rfl⟩
      | stop => exact ⟨_, rfl⟩
      | setMax m =>
        simp only [Fine.step]
        split_ifs <;> exact ⟨_, rfl⟩
    obtain ⟨t2, h2⟩ := hstep
    obtain ⟨t3, h3⟩ := ih t2
    exact ⟨t3, by simp only [Fine.run, h2, h3]⟩

/-- C38: every schedule of producers, `stop`, `setMaxBufferSize` and statements of the
worker leads to a state `t` in which: when the worker's next statement is the swap
(it is inside the scope of `lock` and the producer buffer is not empty), the consumer
buffer is empty with both cursors at 0; right after the swap the producer buffer is
the old consumer buffer, empty with both cursors at 0, and the consumer buffer is the
old producer buffer and has bytes to read; the span the callback is given is not
empty, and so is every span delivered so far.  With an empty producer buffer the
worker does not swap. -/
theorem C38_buffers_at_swap (steps : List Step) :
    ∃ t, Fine.init.run steps = some t ∧
      (t.pc = WorkerPc.locked → t.looper._pro_buf.empty = false →
        (t.looper._con_buf._reader_idx = 0 ∧ t.looper._con_buf._writer_idx = 0 ∧
          t.looper._con_buf.empty = true) ∧
        t.workerStep.pc = WorkerPc.swapped ∧
        t.workerStep.looper._pro_buf = t.looper._con_buf ∧
        t.workerStep.looper._con_buf = t.looper._pro_buf ∧
        t.workerStep.looper._pro_buf.empty = true ∧
        t.workerStep.looper._con_buf.readable ≠ []) ∧
      (t.pc = WorkerPc.locked → t.looper._pro_buf.empty = true →
        t.workerStep.pc ≠ WorkerPc.swapped ∧
        t.workerStep.looper._pro_buf = t.looper._pro_buf ∧
        t.workerStep.looper._con_buf = t.looper._con_buf) ∧
      (t.pc = WorkerPc.swapped →
        t.looper._pro_buf._reader_idx = 0 ∧ t.looper._pro_buf._writer_idx = 0) ∧
      (t.pc = WorkerPc.unlocked → t.looper._con_buf.readable ≠ [] ∧
        t.workerStep.looper.delivered =
          t.looper.delivered ++ [t.looper._con_buf.readable]) ∧
      (∀ d ∈ t.looper.delivered, d ≠ []) := by
  obtain ⟨t, hr⟩ := Fine_run_some steps Fine.init
  have h := SwapInv_run steps SwapInv_init hr
  refine ⟨t, hr, ?_, ?_, h.fresh, ?_, h.spans⟩
  · intro hpc hne
    have hidle := h.idle (Or.inr (Or.inl hpc))
    have h1 := SwapInv_workerStep h
    rw [swap_taken hpc hne] at h1 ⊢
    refine ⟨⟨hidle.1, hidle.2, ?_⟩, rfl, rfl, rfl, ?_, ?_⟩
    · unfold Buffer.empty
      rw [hidle.1, hidle.2]
      rfl
    · show t.looper._con_buf.empty = true
      unfold Buffer.empty
      rw [hidle.1, hidle.2]
      rfl
    · exact readable_ne_nil h1.con_wf (h1.loaded (Or.inl rfl))
  · intro hpc he
    obtain ⟨e1, e2, _, hpc1⟩ := swap_not_taken hpc he
    refine ⟨?_, e1, e2⟩
    rcases hpc1 with ⟨p, _⟩ | ⟨p, _⟩ <;> rw [p] <;> decide
  · intro hpc
    refine ⟨readable_ne_nil h.con_wf (h.loaded (Or.inr hpc)), ?_⟩
    unfold Fine.workerStep
    rw [hpc]

/-- Witness of C38: a producer stores two bytes and the worker takes the mutex; its
next statement is the swap, after which the consumer buffer holds the two bytes. -/
theorem C38_buffers_at_swap_witness :
    (Fine.init.run [Step.push [104, 105], Step.worker]).map
        (fun t => (t.pc, t.looper._pro_buf.empty, t.workerStep.looper._con_buf.readable,
          t.workerStep.looper._pro_buf._reader_idx,
          t.workerStep.looper._pro_buf._writer_idx)) =
      some (WorkerPc.locked, false, [104, 105], 0, 0) ∧
    ∃ t, Fine.init.run [Step.push [104, 105], Step.worker] = some t ∧
      t.pc = WorkerPc.locked ∧ t.looper._pro_buf.empty = false ∧
      (t.looper._con_buf._reader_idx = 0 ∧ t.looper._con_buf._writer_idx = 0 ∧
        t.looper._con_buf.empty = true) ∧
      t.workerStep.pc = WorkerPc.swapped ∧
      t.workerStep.looper._pro_buf.empty = true ∧
      t.workerStep.looper._con_buf.readable ≠ [] := by
  have h0 : (Fine.init.run [Step.push [104, 105], Step.worker]).map
      (fun t => (t.pc, t.looper._pro_buf.empty)) = some (WorkerPc.locked, false) := by
    decide
  refine ⟨by decide, ?_⟩
  obtain ⟨t, hr, h1, _⟩ := C38_buffers_at_swap [Step.push [104, 105], Step.worker]
  rw [hr] at h0
  simp only [Option.map_some', Option.some.injEq, Prod.mk.injEq] at h0
  obtain ⟨a, b, c, d, e⟩ := h1 h0.1 h0.2
  exact ⟨t, hr, h0.1, h0.2, a, b, e.1, e.2⟩

end AsyncLooper

end mylog

/-! ## The millisecond part of `bitlog::format_time_point` -/

namespace bitlog

set_option maxRecDepth 100000 in
theorem setw_decimal_lt_1000 : ∀ n : Nat, n < 1000 →
    setw 3 (decimal (n : Int)) = threeDigits n := by
  decide

theorem format_time_point_nonneg (putTime : Int → List Byte) (tp : Int) (h : 0 ≤ tp) :
    format_time_point putTime tp =
      putTime (tp / 1000000000) ++ [46] ++ threeDigits (tp / 1000000 % 1000).toNat := by
  unfold format_time_point
  have e1 : Int.tdiv tp 1000000000 = tp / 1000000000 :=
    Int.tdiv_eq_ediv h (by decide)
  have e2 : Int.tdiv tp 1000 = tp / 1000 := Int.tdiv_eq_ediv h (by decide)
  have h2 : 0 ≤ tp / 1000 := by omega
  have e3 : Int.tmod (tp / 1000) 1000000 = tp / 1000 % 1000000 :=
    Int.tmod_eq_emod h2 (by decide)
  have h3 : 0 ≤ tp / 1000 % 1000000 := by omega
  have e4 : Int.tdiv (tp / 1000 % 1000000) 1000 = tp / 1000 % 1000000 / 1000 :=
    Int.tdiv_eq_ediv h3 (by decide)
  have e5 : tp / 1000 % 1000000 / 1000 = tp / 1000000 % 1000 := by omega
  have e6 : tp / 1000000 % 1000 = (((tp / 1000000 % 1000).toNat : Nat) : Int) := by omega
  have h6 : (tp / 1000000 % 1000).toNat < 1000 := by omega
  simp only [e1, e2, e3, e4, e5]
  rw [e6, setw_decimal_lt_1000 _ h6, ← e6]

/-- C31: for every time point `tp` at or after the epoch (a count of nanoseconds),
`format_time_point` returns the text of `put_time` for the second `tp / 10^9`, then
'.', then the milliseconds `tp / 10^6 mod 1000` of that second, the rest cut off, as
exactly three digits with leading zeros: ".007" for 7 ms, ".999" for 999 ms, and when
the part is 999 then one millisecond later the second is the next one and the part
is ".000". -/
theorem C31_three_digit_milliseconds (putTime : Int → List Byte) (tp : Int) (h : 0 ≤ tp) :
    format_time_point putTime tp =
      putTime (tp / 1000000000) ++ [46] ++
        [Fin.ofNat (48 + (tp / 1000000 % 1000).toNat / 100),
         Fin.ofNat (48 + (tp / 1000000 % 1000).toNat / 10 % 10),
         Fin.ofNat (48 + (tp / 1000000 % 1000).toNat % 10)] ∧
    (tp / 1000000 % 1000 = 7 →
      format_time_point putTime tp = putTime (tp / 1000000000) ++ [46, 48, 48, 55]) ∧
    (tp / 1000000 % 1000 = 999 →
      format_time_point putTime tp = putTime (tp / 1000000000) ++ [46, 57, 57, 57] ∧
      (tp + 1000000) / 1000000000 = tp / 1000000000 + 1 ∧
      format_time_point putTime (tp + 1000000) =
        putTime (tp / 1000000000 + 1) ++ [46, 48, 48, 48]) := by
  have hf := format_time_point_nonneg putTime tp h
  refine ⟨hf, ?_, ?_⟩
  · intro h7
    rw [hf, h7, List.append_assoc]
    rfl
  · intro h9
    have hs : (tp + 1000000) / 1000000000 = tp / 1000000000 + 1 := by omega
    have hm : (tp + 1000000) / 1000000 % 1000 = 0 := by omega
    refine ⟨?_, hs, ?_⟩
    · rw [hf, h9, List.append_assoc]
      rfl
    · rw [format_time_point_nonneg putTime (tp + 1000000) (by omega), hm, hs,
        List.append_assoc]
      rfl

/-- Witness of C31: the time points of test cases 1 and 2, 7 ms and 999 ms past the
second 946782245, with the text "2000-01-02 03:04:05" for that second and
"2000-01-02 03:04:06" for the next. -/
theorem C31_three_digit_milliseconds_witness :
    (0 : Int) ≤ 946782245007000000 ∧ (0 : Int) ≤ 946782245999000000 ∧
    (946782245007000000 : Int) / 1000000 % 1000 = 7 ∧
    (946782245999000000 : Int) / 1000000 % 1000 = 999 ∧
    format_time_point
        (fun t => if t = 946782245 then
            [50, 48, 48, 48, 45, 48, 49, 45, 48, 50, 32, 48, 51, 58, 48, 52, 58, 48, 53]
          else [50, 48, 48, 48, 45, 48, 49, 45, 48, 50, 32, 48, 51, 58, 48, 52, 58, 48, 54])
        946782245007000000 =
      (fun t => if t = 946782245 then
            [50, 48, 48, 48, 45, 48, 49, 45, 48, 50, 32, 48, 51, 58, 48, 52, 58, 48, 53]
          else [50, 48, 48, 48, 45, 48, 49, 45, 48, 50, 32, 48, 51, 58, 48, 52, 58, 48, 54])
        ((946782245007000000 : Int) / 1000000000) ++ [46, 48, 48, 55] ∧
    format_time_point
        (fun t => if t = 946782245 then
            [50, 48, 48, 48, 45, 48, 49, 45, 48, 50, 32, 48, 51, 58, 48, 52, 58, 48, 53]
          else [50, 48, 48, 48, 45, 48, 49, 45, 48, 50, 32, 48, 51, 58, 48, 52, 58, 48, 54])
        (946782245999000000 + 1000000) =
      (fun t => if t = 946782245 then
            [50, 48, 48, 48, 45, 48, 49, 45, 48, 50, 32, 48, 51, 58, 48, 52, 58, 48, 53]
          else [50, 48, 48, 48, 45, 48, 49, 45, 48, 50, 32, 48, 51, 58, 48, 52, 58, 48, 54])
        ((946782245999000000 : Int) / 1000000000 + 1) ++ [46, 48, 48, 48] ∧
    format_time_point
        (fun t => if t = 946782245 then
            [50, 48, 48, 48, 45, 48, 49, 45, 48, 50, 32, 48, 51, 58, 48, 52, 58, 48, 53]
          else [50, 48, 48, 48, 45, 48, 49, 45, 48, 50, 32, 48, 51, 58, 48, 52, 58, 48, 54])
        946782246000000000 =
      [50, 48, 48, 48, 45, 48, 49, 45, 48, 50, 32, 48, 51, 58, 48, 52, 58, 48, 54,
        46, 48, 48, 48] :=
  ⟨by decide, by decide, by decide, by decide,
    (C31_three_digit_milliseconds _ 946782245007000000 (by decide)).2.1 (by decide),
    ((C31_three_digit_milliseconds _ 946782245999000000 (by decide)).2.2 (by decide)).2.2,
    by decide⟩

end bitlog

/-! ## The pattern scan of `mylog::Formatter::parsePattern` -/

namespace mylog

namespace Formatter

theorem drop_eq_cons {p : List Char} {pos : Nat} {c : Char} {r : List Char}
    (h : p.drop pos = c :: r) :
    pos < p.length ∧ p.getD pos ' ' = c ∧ p.drop (pos + 1) = r := by
  induction p generalizing pos with
  | nil => simp at h
  | cons x xs ih =>
    cases pos with
    | zero =>
      simp only [List.drop_zero, List.cons.injEq] at h
      exact ⟨Nat.succ_pos _, h.1, by simpa using h.2⟩
    | succ n =>
      simp only [List.drop_succ_cons] at h
      obtain ⟨h1, h2, h3⟩ := ih h
      exact ⟨Nat.succ_lt_succ h1, by simpa using h2, by simpa using h3⟩

theorem drop_eq_nil {p : List Char} {pos : Nat} (h : p.drop pos = []) : ¬ pos < p.length := by
  intro hlt
  have := List.length_drop pos p
  rw [h, List.length_nil] at this
  omega

theorem scan_end (p : List Char) (fuel pos : Nat) (lit : List Char)
    (ord : List (List Char × List Char)) (h : p.drop pos = []) :
    scanLoop p fuel pos lit ord = Scan.finished (flush_literal lit ord) := by
  have hn := drop_eq_nil h
  cases fuel with
  | zero =>
    unfold scanLoop
    rw [if_neg hn]
  | succ f =>
    unfold scanLoop
    rw [if_neg hn]

theorem scan_literal (p : List Char) (f pos : Nat) (lit : List Char)
    (ord : List (List Char × List Char)) (c : Char) (r : List Char)
    (h : p.drop pos = c :: r) (hc : c ≠ '%') :
    scanLoop p (f + 1) pos lit ord = scanLoop p f (pos + 1) (lit ++ [c]) ord := by
  obtain ⟨h1, h2, _⟩ := drop_eq_cons h
  rw [scanLoop, if_pos h1]
  simp only [h2]
  rw [if_pos hc]

theorem scan_lone_percent (p : List Char) (f pos : Nat) (lit : List Char)
    (ord : List (List Char × List Char)) (h : p.drop pos = ['%']) :
    scanLoop p (f + 1) pos lit ord = Scan.rejected := by
  obtain ⟨h1, h2, h3⟩ := drop_eq_cons h
  have h4 := drop_eq_nil h3
  have h5 : pos + 1 = p.length := by omega
  rw [scanLoop, if_pos h1]
  simp only [h2]
  rw [if_neg (by simp), if_pos h5]

theorem scan_escaped (p : List Char) (f pos : Nat) (lit : List Char)
    (ord : List (List Char × List Char)) (r : List Char)
    (h : p.drop pos = '%' :: '%' :: r) :
    scanLoop p (f + 1) pos lit ord = scanLoop p f (pos + 1 + 1) (lit ++ ['%']) ord := by
  obtain ⟨h1, h2, h3⟩ := drop_eq_cons h
  obtain ⟨h4, h5, _⟩ := drop_eq_cons h3
  rw [scanLoop, if_pos h1]
  simp only [h2]
  rw [if_neg (by simp), if_neg (by omega)]
  simp only [h5, if_true]

theorem scan_plain_key (p : List Char) (f pos : Nat) (lit : List Char)
    (ord : List (List Char × List Char)) (k : Char) (r : List Char)
    (h : p.drop pos = '%' :: k :: r) (hk : k ≠ '%') (hr : r.head? ≠ some '{') :
    scanLoop p (f + 1) pos lit ord =
      scanLoop p f (pos + 1 + 1) [] (flush_literal lit ord ++ [([k], [])]) := by
  obtain ⟨h1, h2, h3⟩ := drop_eq_cons h
  obtain ⟨h4, h5, h6⟩ := drop_eq_cons h3
  have hno : ¬ (pos + 1 + 1 < p.length ∧ p.getD (pos + 1 + 1) ' ' = '{') := by
    intro ⟨ha, hb⟩
    cases r with
    | nil => exact drop_eq_nil h6 ha
    | cons x xs =>
      obtain ⟨_, h8, _⟩ := drop_eq_cons h6
      rw [hb] at h8
      rw [← h8] at hr
      exact hr rfl
  rw [scanLoop, if_pos h1]
  simp only [h2]
  rw [if_neg (by simp), if_neg (by omega)]
  simp only [h5]
  rw [if_neg hk, if_neg hno]

theorem scan_braced (p : List Char) (f pos : Nat) (lit : List Char)
    (ord : List (List Char × List Char)) (k : Char) (r : List Char)
    (h : p.drop pos = '%' :: k :: '{' :: r) (hk : k ≠ '%') :
    scanLoop p (f + 1) pos lit ord =
      match firstIndex r '}' with
      | none => Scan.rejected
      | some i =>
        scanLoop p f (pos + 1 + 1 + 1 + i + 1) []
          (flush_literal lit ord ++ [([k], r.take i)]) := by
  obtain ⟨h1, h2, h3⟩ := drop_eq_cons h
  obtain ⟨h4, h5, h6⟩ := drop_eq_cons h3
  obtain ⟨h7, h8, h9⟩ := drop_eq_cons h6
  rw [scanLoop, if_pos h1]
  simp only [h2]
  rw [if_neg (by simp), if_neg (by omega)]
  simp only [h5]
  rw [if_neg hk, if_pos ⟨h7, h8⟩]
  unfold find_first_of
  have e : pos + 1 + 2 = pos + 1 + 1 + 1 := rfl
  rw [e, h9]
  cases hfi : firstIndex r '}' with
  | none => rfl
  | some i =>
    simp only [Option.map_some']
    have e2 : i + (pos + 1 + 1 + 1) - (pos + 1 + 1 + 1) = i := by omega
    have e3 : i + (pos + 1 + 1 + 1) + 1 = pos + 1 + 1 + 1 + i + 1 := by omega
    rw [e2, e3]

theorem meetsError_key (r : List Char) (hr : r.head? ≠ some '{') :
    meetsError ScanState.key r = meetsError ScanState.text r := by
  cases r with
  | nil => rfl
  | cons x xs =>
    have hx : x ≠ '{' := fun hh => hr (by rw [hh]; rfl)
    simp only [meetsError, if_neg hx]

theorem meetsError_brace (r : List Char) :
    meetsError ScanState.brace r =
      match firstIndex r '}' with
      | none => true
      | some i => meetsError ScanState.text (r.drop (i + 1)) := by
  induction r with
  | nil => rfl
  | cons x xs ih =>
    by_cases hx : x = '}'
    · simp only [meetsError, firstIndex, if_pos hx]
      rfl
    · simp only [meetsError, firstIndex, if_neg hx]
      rw [ih]
      cases firstIndex xs '}' with
      | none => rfl
      | some i => rfl

theorem firstIndex_lt (r : List Char) (c : Char) (i : Nat) (h : firstIndex r c = some i) :
    i < r.length := by
  induction r generalizing i with
  | nil => cases h
  | cons x xs ih =>
    unfold firstIndex at h
    split_ifs at h
    · cases h
      exact Nat.succ_pos _
    · cases hf : firstIndex xs c with
      | none =>
        rw [hf] at h
        cases h
      | some k =>
        rw [hf] at h
        cases h
        exact Nat.succ_lt_succ (ih k hf)

theorem scan_refines (p : List Char) (fuel pos : Nat) (lit : List Char)
    (ord : List (List Char × List Char)) (hf : p.length - pos ≤ fuel) :
    scanLoop p fuel pos lit ord ≠ Scan.unfinished ∧
    (scanLoop p fuel pos lit ord = Scan.rejected ↔
      meetsError ScanState.text (p.drop pos) = true) := by
  induction fuel using Nat.strong_induction_on generalizing pos lit ord with
  | _ fuel ih =>
    cases hd : p.drop pos with
    | nil =>
      rw [scan_end p fuel pos lit ord hd]
      exact ⟨fun h => (by cases h), ⟨fun h => (by cases h), fun h => (by cases h)⟩⟩
    | cons c r =>
      obtain ⟨h1, _, h3⟩ := drop_eq_cons hd
      obtain ⟨f, rfl⟩ : ∃ f, fuel = f + 1 := ⟨fuel - 1, by omega⟩
      by_cases hc : c = '%'
      · subst hc
        cases r with
        | nil =>
          rw [scan_lone_percent p f pos lit ord hd]
          exact ⟨fun h => (by cases h), ⟨fun _ => rfl, fun _ => rfl⟩⟩
        | cons k r2 =>
          obtain ⟨h4, _, h6⟩ := drop_eq_cons h3
          by_cases hk : k = '%'
          · subst hk
            rw [scan_escaped p f pos lit ord r2 hd]
            have := ih f (Nat.lt_succ_self f) (pos + 1 + 1) (lit ++ ['%']) ord (by omega)
            rw [h6] at this
            simpa only [meetsError, if_true] using this
          · have hme : meetsError ScanState.text ('%' :: k :: r2) =
                meetsError ScanState.key r2 := by
              simp only [meetsError, if_true, if_neg hk]
            rw [hme]
            cases r2 with
            | nil =>
              rw [scan_plain_key p f pos lit ord k [] hd hk (by simp)]
              have := ih f (Nat.lt_succ_self f) (pos + 1 + 1) []
                (flush_literal lit ord ++ [([k], [])]) (by omega)
              rw [h6] at this
              exact this
            | cons b r3 =>
              by_cases hb : b = '{'
              · subst hb
                obtain ⟨h7, _, h9⟩ := drop_eq_cons h6
                rw [scan_braced p f pos lit ord k r3 hd hk]
                have hkey : meetsError ScanState.key ('{' :: r3) =
                    meetsError ScanState.brace r3 := by
                  simp only [meetsError, if_true]
                rw [hkey, meetsError_brace]
                cases hfi : firstIndex r3 '}' with
                | none => exact ⟨fun h => (by cases h), ⟨fun _ => rfl, fun _ => rfl⟩⟩
                | some i =>
                  have hi := firstIndex_lt r3 '}' i hfi
                  have hlen : r3.length = p.length - (pos + 1 + 1 + 1) := by
                    rw [← h9, List.length_drop]
                  have := ih f (Nat.lt_succ_self f) (pos + 1 + 1 + 1 + i + 1) []
                    (flush_literal lit ord ++ [([k], r3.take i)]) (by omega)
                  have hdd : p.drop (pos + 1 + 1 + 1 + i + 1) = r3.drop (i + 1) := by
                    rw [← h9, List.drop_drop]
                    congr 1
                  rw [hdd] at this
                  exact this
              · have hh : (b :: r3).head? ≠ some '{' := by
                  intro hcon
                  simp only [List.head?_cons, Option.some.injEq] at hcon
                  exact hb hcon
                rw [scan_plain_key p f pos lit ord k (b :: r3) hd hk hh,
                  meetsError_key _ hh]
                have := ih f (Nat.lt_succ_self f) (pos + 1 + 1) []
                  (flush_literal lit ord ++ [([k], [])]) (by omega)
                rw [h6] at this
                exact this
      · rw [scan_literal p f pos lit ord c r hd hc]
        have := ih f (Nat.lt_succ_self f) (pos + 1) (lit ++ [c]) ord (by omega)
        rw [h3] at this
        simpa only [meetsError, if_neg hc] using this

theorem createItem_some (key val : List Char) : ∃ item, createItem key val = some item := by
  unfold createItem
  split_ifs <;> exact ⟨_, rfl⟩

theorem itemLoop_true (ord : List (List Char × List Char)) (items : List FormatItem) :
    (itemLoop ord items).1 = true := by
  induction ord generalizing items with
  | nil => rfl
  | cons kv rest ih =>
    obtain ⟨item, hi⟩ := createItem_some kv.1 kv.2
    unfold itemLoop
    rw [hi]
    exact ih _

/-- C39: `parsePattern` returns for every pattern, and it returns false exactly when
the left-to-right reading of the pattern meets a '%' that is the last character of
the pattern, or a directive character followed by '{' with no '}' after it
(`meetsError`); for every other pattern it returns true. -/
theorem C39_parsePattern_false_iff (pattern : List Char) :
    ∃ r, parsePattern pattern = some r ∧
      (r.1 = false ↔ meetsError ScanState.text pattern = true) ∧
      (r.1 = true ↔ meetsError ScanState.text pattern = false) := by
  obtain ⟨h1, h2⟩ := scan_refines pattern pattern.length 0 [] [] (by omega)
  rw [List.drop_zero] at h2
  unfold parsePattern
  cases hs : scanLoop pattern pattern.length 0 [] [] with
  | rejected =>
    have hm := h2.mp hs
    refine ⟨(false, []), rfl, ⟨fun _ => hm, fun _ => rfl⟩, ⟨fun h => (by cases h), fun h => ?_⟩⟩
    rw [hm] at h
    cases h
  | finished ord =>
    have hm : meetsError ScanState.text pattern = false := by
      cases hh : meetsError ScanState.text pattern with
      | false => rfl
      | true =>
        have := h2.mpr hh
        rw [hs] at this
        cases this
    have ht := itemLoop_true ord []
    refine ⟨itemLoop ord [], rfl, ⟨fun h => ?_, fun h => ?_⟩, ⟨fun _ => hm, fun _ => ht⟩⟩
    · rw [ht] at h
      cases h
    · rw [hm] at h
      cases h
  | unfinished => exact absurd hs h1

end Formatter

end mylog

/-! ## What `mylog::Formatter` renders -/

namespace mylog

namespace Formatter

theorem itemLoop_acc (ord : List (List Char × List Char)) (items : List FormatItem) :
    itemLoop ord items = (true, items ++ (itemLoop ord []).2) := by
  induction ord generalizing items with
  | nil => simp [itemLoop]
  | cons kv rest ih =>
    obtain ⟨item, hi⟩ := createItem_some kv.1 kv.2
    unfold itemLoop
    rw [hi]
    simp only
    rw [ih (items ++ [item]), ih ([] ++ [item])]
    simp

theorem itemLoop_snoc (ord : List (List Char × List Char)) (k v : List Char)
    (item : FormatItem) (hi : createItem k v = some item) :
    (itemLoop (ord ++ [(k, v)]) []).2 = (itemLoop ord []).2 ++ [item] := by
  induction ord with
  | nil =>
    simp only [List.nil_append, itemLoop, hi]
  | cons kv rest ih =>
    obtain ⟨x, hx⟩ := createItem_some kv.1 kv.2
    simp only [List.cons_append, itemLoop, hx]
    show (itemLoop (rest ++ [(k, v)]) ([] ++ [x])).2 = _
    rw [itemLoop_acc (rest ++ [(k, v)]) ([] ++ [x]), itemLoop_acc rest ([] ++ [x])]
    simp only
    rw [ih]
    simp

theorem rendered_snoc (env : FormatEnv) (msg : LogMsg) (ord : List (List Char × List Char))
    (k v : List Char) (item : FormatItem) (hi : createItem k v = some item) :
    rendered env msg (ord ++ [(k, v)]) = rendered env msg ord ++ item.format env msg := by
  unfold rendered
  rw [itemLoop_snoc ord k v item hi, List.flatMap_append]
  simp

theorem rendered_flush (env : FormatEnv) (msg : LogMsg) (lit : List Char)
    (ord : List (List Char × List Char)) :
    rendered env msg (flush_literal lit ord) = rendered env msg ord ++ lit := by
  unfold flush_literal
  by_cases h : lit = []
  · rw [if_neg (by simpa using h), h, List.append_nil]
  · have hc : createItem ['O', 'T', 'H', 'E', 'R'] lit =
        some (FormatItem.OtherFormatItem lit) := rfl
    rw [if_pos h, rendered_snoc env msg ord _ _ (FormatItem.OtherFormatItem lit) hc]
    rfl

theorem head_pattern (rest : List Piece) (h : rest.head? ≠ some (Piece.text '{')) :
    (rest.flatMap Piece.pattern).head? ≠ some '{' := by
  cases rest with
  | nil => simp
  | cons q qs =>
    cases q with
    | text c =>
      have hc : c ≠ '{' := by
        intro hh
        apply h
        rw [hh]
        rfl
      simp only [List.flatMap_cons, Piece.pattern, List.singleton_append, List.head?_cons,
        ne_eq, Option.some.injEq]
      exact hc
    | percent => simp [Piece.pattern]
    | payload => simp [Piece.pattern]
    | newline => simp [Piece.pattern]

theorem scan_pieces (p : List Char) (ps : List Piece) (fuel pos : Nat) (lit : List Char)
    (ord : List (List Char × List Char)) (hd : p.drop pos = ps.flatMap Piece.pattern)
    (hok : piecesOk ps = true) (hf : p.length - pos ≤ fuel) :
    ∃ ord1, scanLoop p fuel pos lit ord = Scan.finished ord1 ∧
      ∀ env msg, rendered env msg ord1 =
        rendered env msg ord ++ lit ++ ps.flatMap (Piece.render msg) := by
  induction ps generalizing fuel pos lit ord with
  | nil =>
    refine ⟨_, scan_end p fuel pos lit ord hd, fun env msg => ?_⟩
    rw [rendered_flush]
    simp
  | cons q rest ih =>
    have hfuel : ∃ f, fuel = f + 1 := by
      have hl := List.length_drop pos p
      rw [hd] at hl
      cases q <;> simp [Piece.pattern] at hl <;> exact ⟨fuel - 1, by omega⟩
    obtain ⟨f, rfl⟩ := hfuel
    cases q with
    | text c =>
      simp only [piecesOk, Bool.and_eq_true, decide_eq_true_eq] at hok
      have hd1 : p.drop pos = c :: rest.flatMap Piece.pattern := by
        rw [hd]
        rfl
      obtain ⟨_, _, h3⟩ := drop_eq_cons hd1
      rw [scan_literal p f pos lit ord c _ hd1 hok.1]
      obtain ⟨ord1, h1, h2⟩ := ih f (pos + 1) (lit ++ [c]) ord h3 hok.2 (by omega)
      refine ⟨ord1, h1, fun env msg => ?_⟩
      rw [h2 env msg]
      simp [Piece.render]
    | percent =>
      simp only [piecesOk] at hok
      have hd1 : p.drop pos = '%' :: '%' :: rest.flatMap Piece.pattern := by
        rw [hd]
        rfl
      obtain ⟨_, _, h3⟩ := drop_eq_cons hd1
      obtain ⟨_, _, h6⟩ := drop_eq_cons h3
      rw [scan_escaped p f pos lit ord _ hd1]
      obtain ⟨ord1, h1, h2⟩ := ih f (pos + 1 + 1) (lit ++ ['%']) ord h6 hok (by omega)
      refine ⟨ord1, h1, fun env msg => ?_⟩
      rw [h2 env msg]
      simp [Piece.render]
    | payload =>
      simp only [piecesOk, Bool.and_eq_true, decide_eq_true_eq] at hok
      have hd1 : p.drop pos = '%' :: 'm' :: rest.flatMap Piece.pattern := by
        rw [hd]
        rfl
      obtain ⟨_, _, h3⟩ := drop_eq_cons hd1
      obtain ⟨_, _, h6⟩ := drop_eq_cons h3
      rw [scan_plain_key p f pos lit ord 'm' _ hd1 (by decide) (head_pattern rest hok.1)]
      obtain ⟨ord1, h1, h2⟩ := ih f (pos + 1 + 1) []
        (flush_literal lit ord ++ [(['m'], [])]) h6 hok.2 (by omega)
      refine ⟨ord1, h1, fun env msg => ?_⟩
      rw [h2 env msg, rendered_snoc env msg _ _ _ FormatItem.MsgFormatItem (by decide),
        rendered_flush]
      simp [Piece.render, FormatItem.format]
    | newline =>
      simp only [piecesOk, Bool.and_eq_true, decide_eq_true_eq] at hok
      have hd1 : p.drop pos = '%' :: 'n' :: rest.flatMap Piece.pattern := by
        rw [hd]
        rfl
      obtain ⟨_, _, h3⟩ := drop_eq_cons hd1
      obtain ⟨_, _, h6⟩ := drop_eq_cons h3
      rw [scan_plain_key p f pos lit ord 'n' _ hd1 (by decide) (head_pattern rest hok.1)]
      obtain ⟨ord1, h1, h2⟩ := ih f (pos + 1 + 1) []
        (flush_literal lit ord ++ [(['n'], [])]) h6 hok.2 (by omega)
      refine ⟨ord1, h1, fun env msg => ?_⟩
      rw [h2 env msg, rendered_snoc env msg _ _ _ FormatItem.NLineFormatItem (by decide),
        rendered_flush]
      simp [Piece.render, FormatItem.format]

/-- C32, as the code has it: with the final directive completed to "%n", the pattern of
test_formatter is accepted by the constructor, and `format` renders "[", the time in
the format "%Y-%m-%d %H:%M:%S", "][", the thread id, "][", the logger name, "][", the
file, ":", the line, "][", the level, "]", a tab, the payload and "\r\n"; the pattern
as the test writes it, which ends in a lone '%', makes `parsePattern` return false. -/
theorem C32_pattern_completed_renders_all_fields (env : FormatEnv) (msg : LogMsg) :
    parsePattern "[%d{%Y-%m-%d %H:%M:%S}][%t][%c][%f:%l][%p]%T%m%".toList =
      some (false, []) ∧
    ∃ f, Formatter.new "[%d{%Y-%m-%d %H:%M:%S}][%t][%c][%f:%l][%p]%T%m%n".toList = some f ∧
      f.format env msg =
        ['['] ++ env.strftime "%Y-%m-%d %H:%M:%S".toList msg._ctime ++ [']', '['] ++
          env.tidText msg._tid ++ [']', '['] ++ msg._logger.toList ++ [']', '['] ++
          msg._file.toList ++ [':'] ++ Nat.toDigits 10 msg._line ++ [']', '['] ++
          env.levelText msg._level ++ [']'] ++ ['\t'] ++ msg._payload.toList ++
          ['\r', '\n'] := by
  refine ⟨by decide, ?_⟩
  have hp : Formatter.new "[%d{%Y-%m-%d %H:%M:%S}][%t][%c][%f:%l][%p]%T%m%n".toList = some
      { _pattern := "[%d{%Y-%m-%d %H:%M:%S}][%t][%c][%f:%l][%p]%T%m%n".toList,
        _items := [FormatItem.OtherFormatItem ['['],
          FormatItem.TimeFormatItem "%Y-%m-%d %H:%M:%S".toList,
          FormatItem.OtherFormatItem [']', '['], FormatItem.ThreadFormatItem,
          FormatItem.OtherFormatItem [']', '['], FormatItem.LoggerFormatItem,
          FormatItem.OtherFormatItem [']', '['], FormatItem.FileFormatItem,
          FormatItem.OtherFormatItem [':'], FormatItem.LineFormatItem,
          FormatItem.OtherFormatItem [']', '['], FormatItem.LevelFormatItem,
          FormatItem.OtherFormatItem [']'], FormatItem.TabFormatItem,
          FormatItem.MsgFormatItem, FormatItem.NLineFormatItem] } := by
    decide
  refine ⟨_, hp, ?_⟩
  simp [Formatter.format, FormatItem.format]

/-- Counterexample to C32: the pattern of test_formatter ends in a '%' that no
character follows; `parsePattern` returns false on it and the assertion of the
constructor fails. -/
theorem C32_counterexample_test_pattern_rejected :
    parsePattern "[%d{%Y-%m-%d %H:%M:%S}][%t][%c][%f:%l][%p]%T%m%".toList =
      some (false, []) ∧
    Formatter.new "[%d{%Y-%m-%d %H:%M:%S}][%t][%c][%f:%l][%p]%T%m%".toList = none := by
  decide

theorem brace_after_payload (env : FormatEnv) (msg : LogMsg) :
    (∃ f, Formatter.new "%m{x}%n".toList = some f ∧
      f.format env msg = msg._payload.toList ++ ['\r', '\n']) ∧
    Formatter.new ['%', 'm', '{'] = none := by
  refine ⟨⟨⟨"%m{x}%n".toList, [FormatItem.MsgFormatItem,
    FormatItem.NLineFormatItem]⟩, by decide, ?_⟩, by decide⟩
  simp [Formatter.format, FormatItem.format]

/-- C33, as the code has it: for the pattern "HEAD%%TAIL %m%n" and any record,
`format` returns "HEAD%TAIL ", the payload and "\r\n".  For a pattern made of literal characters,
"%%", "%m" and "%n" in which no literal '{' comes directly after a "%m" or a "%n",
the constructor accepts the pattern and `format` returns the literal characters as
they are, one '%' for each "%%", the payload for each "%m" and "\r\n" for each "%n",
in the order of the pattern.  A '{' directly after "%m" or "%n" is not literal text:
it opens the argument of the directive, so "%m{x}%n" is rendered as the payload and
"\r\n" for every record, and the constructor rejects "%m{", whose '{' is not
closed. -/
theorem C33_literal_escape_payload_newline (env : FormatEnv) (msg : LogMsg) :
    (∃ f, Formatter.new "HEAD%%TAIL %m%n".toList = some f ∧
      f.format env msg = "HEAD%TAIL ".toList ++ msg._payload.toList ++ ['\r', '\n']) ∧
    (∀ ps : List Piece, piecesOk ps = true →
      ∃ f, Formatter.new (ps.flatMap Piece.pattern) = some f ∧
        f.format env msg = ps.flatMap (Piece.render msg)) ∧
    (∃ f, Formatter.new "%m{x}%n".toList = some f ∧
      f.format env msg = msg._payload.toList ++ ['\r', '\n']) ∧
    Formatter.new ['%', 'm', '{'] = none := by
  have hgen : ∀ ps : List Piece, piecesOk ps = true →
      ∃ f, Formatter.new (ps.flatMap Piece.pattern) = some f ∧
        f.format env msg = ps.flatMap (Piece.render msg) := by
    intro ps hok
    obtain ⟨ord1, h1, h2⟩ := scan_pieces (ps.flatMap Piece.pattern) ps
      (ps.flatMap Piece.pattern).length 0 [] [] (List.drop_zero _) hok (by omega)
    have ht := itemLoop_true ord1 []
    have hpp : parsePattern (ps.flatMap Piece.pattern) = some (true, (itemLoop ord1 []).2) := by
      unfold parsePattern
      rw [h1]
      simp only
      rw [← ht]
    refine ⟨{ _pattern := ps.flatMap Piece.pattern, _items := (itemLoop ord1 []).2 }, ?_, ?_⟩
    · unfold Formatter.new
      rw [hpp]
    · have := h2 env msg
      unfold rendered at this
      unfold Formatter.format
      rw [this]
      rfl
  refine ⟨?_, hgen, brace_after_payload env msg⟩
  have hp : Formatter.new "HEAD%%TAIL %m%n".toList = some
      { _pattern := "HEAD%%TAIL %m%n".toList,
        _items := [FormatItem.OtherFormatItem "HEAD%TAIL ".toList, FormatItem.MsgFormatItem,
          FormatItem.NLineFormatItem] } := by
    decide
  refine ⟨_, hp, ?_⟩
  simp [Formatter.format, FormatItem.format]

/-- Witness of C33: the pieces of "a%%b%m%n". -/
theorem C33_literal_escape_payload_newline_witness :
    piecesOk [Piece.text 'a', Piece.percent, Piece.text 'b', Piece.payload, Piece.newline] =
      true ∧
    [Piece.text 'a', Piece.percent, Piece.text 'b', Piece.payload,
      Piece.newline].flatMap Piece.pattern = "a%%b%m%n".toList ∧
    ∃ f, Formatter.new ([Piece.text 'a', Piece.percent, Piece.text 'b', Piece.payload,
        Piece.newline].flatMap Piece.pattern) = some f ∧
      f.format ⟨fun _ _ => [], fun _ => [], fun _ => []⟩ ⟨0, 0, 0, 0, "", "", "hi"⟩ =
        [Piece.text 'a', Piece.percent, Piece.text 'b', Piece.payload,
          Piece.newline].flatMap (Piece.render ⟨0, 0, 0, 0, "", "", "hi"⟩) :=
  ⟨by decide, by decide,
    (C33_literal_escape_payload_newline ⟨fun _ _ => [], fun _ => [], fun _ => []⟩
      ⟨0, 0, 0, 0, "", "", "hi"⟩).2.1 _ (by decide)⟩

/-- Counterexample to C33, which has literal text rendered verbatim in general: the
pattern "%m{x}%n" is "%m", the literal characters '{', 'x', '}' and "%n", so the claim
has it rendered as the payload, "{x}" and "\r\n"; the constructor accepts it and, for a
record whose payload is "hi", `format` returns "hi\r\n", without the "{x}".  The pattern
"%m{" is rejected.  So it is not so that every pattern of literal characters, "%%", "%m"
and "%n" is accepted and rendered piece by piece. -/
theorem C33_counterexample_brace_after_payload_not_literal :
    [Piece.payload, Piece.text '{', Piece.text 'x', Piece.text '}',
      Piece.newline].flatMap Piece.pattern = "%m{x}%n".toList ∧
    [Piece.payload, Piece.text '{', Piece.text 'x', Piece.text '}',
      Piece.newline].flatMap (Piece.render ⟨0, 0, 0, 0, "", "", "hi"⟩) =
        "hi{x}\r\n".toList ∧
    (∃ f, Formatter.new "%m{x}%n".toList = some f ∧
      f.format ⟨fun _ _ => [], fun _ => [], fun _ => []⟩ ⟨0, 0, 0, 0, "", "", "hi"⟩ =
        "hi\r\n".toList) ∧
    Formatter.new ['%', 'm', '{'] = none ∧
    ¬ ∀ ps : List Piece, ∃ f, Formatter.new (ps.flatMap Piece.pattern) = some f ∧
      f.format ⟨fun _ _ => [], fun _ => [], fun _ => []⟩ ⟨0, 0, 0, 0, "", "", "hi"⟩ =
        ps.flatMap (Piece.render ⟨0, 0, 0, 0, "", "", "hi"⟩) := by
  refine ⟨by decide, by decide, ⟨⟨"%m{x}%n".toList, [FormatItem.MsgFormatItem,
    FormatItem.NLineFormatItem]⟩, by decide, by decide⟩, by decide, ?_⟩
  intro h
  obtain ⟨f, h1, h2⟩ := h [Piece.payload, Piece.text '{']
  have e : Formatter.new ([Piece.payload, Piece.text '{'].flatMap Piece.pattern) = none := by
    decide
  rw [e] at h1
  cases h1

/-- C40, as the code has it: `createItem` never returns an empty pointer, and for a
key outside d, t, c, f, l, p, T, m, n it makes an `OtherFormatItem` holding the
argument of the directive; so `parsePattern` returns true on "%x", the constructor
succeeds and `format` renders the directive as nothing, and "%x{abc}" as "abc". -/
theorem C40_unknown_key_is_accepted (env : FormatEnv) (msg : LogMsg) :
    (∀ key val, createItem key val ≠ none) ∧
    (∀ (k : Char) (val : List Char), k ∉ ['d', 't', 'c', 'f', 'l', 'p', 'T', 'm', 'n'] →
      createItem [k] val = some (FormatItem.OtherFormatItem val)) ∧
    parsePattern "%x".toList = some (true, [FormatItem.OtherFormatItem []]) ∧
    (∃ f, Formatter.new "%x".toList = some f ∧ f.format env msg = []) ∧
    (∃ f, Formatter.new "%x{abc}".toList = some f ∧ f.format env msg = ['a', 'b', 'c']) := by
  refine ⟨?_, ?_, by decide, ?_, ?_⟩
  · intro key val h
    obtain ⟨item, hi⟩ := createItem_some key val
    rw [hi] at h
    cases h
  · intro k val hk
    simp only [List.mem_cons, List.mem_singleton, List.not_mem_nil, or_false, not_or] at hk
    obtain ⟨h1, h2, h3, h4, h5, h6, h7, h8, h9⟩ := hk
    unfold createItem
    simp [h1, h2, h3, h4, h5, h6, h7, h8, h9]
  · have hp : Formatter.new "%x".toList = some
        { _pattern := "%x".toList, _items := [FormatItem.OtherFormatItem []] } := by
      decide
    exact ⟨_, hp, by simp [Formatter.format, FormatItem.format]⟩
  · have hp : Formatter.new "%x{abc}".toList = some
        { _pattern := "%x{abc}".toList,
          _items := [FormatItem.OtherFormatItem ['a', 'b', 'c']] } := by
      decide
    exact ⟨_, hp, by simp [Formatter.format, FormatItem.format]⟩

end Formatter

end mylog

/-! ## The sorting functions of `stage0/cmake_stu` -/

namespace cmake_stu

theorem set_hole (p : List Int) (x y : Int) (s : List Int) :
    (p ++ x :: s).set p.length y = p ++ y :: s := by
  induction p with
  | nil => rfl
  | cons a p ih =>
    simp only [List.cons_append, List.length_cons, List.set_cons_succ]
    rw [ih]

theorem getD_hole (p : List Int) (x : Int) (s : List Int) :
    (p ++ x :: s).getD p.length 0 = x := by
  induction p with
  | nil => rfl
  | cons a p ih =>
    simp only [List.cons_append, List.length_cons, List.getD_cons_succ]
    exact ih

theorem sorted_snoc (q : List Int) (y : Int) (hq : q.Sorted (· ≤ ·)) (hy : ∀ z ∈ q, z ≤ y) :
    (q ++ [y]).Sorted (· ≤ ·) := by
  unfold List.Sorted at hq ⊢
  rw [List.pairwise_append]
  refine ⟨hq, List.pairwise_singleton _ _, ?_⟩
  intro z hz w hw
  rw [List.mem_singleton] at hw
  rw [hw]
  exact hy z hz

theorem sorted_snoc_le (p : List Int) (y : Int) (h : (p ++ [y]).Sorted (· ≤ ·)) :
    p.Sorted (· ≤ ·) ∧ ∀ z ∈ p, z ≤ y := by
  unfold List.Sorted at h ⊢
  rw [List.pairwise_append] at h
  exact ⟨h.1, fun z hz => h.2.2 z hz y (List.mem_singleton_self y)⟩

theorem insertKey_spec (key : Int) (p : List Int) :
    ∀ (x : Int) (s : List Int), ∃ q, insertKey key p.length (p ++ x :: s) = q ++ s ∧
      q.Perm (key :: p) ∧ (p.Sorted (· ≤ ·) → q.Sorted (· ≤ ·)) := by
  induction p using List.reverseRecOn with
  | nil =>
    intro x s
    exact ⟨[key], rfl, List.Perm.refl _, fun _ => List.sorted_singleton key⟩
  | append_singleton p y ih =>
    intro x s
    have hlen : (p ++ [y]).length = p.length + 1 := by simp
    have hg : (p ++ [y] ++ x :: s).getD p.length 0 = y := by
      rw [List.append_assoc]
      exact getD_hole p y (x :: s)
    rw [hlen]
    unfold insertKey
    rw [hg]
    by_cases hy : y > key
    · rw [if_pos hy]
      have hs : (p ++ [y] ++ x :: s).set (p.length + 1) y = p ++ y :: (y :: s) := by
        rw [← hlen, set_hole]
        simp
      rw [hs]
      obtain ⟨q, h1, h2, h3⟩ := ih y (y :: s)
      refine ⟨q ++ [y], ?_, ?_, ?_⟩
      · rw [h1]
        simp
      · have : (q ++ [y]).Perm ((key :: p) ++ [y]) := List.Perm.append_right [y] h2
        simpa using this
      · intro hsort
        obtain ⟨hp, hle⟩ := sorted_snoc_le p y hsort
        refine sorted_snoc q y (h3 hp) ?_
        intro z hz
        rcases List.mem_cons.mp (h2.subset hz) with e | e
        · rw [e]
          exact le_of_lt hy
        · exact hle z e
    · rw [if_neg hy]
      have hs : (p ++ [y] ++ x :: s).set (p.length + 1) key = p ++ [y] ++ key :: s := by
        rw [← hlen, set_hole]
      rw [hs]
      refine ⟨p ++ [y] ++ [key], by simp, ?_, ?_⟩
      · exact (List.perm_append_singleton key (p ++ [y]))
      · intro hsort
        obtain ⟨_, hle⟩ := sorted_snoc_le p y hsort
        refine sorted_snoc (p ++ [y]) key hsort ?_
        intro z hz
        rcases List.mem_append.mp hz with e | e
        · have := hle z e
          omega
        · rw [List.mem_singleton] at e
          rw [e]
          omega

theorem insertion_prefix (a : List Int) (m : Nat) (hm : m + 1 ≤ a.length) :
    ∃ q s, (List.range' 1 m).foldl (fun a i => insertKey (a.getD i 0) i a) a = q ++ s ∧
      q.length = m + 1 ∧ q.Sorted (· ≤ ·) ∧ (q ++ s).Perm a := by
  induction m with
  | zero =>
    cases a with
    | nil => simp at hm
    | cons x xs =>
      exact ⟨[x], xs, rfl, rfl, List.sorted_singleton x, List.Perm.refl _⟩
  | succ m ih =>
    obtain ⟨q, s, h1, h2, h3, h4⟩ := ih (by omega)
    have hl : (q ++ s).length = a.length := h4.length_eq
    rw [List.length_append] at hl
    cases s with
    | nil =>
      simp only [List.length_nil] at hl
      omega
    | cons x s1 =>
      rw [List.range'_concat, List.foldl_append, h1]
      simp only [List.foldl_cons, List.foldl_nil, Nat.one_mul]
      have hi : 1 + m = q.length := by omega
      rw [hi, getD_hole]
      obtain ⟨q2, e1, e2, e3⟩ := insertKey_spec x q x s1
      refine ⟨q2, s1, e1, ?_, e3 h3, ?_⟩
      · have := e2.length_eq
        simp only [List.length_cons] at this
        omega
      · have hp1 : (q2 ++ s1).Perm ((x :: q) ++ s1) := List.Perm.append_right s1 e2
        have hp2 : ((x :: q) ++ s1).Perm (q ++ x :: s1) := List.perm_middle.symm
        exact (hp1.trans hp2).trans h4

/-- C34: for every vector of ints, `insertion_sort` leaves the elements in ascending
order and the vector holds a permutation of its original elements; the vector of
test2/sort.cpp, 5 2 9 1 5 6, becomes 1 2 5 5 6 9. -/
theorem C34_insertion_sort_sorts (a : List Int) :
    (insertion_sort a).Sorted (· ≤ ·) ∧ (insertion_sort a).Perm a ∧
    insertion_sort [5, 2, 9, 1, 5, 6] = [1, 2, 5, 5, 6, 9] := by
  refine ⟨?_, ?_, by decide⟩
  · cases a with
    | nil => exact List.sorted_nil
    | cons x xs =>
      obtain ⟨q, s, h1, h2, h3, h4⟩ := insertion_prefix (x :: xs) xs.length (by simp)
      have hl := h4.length_eq
      rw [List.length_append, h2] at hl
      have hs : s = [] := by
        apply List.eq_nil_of_length_eq_zero
        simp only [List.length_cons] at hl
        omega
      unfold insertion_sort
      simp only [List.length_cons, Nat.add_sub_cancel]
      rw [h1, hs, List.append_nil]
      exact h3
  · cases a with
    | nil => exact List.Perm.refl _
    | cons x xs =>
      obtain ⟨q, s, h1, h2, h3, h4⟩ := insertion_prefix (x :: xs) xs.length (by simp)
      unfold insertion_sort
      simp only [List.length_cons, Nat.add_sub_cancel]
      rw [h1]
      exact h4

theorem getD_set_eq (a : List Int) (i k : Nat) (v : Int) (hi : i < a.length) :
    (a.set i v).getD k 0 = if k = i then v else a.getD k 0 := by
  induction a generalizing i k with
  | nil => simp at hi
  | cons x xs ih =>
    cases i with
    | zero =>
      cases k with
      | zero => rfl
      | succ k => rfl
    | succ i =>
      cases k with
      | zero => rfl
      | succ k =>
        simp only [List.set_cons_succ, List.getD_cons_succ, Nat.succ.injEq]
        exact ih i k (by simpa using hi)

theorem swap_head_perm (xs : List Int) (m : Nat) (x : Int) (hm : m < xs.length) :
    (xs.getD m 0 :: xs.set m x).Perm (x :: xs) := by
  induction xs generalizing m with
  | nil => simp at hm
  | cons y ys ih =>
    cases m with
    | zero => exact List.Perm.swap _ _ _
    | succ m =>
      simp only [List.getD_cons_succ, List.set_cons_succ]
      have h1 : (ys.getD m 0 :: y :: ys.set m x).Perm (y :: ys.getD m 0 :: ys.set m x) :=
        List.Perm.swap _ _ _
      have h2 : (y :: ys.getD m 0 :: ys.set m x).Perm (y :: x :: ys) :=
        List.Perm.cons y (ih m (by simpa using hm))
      exact (h1.trans h2).trans (List.Perm.swap _ _ _)

theorem swap_perm (a : List Int) (i m : Nat) (him : i < m) (hm : m < a.length) :
    ((a.set i (a.getD m 0)).set m (a.getD i 0)).Perm a := by
  induction a generalizing i m with
  | nil => simp at hm
  | cons x xs ih =>
    cases m with
    | zero => omega
    | succ m =>
      cases i with
      | zero =>
        simp only [List.set_cons_zero, List.getD_cons_succ, List.set_cons_succ,
          List.getD_cons_zero]
        exact swap_head_perm xs m x (by simpa using hm)
      | succ i =>
        simp only [List.set_cons_succ, List.getD_cons_succ]
        exact List.Perm.cons x (ih i m (by omega) (by simpa using hm))

theorem minIndex_loop (a : List Int) (i cnt : Nat) :
    i ≤ (List.range' (i + 1) cnt).foldl
        (fun min_idx j => if a.getD j 0 < a.getD min_idx 0 then j else min_idx) i ∧
    (List.range' (i + 1) cnt).foldl
        (fun min_idx j => if a.getD j 0 < a.getD min_idx 0 then j else min_idx) i ≤ i + cnt ∧
    ∀ k, i ≤ k → k ≤ i + cnt →
      a.getD ((List.range' (i + 1) cnt).foldl
        (fun min_idx j => if a.getD j 0 < a.getD min_idx 0 then j else min_idx) i) 0 ≤
        a.getD k 0 := by
  induction cnt with
  | zero =>
    refine ⟨le_refl _, le_refl _, ?_⟩
    intro k h1 h2
    have : k = i := by omega
    rw [this]
    exact le_refl _
  | succ cnt ih =>
    rw [List.range'_concat, List.foldl_append]
    simp only [List.foldl_cons, List.foldl_nil, Nat.one_mul]
    obtain ⟨h1, h2, h3⟩ := ih
    generalize (List.range' (i + 1) cnt).foldl
      (fun min_idx j => if a.getD j 0 < a.getD min_idx 0 then j else min_idx) i = m at h1 h2 h3 ⊢
    by_cases hlt : a.getD (i + 1 + cnt) 0 < a.getD m 0
    · rw [if_pos hlt]
      refine ⟨by omega, by omega, ?_⟩
      intro k hk1 hk2
      by_cases hk : k = i + 1 + cnt
      · rw [hk]
      · have := h3 k hk1 (by omega)
        omega
    · rw [if_neg hlt]
      refine ⟨h1, by omega, ?_⟩
      intro k hk1 hk2
      by_cases hk : k = i + 1 + cnt
      · rw [hk]
        omega
      · exact h3 k hk1 (by omega)

theorem minIndex_spec (a : List Int) (i : Nat) (hi : i < a.length) :
    i ≤ minIndex a.length a i ∧ minIndex a.length a i < a.length ∧
    ∀ k, i ≤ k → k < a.length → a.getD (minIndex a.length a i) 0 ≤ a.getD k 0 := by
  obtain ⟨h1, h2, h3⟩ := minIndex_loop a i (a.length - (i + 1))
  unfold minIndex
  exact ⟨h1, by omega, fun k hk1 hk2 => h3 k hk1 (by omega)⟩

theorem selectStep_spec (a : List Int) (i : Nat) (hi : i < a.length) :
    (selectStep a.length a i).length = a.length ∧
    (selectStep a.length a i).Perm a ∧
    ∀ k, (selectStep a.length a i).getD k 0 =
      a.getD (if k = i then minIndex a.length a i
        else if k = minIndex a.length a i then i else k) 0 := by
  obtain ⟨h1, h2, _⟩ := minIndex_spec a i hi
  unfold selectStep
  simp only
  generalize minIndex a.length a i = m at h1 h2 ⊢
  by_cases hmi : m = i
  · rw [if_neg (by simpa using hmi)]
    refine ⟨rfl, List.Perm.refl _, ?_⟩
    intro k
    by_cases hk : k = i
    · rw [if_pos hk, hk, hmi]
    · rw [if_neg hk, hmi, if_neg hk]
  · rw [if_pos hmi]
    refine ⟨by simp, swap_perm a i m (by omega) h2, ?_⟩
    intro k
    rw [getD_set_eq _ m k _ (by simpa using h2), getD_set_eq a i k _ hi]
    by_cases hk : k = i
    · have hkm : k ≠ m := by omega
      rw [if_neg hkm, if_pos hk, if_pos hk]
    · rw [if_neg hk, if_neg hk]
      by_cases hkm : k = m
      · rw [if_pos hkm, if_pos hkm]
      · rw [if_neg hkm, if_neg hkm]

theorem selection_prefix (a : List Int) (i : Nat) (hi : i ≤ a.length) :
    ((List.range i).foldl (selectStep a.length) a).length = a.length ∧
    ((List.range i).foldl (selectStep a.length) a).Perm a ∧
    ∀ k1 k2, k1 < i → k1 < k2 → k2 < a.length →
      ((List.range i).foldl (selectStep a.length) a).getD k1 0 ≤
        ((List.range i).foldl (selectStep a.length) a).getD k2 0 := by
  induction i with
  | zero =>
    refine ⟨rfl, List.Perm.refl _, ?_⟩
    intro k1 k2 h
    omega
  | succ i ih =>
    obtain ⟨h1, h2, h3⟩ := ih (by omega)
    rw [List.range_succ, List.foldl_append]
    simp only [List.foldl_cons, List.foldl_nil]
    generalize (List.range i).foldl (selectStep a.length) a = b at h1 h2 h3 ⊢
    rw [← h1] at hi h3 ⊢
    obtain ⟨s1, s2, s3⟩ := selectStep_spec b i (by omega)
    obtain ⟨m1, m2, m3⟩ := minIndex_spec b i (by omega)
    refine ⟨s1, s2.trans h2, ?_⟩
    intro k1 k2 hk1 hk12 hk2
    rw [s3 k1, s3 k2]
    generalize minIndex b.length b i = m at m1 m2 m3 ⊢
    by_cases e1 : k1 = i
    · rw [if_pos e1]
      have e2 : k2 ≠ i := by omega
      rw [if_neg e2]
      by_cases e3 : k2 = m
      · rw [if_pos e3]
        exact m3 i (le_refl _) (by omega)
      · rw [if_neg e3]
        exact m3 k2 (by omega) hk2
    · have e4 : k1 ≠ m := by omega
      rw [if_neg e1, if_neg e4]
      by_cases e2 : k2 = i
      · rw [if_pos e2]
        exact h3 k1 m (by omega) (by omega) m2
      · rw [if_neg e2]
        by_cases e3 : k2 = m
        · rw [if_pos e3]
          exact h3 k1 i (by omega) (by omega) (by omega)
        · rw [if_neg e3]
          exact h3 k1 k2 (by omega) hk12 hk2

/-- C35: for every vector of ints, `selection_sort` leaves the elements in ascending
order and the vector holds a permutation of its original elements; the vector of
test2/sort.cpp, 3 7 2 8 1 4, becomes 1 2 3 4 7 8. -/
theorem C35_selection_sort_sorts (a : List Int) :
    (selection_sort a).Sorted (· ≤ ·) ∧ (selection_sort a).Perm a ∧
    selection_sort [3, 7, 2, 8, 1, 4] = [1, 2, 3, 4, 7, 8] := by
  obtain ⟨h1, h2, h3⟩ := selection_prefix a a.length (le_refl _)
  refine ⟨?_, h2, by decide⟩
  unfold selection_sort
  generalize (List.range a.length).foldl (selectStep a.length) a = b at h1 h2 h3 ⊢
  unfold List.Sorted
  rw [List.pairwise_iff_getElem]
  intro i j hi hj hij
  have := h3 i j (by omega) hij (by omega)
  rw [List.getD_eq_getElem b 0 hi, List.getD_eq_getElem b 0 hj] at this
  exact this

end cmake_stu
